import Mathlib

/-!
Verification development for the `scheming` interpreter (`src/scheme.c`).

The file shallowly embeds the parts of the interpreter that the claims
touch: the reader (`read_object` and friends), the writer
(`write_object` and the per-type write functions), the mark-and-sweep
garbage collector (`collect_garbage`, `register_object`), the
open-addressed dictionary and the symbol pool (`put_in_dict`,
`lookup_in_dict`, `wrap_symbol`), the evaluator
(`eval_lazy`, `eval_eager`, `force`, the syntax handlers and the native
procedures), `eq`, and the string primitives.

Modelling conventions:
  * C byte streams become `List Char`; `FILE*` input with `ungetc`
    becomes explicit state passing of the remaining character list.
  * C `int` is `Int` together with `iwrap`, which reduces into the
    two's-complement 32-bit window at every operation where the C code
    can overflow.
  * `DIE(...)` becomes `Except` with an error value; distinct sources
    of fatal errors get distinct constructors.
  * Unbounded C loops and recursion become fuel-indexed recursion; fuel
    exhaustion is a separate `fuel` error that the C program cannot
    produce, and theorems quantify over sufficient fuel.
-/

/-- Scheme data as produced by the reader: nil, booleans, machine
integers, characters, strings, symbols and pairs (`struct object` of
`src/scheme.c` restricted to the variants the parser can build). -/
inductive SObj : Type
  | nil : SObj
  | bool : Bool → SObj
  | int : Int → SObj
  | chr : Char → SObj
  | str : List Char → SObj
  | sym : List Char → SObj
  | pair : SObj → SObj → SObj
  deriving DecidableEq, Repr

/-- Reader-side fatal errors (`DIE` sites of chapter 2 of scheme.c). -/
inductive RdErr : Type
  | prematureEnd : RdErr
  | unmatchedClose : RdErr
  | bufferOverflow : RdErr
  | expectedPair : RdErr
  | fuel : RdErr
  deriving DecidableEq, Repr

/-- Two's-complement wrap into the 32-bit signed window, the effect of
storing an out-of-range value in a C `int`. -/
def iwrap (n : Int) : Int :=
  (n + 2 ^ 31) % 2 ^ 32 - 2 ^ 31

/-- C `isspace` on the characters this code base can meet. -/
def isSpaceC (c : Char) : Bool :=
  c = ' ' || c = '\t' || c = '\n' || c = '\x0b' || c = '\x0c' || c = '\r'

/-- `isspecial` from scheme.c: the characters that terminate an atom
besides whitespace. -/
def isSpecial (c : Char) : Bool :=
  c = '(' || c = ')' || c = ';' || c = '\"' || c = '\''

/-- C `isdigit` (codepoints 48 to 57). -/
def isDigitC (c : Char) : Bool :=
  48 ≤ c.toNat && c.toNat ≤ 57

/-- `fgetc_skip`: fast-forward over whitespace and `;`-to-end-of-line
comments, returning the first significant character (or `none` at end of
input) together with the rest of the stream.  The boolean argument is the
`comment` flag of the C loop. -/
def fgetcSkipAux : Bool → List Char → Option Char × List Char
  | _, [] => (none, [])
  | comment, c :: cs =>
    let comment1 := if c = ';' then true else comment
    let skip := comment1 || isSpaceC c
    let comment2 := if c = '\n' then false else comment1
    if skip then fgetcSkipAux comment2 cs else (some c, cs)

/-- `fgetc_skip` entered with the comment flag off. -/
def fgetcSkip (input : List Char) : Option Char × List Char :=
  fgetcSkipAux false input

/-- `fgetc_read_string`: one character of string contents.  `none` (the
C `EOF` return) signals the closing double quote; `\n` and any other
backslash escape collapse to a single character. -/
def fgetcReadString : List Char → Except RdErr (Option Char × List Char)
  | [] => .error .prematureEnd
  | c :: rest =>
    if c = '\"' then .ok (none, rest)
    else if c = '\\' then
      match rest with
      | [] => .error .prematureEnd
      | e :: rest1 => .ok (some (if e = 'n' then '\n' else e), rest1)
    else .ok (some c, rest)

/-- The loop of `read_string`: keep the characters accumulated so far
(in order) and the buffer fill count; storing the character that makes
the fill reach 10240 is the `Buffer overflow` fatal error. -/
def readStringAux (fill : Nat) (acc : List Char) :
    List Char → Except RdErr (List Char × List Char)
  | [] => .error .prematureEnd
  | c :: rest =>
    if c = '\"' then .ok (acc.reverse, rest)
    else if c = '\\' then
      match rest with
      | [] => .error .prematureEnd
      | e :: rest1 =>
        if fill + 1 ≥ 10240 then .error .bufferOverflow
        else readStringAux (fill + 1) ((if e = 'n' then '\n' else e) :: acc) rest1
    else
      if fill + 1 ≥ 10240 then .error .bufferOverflow
      else readStringAux (fill + 1) (c :: acc) rest

/-- `read_string` (the opening quote has already been consumed). -/
def readString (input : List Char) : Except RdErr (SObj × List Char) :=
  match readStringAux 0 [] input with
  | .error e => .error e
  | .ok (content, rest) => .ok (.str content, rest)

/-- The loop of `read_atom` via `fgetc_read_atom`: collect characters
until end of input, whitespace or a special character (which is pushed
back), with the same 10240-byte buffer check as `read_string`. -/
def readAtomAux (fill : Nat) (acc : List Char) :
    List Char → Except RdErr (List Char × List Char)
  | [] => .ok (acc.reverse, [])
  | c :: rest =>
    if isSpaceC c || isSpecial c then .ok (acc.reverse, c :: rest)
    else if fill + 1 ≥ 10240 then .error .bufferOverflow
    else readAtomAux (fill + 1) (c :: acc) rest

/-- `read_character`: the character right after a lone `#\` token;
end of input or whitespace yields a space. -/
def readCharacter : List Char → SObj × List Char
  | [] => (.chr ' ', [])
  | c :: rest => if isSpaceC c then (.chr ' ', rest) else (.chr c, rest)

/-- `parse_bool`. -/
def parseBool (text : List Char) : Option SObj :=
  if text = [ '#', 'f' ] then some (.bool false)
  else if text = [ '#', 't' ] then some (.bool true)
  else none

/-- `parse_char`. -/
def parseChar (text : List Char) : Option SObj :=
  if text = [ '#', '\\', 'n', 'e', 'w', 'l', 'i', 'n', 'e' ] then some (.chr '\n')
  else if text = [ '#', '\\', 's', 'p', 'a', 'c', 'e' ] then some (.chr ' ')
  else if text = [ '#', '\\' ] then some (.chr ' ')
  else
    match text with
    | [ '#', '\\', c ] => some (.chr c)
    | _ => none

/-- The digit loop of `parse_int`: accumulator and digit count; a
non-digit character rejects the whole token. -/
def parseIntLoop : Int → Nat → List Char → Option (Int × Nat)
  | accum, digits, [] => some (accum, digits)
  | accum, digits, c :: cs =>
    if isDigitC c then
      parseIntLoop (iwrap (accum * 10 + ((c.toNat : Int) - 48))) (digits + 1) cs
    else none

/-- The sign-handling prologue of `parse_int`: a leading `-` sets the
sign to minus one and moves the start index past it. -/
def parseIntSign (text : List Char) : Int × List Char :=
  match text with
  | '-' :: rest => (-1, rest)
  | _ => (1, text)

/-- `parse_int`: optional leading minus, then digits; no digits means
the token is not an integer. -/
def parseInt (text : List Char) : Option SObj :=
  match parseIntLoop 0 0 (parseIntSign text).2 with
  | none => none
  | some (accum, digits) =>
    if digits = 0 then none
    else some (.int (iwrap ((parseIntSign text).1 * accum)))

/-- `parse_atom`: boolean, else integer, else character, else symbol. -/
def parseAtom (text : List Char) : SObj :=
  match parseBool text with
  | some r => r
  | none =>
    match parseInt text with
    | some r => r
    | none =>
      match parseChar text with
      | some r => r
      | none => .sym text

/-- `read_atom`: collect the token, divert a lone `#\` to
`read_character`, otherwise classify with `parse_atom`. -/
def readAtom (input : List Char) : Except RdErr (SObj × List Char) :=
  match readAtomAux 0 [] input with
  | .error e => .error e
  | .ok (buffer, rest) =>
    if buffer = [ '#', '\\' ] then .ok (readCharacter rest)
    else .ok (parseAtom buffer, rest)

/-- `push_to_list`: cons onto the front of an accumulator list. -/
def pushToList (acc item : SObj) : SObj :=
  .pair item acc

/-- `pop_from_list`: `none` on nil, the head and tail of a pair, and a
fatal error (`assert_pair`) on anything else. -/
def popFromList : SObj → Except RdErr (Option (SObj × SObj))
  | .nil => .ok none
  | .pair a d => .ok (some (a, d))
  | _ => .error .expectedPair

/-- The loop of `reverse_read_list`: pop from the parse accumulator and
push onto the result, except that the symbol `.` collapses the result
into its own car (building a dotted pair). -/
def reverseReadList : SObj → SObj → Except RdErr SObj
  | result, .nil => .ok result
  | result, .pair a d =>
    if a = .sym [ '.' ] then
      match result with
      | .pair r _ => reverseReadList r d
      | _ => .error .expectedPair
    else
      reverseReadList (pushToList result a) d
  | _, _ => .error .expectedPair

mutual

/-- `read_object`: dispatch on the first significant character.  `none`
in the result is the C `NULL` return meaning end of input. -/
def readObject : Nat → List Char → Except RdErr (Option SObj × List Char)
  | 0, _ => .error .fuel
  | fuel + 1, input =>
    match fgetcSkip input with
    | (none, rest) => .ok (none, rest)
    | (some c, rest) =>
      if c = '(' then
        match readListLoop fuel .nil rest with
        | .error e => .error e
        | .ok (v, rest1) => .ok (some v, rest1)
      else if c = ')' then .error .unmatchedClose
      else if c = '\'' then
        match readQuote fuel rest with
        | .error e => .error e
        | .ok (v, rest1) => .ok (some v, rest1)
      else if c = '\"' then
        match readString rest with
        | .error e => .error e
        | .ok (v, rest1) => .ok (some v, rest1)
      else
        match readAtom (c :: rest) with
        | .error e => .error e
        | .ok (v, rest1) => .ok (some v, rest1)
  termination_by structural fuel => fuel

/-- The loop of `read_list` with `read_next_object` inlined: accumulate
objects until a closing parenthesis, then run `reverse_read_list`. -/
def readListLoop : Nat → SObj → List Char → Except RdErr (SObj × List Char)
  | 0, _, _ => .error .fuel
  | fuel + 1, acc, input =>
    match fgetcSkip input with
    | (none, _) => .error .prematureEnd
    | (some c, rest) =>
      if c = ')' then
        match reverseReadList .nil acc with
        | .error e => .error e
        | .ok v => .ok (v, rest)
      else
        match readObject fuel (c :: rest) with
        | .error e => .error e
        | .ok (none, _) => .error .prematureEnd
        | .ok (some obj, rest1) => readListLoop fuel (pushToList acc obj) rest1
  termination_by structural fuel => fuel

/-- `read_quote`: read one object and wrap it as `(quote <object>)`. -/
def readQuote : Nat → List Char → Except RdErr (SObj × List Char)
  | 0, _ => .error .fuel
  | fuel + 1, input =>
    match readObject fuel input with
    | .error e => .error e
    | .ok (none, _) => .error .prematureEnd
    | .ok (some obj, rest) =>
      .ok (pushToList (pushToList .nil obj) (.sym [ 'q', 'u', 'o', 't', 'e' ]), rest)
  termination_by structural fuel => fuel

end

/-- Decimal digits of a natural number, fuel-indexed so that the
definition is structurally recursive (any fuel above the digit count
gives the digits `fprintf "%d"` would print). -/
def writeNatAux : Nat → Nat → List Char
  | 0, _ => []
  | fuel + 1, n =>
    if n < 10 then [ Char.ofNat (48 + n) ]
    else writeNatAux fuel (n / 10) ++ [ Char.ofNat (48 + n % 10) ]

/-- Decimal digits of a natural number, as written by `fprintf "%d"`. -/
def writeNat (n : Nat) : List Char :=
  writeNatAux (n + 1) n

/-- `write_int` (`fprintf "%d"`). -/
def writeInt (n : Int) : List Char :=
  if n < 0 then '-' :: writeNat n.natAbs else writeNat n.natAbs

/-- `write_char`: `#\newline`, `#\space`, or `#\` followed by the raw
character. -/
def writeChar (c : Char) : List Char :=
  if c = '\n' then [ '#', '\\', 'n', 'e', 'w', 'l', 'i', 'n', 'e' ]
  else if c = ' ' then [ '#', '\\', 's', 'p', 'a', 'c', 'e' ]
  else [ '#', '\\', c ]

/-- `write_object` on the non-pair variants: the per-type write
functions `write_nil`, `write_bool`, `write_int`, `write_char`,
`write_string` (verbatim contents between quotes, no escaping) and
`write_symbol`. -/
def writeAtom : SObj → List Char
  | .nil => [ '(', ')' ]
  | .bool true => [ '#', 't' ]
  | .bool false => [ '#', 'f' ]
  | .int n => writeInt n
  | .chr c => writeChar c
  | .str s => '\"' :: s ++ [ '\"' ]
  | .sym s => s
  | .pair _ _ => []

mutual

/-- `write_object` restricted to reader-produced data; `write_pair` for
pairs, the per-type write function otherwise. -/
def writeObj : SObj → List Char
  | .pair a d => '(' :: writeObj a ++ writePairTail d
  | x => writeAtom x
  termination_by structural v => v

/-- The loop of `write_pair` after the first element: keep writing
space-separated elements while the cdr is a pair; a non-nil final cdr is
written as ` . tail`. -/
def writePairTail : SObj → List Char
  | .pair a d => ' ' :: writeObj a ++ writePairTail d
  | .nil => [ ')' ]
  | x => ' ' :: '.' :: ' ' :: writeAtom x ++ [ ')' ]
  termination_by structural v => v

end


/-- Fuel that suffices for `read_object` on written output: the number
of objects in the tree (list elements cost one reader call each). -/
def rsize : SObj → Nat
  | .pair a d => 1 + rsize a + rsize d
  | _ => 1

/-- The remaining input may follow a written atom only if it starts with
a character that terminates atoms (or is empty). -/
def delimOk : List Char → Prop
  | [] => True
  | c :: _ => isSpaceC c = true ∨ isSpecial c = true

/-- Value of a decimal digit string (used to relate `writeNat` to
`parse_int`). -/
def digitsValN (l : List Char) : Nat :=
  l.foldl (fun a c => a * 10 + (c.toNat - 48)) 0

/-- `parse_int`'s accumulator over a digit string, without wrapping. -/
def digitsAccI (a : Int) (l : List Char) : Int :=
  l.foldl (fun x c => x * 10 + ((c.toNat : Int) - 48)) a

/-- A character may appear in an atom token: not whitespace and not one
of the special delimiter characters. -/
def atomChar (c : Char) : Prop :=
  isSpaceC c = false ∧ isSpecial c = false

instance (c : Char) : Decidable (atomChar c) :=
  inferInstanceAs (Decidable (_ ∧ _))

/-- The values for which `write` output re-parses to a structurally
equal value.  The structural side
conditions (`sym` cases) hold for every symbol the reader can produce;
the material restrictions are: strings must not contain a double quote
or a backslash (`write_string` does not escape), characters must be
newline, space or non-whitespace (other whitespace characters are
written raw and read back as a space), and the symbol `.` is excluded
(written inside a list it would re-parse as a dotted pair marker). -/
inductive Rereadable : SObj → Prop
  | nil : Rereadable .nil
  | bool (b : Bool) : Rereadable (.bool b)
  | int (n : Int) (lo : -2 ^ 31 ≤ n) (hi : n < 2 ^ 31) : Rereadable (.int n)
  | chr (c : Char) (h : c = '\n' ∨ c = ' ' ∨ isSpaceC c = false) :
      Rereadable (.chr c)
  | str (s : List Char) (h : ∀ c ∈ s, c ≠ '\"' ∧ c ≠ '\\')
      (hlen : s.length ≤ 10239) : Rereadable (.str s)
  | sym (s : List Char) (hne : s ≠ []) (hch : ∀ c ∈ s, atomChar c)
      (hb : parseBool s = none) (hi : parseInt s = none)
      (hc : parseChar s = none) (hpre : s ≠ [ '#', '\\' ])
      (hdot : s ≠ [ '.' ]) (hlen : s.length ≤ 10239) : Rereadable (.sym s)
  | pair (a d : SObj) (ha : Rereadable a) (hd : Rereadable d) :
      Rereadable (.pair a d)

/-- The accumulator `read_list` has built once it has consumed the
written form of the chain `d` (elements pushed to the front, a dotted
tail preceded by the marker symbol `.`). -/
def spineAccum (acc : SObj) : SObj → SObj
  | .pair a d => spineAccum (.pair a acc) d
  | .nil => acc
  | x => .pair x (.pair (.sym [ '.' ]) acc)

/-- Replace the final (non-pair) tail of a chain: `chainAppend d r` is
`d` with `r` grafted where `d` ends in nil; a dotted tail keeps itself. -/
def chainAppend : SObj → SObj → SObj
  | .pair a d, r => .pair a (chainAppend d r)
  | .nil, r => r
  | x, _ => x

-- -------------------------------------------------------------------
-- Memory manager (chapter 5 of scheme.c): mark-and-sweep collection
-- and the registration trigger.  Objects are identified by numbers;
-- the object graph visible to the collector is the stack-reference
-- count (`hasrefs`) and the `reach`-children of every object.
-- -------------------------------------------------------------------

/-- `enum gc_state`. -/
inductive GCState : Type
  | reached : GCState
  | reachable : GCState
  | garbage : GCState
  deriving DecidableEq, Repr

/-- The object graph as the collector sees it: per object, the stack
reference count and the objects its `reach` handler marks. -/
structure GCHeap : Type where
  stackrefs : Nat → Nat
  children : Nat → List Nat

/-- The collector's mutable state: each object's `gc_state` field and
the `REACHABLE_OBJECTS` work stack (head = top). -/
structure GCRun : Type where
  states : Nat → GCState
  queue : List Nat

/-- One iteration of the `mark_globally_reachable` loop: an object
without stack references becomes `GARBAGE`; otherwise it becomes
`REACHABLE` and is pushed. -/
def markStep (h : GCHeap) (r : GCRun) (id : Nat) : GCRun :=
  if h.stackrefs id > 0 then
    { states := Function.update r.states id .reachable,
      queue := id :: r.queue }
  else
    { states := Function.update r.states id .garbage, queue := r.queue }

/-- `mark_globally_reachable`: walk `ALL_OBJECTS` from the last to the
first entry, applying `markStep` with an emptied work stack. -/
def markGlobally (h : GCHeap) (all : List Nat) (init : Nat → GCState) :
    GCRun :=
  all.reverse.foldl (markStep h) { states := init, queue := [] }

/-- `mark_reachable`, folded over the children of one object. -/
def reachChildren (r : GCRun) (cs : List Nat) : GCRun :=
  cs.foldl
    (fun acc c =>
      if acc.states c = .garbage then
        { states := Function.update acc.states c .reachable,
          queue := c :: acc.queue }
      else acc)
    r

/-- `propagate_reachability`: pop the work stack; a still-`REACHABLE`
object is promoted to `REACHED` (`reach`) and its children are marked.
The fuel bounds the loop; `2 * |ALL_OBJECTS| + 1` always suffices. -/
def propagate (h : GCHeap) : Nat → GCRun → (Nat → GCState)
  | 0, r => r.states
  | fuel + 1, r =>
    match r.queue with
    | [] => r.states
    | id :: q =>
      if r.states id = .reachable then
        propagate h fuel
          (reachChildren
            { states := Function.update r.states id .reached, queue := q }
            (h.children id))
      else propagate h fuel { states := r.states, queue := q }

/-- `collect_garbage` followed by `dispose_garbage`'s compaction: the
registry keeps exactly the objects that ended up `REACHED`, in
registration order. -/
def collectGarbage (h : GCHeap) (all : List Nat) (init : Nat → GCState)
    (fuel : Nat) : List Nat :=
  let final := propagate h fuel (markGlobally h all init)
  all.filter (fun id => final id = .reached)

/-- `register_object`: when the registry size exceeds the threshold,
collect and set the threshold to twice the surviving count, then push
the new object.  Returns the new registry and the new threshold. -/
def registerObject (h : GCHeap) (init : Nat → GCState) (fuel : Nat)
    (all : List Nat) (threshold : Nat) (obj : Nat) : List Nat × Nat :=
  if all.length > threshold then
    let survivors := collectGarbage h all init fuel
    (survivors ++ [ obj ], survivors.length * 2)
  else
    (all ++ [ obj ], threshold)

-- -------------------------------------------------------------------
-- String primitives (chapter 14 of scheme.c): `native_string_set`
-- writes `str->value[index - 1] = ch->value` and returns its first
-- argument; `native_string_ref` reads `unwrap_string(obj)[index]`.
-- Neither checks bounds; an out-of-range access is undefined
-- behaviour in the C program and is modelled as `none`.
-- -------------------------------------------------------------------

/-- `native_string_set` on a string value: store the character at
byte position `index - 1`. -/
def nativeStringSet (s : List Char) (index : Int) (c : Char) :
    Option (List Char) :=
  if 0 ≤ index - 1 ∧ index - 1 < (s.length : Int) then
    some (s.set (index - 1).toNat c)
  else none

/-- `native_string_ref` on a string value: read byte position
`index`. -/
def nativeStringRef (s : List Char) (index : Int) : Option Char :=
  if 0 ≤ index ∧ index < (s.length : Int) then s.get? index.toNat
  else none

-- -------------------------------------------------------------------
-- Heap objects and `eq` (chapter 15 of scheme.c).  `eq` receives two
-- object pointers; pointers become addresses into a heap of cells,
-- and `wrap_int` allocates a fresh cell at the end of the heap.
-- -------------------------------------------------------------------

/-- The payload of a heap object, as far as `eq` can observe it. -/
inductive Cell : Type
  | nil : Cell
  | bool : Bool → Cell
  | int : Int → Cell
  | chr : Char → Cell
  | str : List Char → Cell
  | sym : List Char → Cell
  | pair : Nat → Nat → Cell
  deriving DecidableEq, Repr

/-- `to_pair` succeeds exactly on these cells. -/
def Cell.isPair : Cell → Bool
  | .pair _ _ => true
  | _ => false

/-- `to_symbol` succeeds exactly on these cells. -/
def Cell.isSym : Cell → Bool
  | .sym _ => true
  | _ => false

/-- `to_char` succeeds exactly on these cells. -/
def Cell.isChr : Cell → Bool
  | .chr _ => true
  | _ => false

/-- The object heap: a cell per allocated address, in allocation
order. -/
structure CHeap : Type where
  cells : List Cell

/-- Pointer dereference. -/
def lookupCell (h : CHeap) (a : Nat) : Option Cell := h.cells.get? a

/-- `wrap_int` (`src/scheme.c:2471-2476`): always allocate a fresh
object holding the value; returns the new heap and the new address. -/
def wrapInt (h : CHeap) (v : Int) : CHeap × Nat :=
  ({ cells := h.cells ++ [ Cell.int v ] }, h.cells.length)

/-- How a run of `eq` can abort: `typeMismatch` is the
`DIE("Don't know how to eq? ...")` call, `badAddr` a dereference of an
unallocated address (impossible in the C program), `fuel` exhaustion
of the recursion allowance. -/
inductive EqErr : Type
  | typeMismatch : EqErr
  | badAddr : EqErr
  | fuel : EqErr
  deriving DecidableEq, Repr

/-- `eq` (`src/scheme.c:3358-3387`): pointer-equal objects are `eq?`;
two pairs compare recursively on the cars and iteratively on the
cdrs; two symbols compare by name (`strcmp`); two characters by
value; every other combination of distinct objects dies. -/
def eqObj (h : CHeap) : Nat → Nat → Nat → Except EqErr Bool
  | 0, _, _ => .error .fuel
  | fuel + 1, x, y =>
    if x = y then .ok true
    else
      match lookupCell h x, lookupCell h y with
      | some (Cell.pair ax dx), some (Cell.pair ay dy) =>
        match eqObj h fuel ax ay with
        | .ok true => eqObj h fuel dx dy
        | .ok false => .ok false
        | .error e => .error e
      | some (Cell.sym nx), some (Cell.sym ny) => .ok (decide (nx = ny))
      | some (Cell.chr a), some (Cell.chr b) => .ok (decide (a = b))
      | some _, some _ => .error .typeMismatch
      | _, _ => .error .badAddr

-- -------------------------------------------------------------------
-- Pattern-rule macros.  `define-syntax`/`syntax-rules` belong to the
-- program's intended surface but are not present in `src/scheme.c`;
-- the following definitions are modelled from the specification text
-- (spec.md 4.7) rather than translated from C.
-- -------------------------------------------------------------------

/-- Modelled from the spec: a proper list in the object graph, as a
Lean list of its elements; `none` on an improper list. -/
def sobjToList : SObj → Option (List SObj)
  | .nil => some []
  | .pair a d => (sobjToList d).map (a :: ·)
  | _ => none

/-- Modelled from the spec: a Lean list back into a proper list. -/
def listOfSObj : List SObj → SObj
  | [] => .nil
  | a :: r => .pair a (listOfSObj r)

/-- Modelled from the spec: the ellipsis marker `...`. -/
def ellipsisSym : SObj := .sym [ '.', '.', '.' ]

/-- Modelled from the spec: how a macro expansion can fail fatally. -/
inductive ExpandErr : Type
  | noRuleMatches : ExpandErr
  | badForm : ExpandErr
  deriving DecidableEq, Repr

/-- Modelled from the spec: one `(pattern template)` rule. -/
structure SRRule : Type where
  pattern : SObj
  template : SObj
  deriving DecidableEq, Repr

/-- Modelled from the spec: a macro object carries a literals list and
an ordered list of rules. -/
structure SRMacro : Type where
  literals : List SObj
  rules : List SRRule
  deriving DecidableEq, Repr

/-- Modelled from the spec: the pattern symbols other than the head
keyword. -/
def patternParams (p : SObj) : Option (List SObj) :=
  match sobjToList p with
  | some (_ :: ps) => some ps
  | _ => none

/-- Modelled from the spec: walk pattern symbols and body elements in
parallel; each pattern symbol binds to the corresponding body
element, and a symbol followed by the ellipsis captures all remaining
body elements as a list.  `none` when the arity does not match. -/
def bindParams : List SObj → List SObj → Option (List (SObj × SObj))
  | [], [] => some []
  | [], _ :: _ => none
  | x :: ps, body =>
    if ps = [ ellipsisSym ] then some [ (x, listOfSObj body) ]
    else
      match body with
      | [] => none
      | b :: bs => (bindParams ps bs).map ((x, b) :: ·)

/-- Modelled from the spec: the bindings of one rule against the
operand list, or `none` when its arity does not match. -/
def ruleMatch (r : SRRule) (body : List SObj) :
    Option (List (SObj × SObj)) :=
  match patternParams r.pattern with
  | some ps => bindParams ps body
  | none => none

/-- Modelled from the spec: the first binding of a pattern symbol. -/
def lookupBind (binds : List (SObj × SObj)) (s : SObj) : Option SObj :=
  match binds with
  | [] => none
  | (k, v) :: r => if k = s then some v else lookupBind r s

/-- Modelled from the spec: append a captured proper list onto a
tail, for splicing. -/
def appendSObj : SObj → SObj → SObj
  | .nil, t => t
  | .pair a d, t => .pair a (appendSObj d t)
  | x, _ => x

/-- Modelled from the spec: substitute bindings into the template; a
bound symbol followed by the ellipsis splices its captured list. -/
def substTemplate (binds : List (SObj × SObj)) : SObj → SObj
  | .pair a (.pair e d) =>
    if e = ellipsisSym then
      match lookupBind binds a with
      | some v => appendSObj v (substTemplate binds d)
      | none => .pair (substTemplate binds a)
          (.pair ellipsisSym (substTemplate binds d))
    else .pair (substTemplate binds a) (substTemplate binds (.pair e d))
  | .pair a d => .pair (substTemplate binds a) (substTemplate binds d)
  | s =>
    match lookupBind binds s with
    | some v => v
    | none => s

/-- Modelled from the spec: `(pattern template)` clauses in order. -/
def parseRules : List SObj → Option (List SRRule)
  | [] => some []
  | clause :: rest =>
    match sobjToList clause with
    | some [ p, t ] =>
      (parseRules rest).map ({ pattern := p, template := t } :: ·)
    | _ => none

/-- Modelled from the spec: evaluating
`(syntax-rules (literals...) (pattern template)...)` yields a macro
object holding the literals and the rules. -/
def evalSyntaxRules (code : SObj) : Except ExpandErr SRMacro :=
  match sobjToList code with
  | some (lits :: clauses) =>
    match sobjToList lits, parseRules clauses with
    | some ls, some rs => .ok { literals := ls, rules := rs }
    | _, _ => .error .badForm
  | _ => .error .badForm

/-- Modelled from the spec: try the rules in order; the first whose
arity matches is applied; none matching is fatal. -/
def expandRules : List SRRule → List SObj → Except ExpandErr SObj
  | [], _ => .error .noRuleMatches
  | r :: rest, body =>
    match ruleMatch r body with
    | some binds => .ok (substTemplate binds r.template)
    | none => expandRules rest body

/-- Modelled from the spec: expansion of a macro at a call site with
operand list `body`. -/
def expandMacro (m : SRMacro) (body : List SObj) : Except ExpandErr SObj :=
  expandRules m.rules body

/-- Modelled from the spec: the concrete example rule `((w t) t)`. -/
def exRule : SRRule :=
  { pattern := listOfSObj [ SObj.sym [ 'w' ], SObj.sym [ 't' ] ],
    template := SObj.sym [ 't' ] }

/-- Modelled from the spec: the concrete example macro
`(syntax-rules () ((w t) t))`. -/
def exMacro : SRMacro := { literals := [], rules := [ exRule ] }

-- -------------------------------------------------------------------
-- The evaluator (chapters 3, 10-13 of scheme.c).  Code is the parsed
-- object graph (`SObj`); runtime values (`EObj`) additionally contain
-- lambdas, syntaxes, natives and thunks.  Scopes and lambdas live in
-- a heap (`EState`) because scopes are mutated by `define` and are
-- captured by reference; the scope dictionary is modelled as an
-- association list with the same observable behaviour (`put_in_dict`
-- reports an existing key, `lookup_in_dict` finds the bound value).
-- Alongside the value, every evaluator function returns the maximum
-- host-stack depth (in modelled evaluator frames) that its C
-- counterpart uses, counted from its own frame; leaf helpers add
-- constants only and are folded into the caller's frame.
-- -------------------------------------------------------------------

/-- The built-in syntaxes modelled here (a subset of the table in
`register_builtins`, `src/scheme.c:3801-3848`). -/
inductive SynId : Type
  | sdefine : SynId
  | sif : SynId
  | squote : SynId
  | sletrec : SynId
  | slet : SynId
  | slambda : SynId
  deriving DecidableEq, Repr

/-- The native procedures modelled here. -/
inductive NatId : Type
  | neq : NatId
  | nminus : NatId
  deriving DecidableEq, Repr

/-- Runtime values. -/
inductive EObj : Type
  | nil : EObj
  | bool : Bool → EObj
  | int : Int → EObj
  | chr : Char → EObj
  | str : List Char → EObj
  | sym : List Char → EObj
  | pair : EObj → EObj → EObj
  | lam : Nat → EObj
  | syn : SynId → EObj
  | prim : NatId → EObj
  | thunk : Nat → List EObj → EObj

/-- Parsed data evaluates to itself. -/
def toEObj : SObj → EObj
  | .nil => .nil
  | .bool b => .bool b
  | .int n => .int n
  | .chr c => .chr c
  | .str s => .str s
  | .sym s => .sym s
  | .pair a d => .pair (toEObj a) (toEObj d)

/-- `is_false` (`src/scheme.c:2622-2625`): only the boolean false
object is false. -/
def isFalseO : EObj → Bool
  | .bool false => true
  | _ => false

/-- `is_true` (`src/scheme.c:2627-2630`). -/
def isTrueO (v : EObj) : Bool := ! isFalseO v

/-- One scope: its bindings and its parent. -/
structure ScopeRec : Type where
  binds : List (List Char × EObj)
  parent : Option Nat

/-- One lambda: parameter names, body, captured scope. -/
structure LamRec : Type where
  params : List (List Char)
  body : SObj
  scope : Nat

/-- The evaluator heap: scopes and lambdas, addressed by index. -/
structure EState : Type where
  scopes : List ScopeRec
  lams : List LamRec

/-- How evaluation can abort. -/
inductive EvErr : Type
  | undefinedVariable : List Char → EvErr
  | alreadyDefined : List Char → EvErr
  | malformed : EvErr
  | argCount : EvErr
  | typeErr : EvErr
  | overflow : EvErr
  | badState : EvErr
  | fuel : EvErr
  deriving DecidableEq, Repr

/-- `lookup_in_dict` on the association-list model. -/
def lookupBinds : List (List Char × EObj) → List Char → Option EObj
  | [], _ => none
  | (k, v) :: r, key => if k = key then some v else lookupBinds r key

/-- `lookup_in_scope` (`src/scheme.c:2880-2889`): walk the scope
chain.  The fuel only bounds the chain walk; `st.scopes.length + 1`
always suffices for the states the evaluator builds. -/
def lookupScope (st : EState) : Nat → Option Nat → List Char → Option EObj
  | 0, _, _ => none
  | _ + 1, none, _ => none
  | fuel + 1, some a, key =>
    match st.scopes.get? a with
    | none => none
    | some r =>
      match lookupBinds r.binds key with
      | some v => some v
      | none => lookupScope st fuel r.parent key

/-- `bind_to_scope`/`define` (`src/scheme.c:2870-2877`, `1532-1536`):
dies when the key is already bound in this scope. -/
def bindToScope (st : EState) (a : Nat) (key : List Char) (v : EObj) :
    Except EvErr EState :=
  match st.scopes.get? a with
  | none => .error .badState
  | some r =>
    match lookupBinds r.binds key with
    | some _ => .error (.alreadyDefined key)
    | none =>
      .ok ⟨st.scopes.set a ⟨r.binds ++ [ (key, v) ], r.parent⟩, st.lams⟩

/-- `derive_scope` (`src/scheme.c:2932-2938`): a fresh empty scope. -/
def deriveScope (st : EState) (parent : Option Nat) : EState × Nat :=
  (⟨st.scopes ++ [ ⟨[], parent⟩ ], st.lams⟩, st.scopes.length)

/-- The parameter loop of `wrap_lambda`: every formal must be a
symbol; a non-list tail dies in `pop_from_list`. -/
def parseParams : SObj → Option (List (List Char))
  | .nil => some []
  | .pair (.sym s) r => (parseParams r).map (s :: ·)
  | _ => none

/-- `wrap_lambda` (`src/scheme.c:3563-3573`). -/
def wrapLambda (st : EState) (sc : Nat) (formals body : SObj) :
    Option (EState × Nat) :=
  (parseParams formals).map fun ps =>
    ((⟨st.scopes, st.lams ++ [ ⟨ps, body, sc⟩ ]⟩ : EState), st.lams.length)

/-- The parameter-binding loop of `invoke_lambda`. -/
def bindAll : EState → Nat → List (List Char) → List EObj →
    Except EvErr EState
  | st, _, [], [] => .ok st
  | st, sc, k :: ks, v :: vs =>
    match bindToScope st sc k v with
    | .ok st1 => bindAll st1 sc ks vs
    | .error e => .error e
  | _, _, _, _ => .error .argCount

/-- The modelled native procedures: `=` and `-` take exactly two
integers (`native_num_equals`, `native_num_minus`,
`src/scheme.c:3273-3295`). -/
def invokePrim : NatId → List EObj → Except EvErr EObj
  | .neq, [ .int a, .int b ] => .ok (.bool (decide (a = b)))
  | .neq, [ _, _ ] => .error .typeErr
  | .neq, _ => .error .argCount
  | .nminus, [ .int a, .int b ] => .ok (.int (iwrap (a - b)))
  | .nminus, [ _, _ ] => .error .typeErr
  | .nminus, _ => .error .argCount

/-- `syntax_quote` (`src/scheme.c:1545-1551`): the first element of
the code, verbatim. -/
def syntaxQuote (st : EState) (code : SObj) :
    Except EvErr (EObj × EState × Nat) :=
  match code with
  | .pair r _ => .ok (toEObj r, st, 1)
  | _ => .error .malformed

/-- `syntax_lambda` (`src/scheme.c:3457-3461`). -/
def syntaxLambda (st : EState) (sc : Nat) (code : SObj) :
    Except EvErr (EObj × EState × Nat) :=
  match code with
  | .pair formals body =>
    match wrapLambda st sc formals body with
    | some (st1, addr) => .ok (.lam addr, st1, 1)
    | none => .error .malformed
  | _ => .error .malformed

mutual

/-- `eval_lazy` (`src/scheme.c:991-1002`): a symbol is a variable
lookup (`eval_var`, dying on an unbound name), a pair is an
S-expression, anything else evaluates to itself. -/
def evalLazy : Nat → EState → Nat → SObj →
    Except EvErr (EObj × EState × Nat)
  | 0, _, _, _ => .error .fuel
  | fuel + 1, st, sc, expr =>
    match expr with
    | .sym name =>
      match lookupScope st (st.scopes.length + 1) (some sc) name with
      | some v => .ok (v, st, 1)
      | none => .error (.undefinedVariable name)
    | .pair head body =>
      match evalSexpr fuel st sc head body with
      | .ok (v, st1, d) => .ok (v, st1, d + 1)
      | .error e => .error e
    | _ => .ok (toEObj expr, st, 1)
  termination_by structural fuel => fuel

/-- `eval_eager` (`src/scheme.c:930-934`): lazy evaluation followed
by `force`. -/
def evalEager : Nat → EState → Nat → SObj →
    Except EvErr (EObj × EState × Nat)
  | 0, _, _, _ => .error .fuel
  | fuel + 1, st, sc, expr =>
    match evalLazy fuel st sc expr with
    | .ok (v, st1, d1) =>
      match force fuel st1 v with
      | .ok (v2, st2, d2) => .ok (v2, st2, 1 + max d1 d2)
      | .error e => .error e
    | .error e => .error e
  termination_by structural fuel => fuel

/-- `force` (`src/scheme.c:946-957`): the trampoline.  Thunks are
evaluated in a loop — `eval_thunk` frames nest under the single
`force` frame instead of on top of each other. -/
def force : Nat → EState → EObj → Except EvErr (EObj × EState × Nat)
  | 0, _, _ => .error .fuel
  | fuel + 1, st, v =>
    match v with
    | .thunk lamAddr args =>
      match invokeLambda fuel st lamAddr args with
      | .ok (v1, st1, d1) =>
        match force fuel st1 v1 with
        | .ok (v2, st2, d2) => .ok (v2, st2, max (d1 + 2) d2)
        | .error e => .error e
      | .error e => .error e
    | _ => .ok (v, st, 1)
  termination_by structural fuel => fuel

/-- `eval_sexpr` (`src/scheme.c:1031-1041`): evaluate the head; a
syntax object receives the body verbatim, anything else goes through
`eval_funcall`. -/
def evalSexpr : Nat → EState → Nat → SObj → SObj →
    Except EvErr (EObj × EState × Nat)
  | 0, _, _, _, _ => .error .fuel
  | fuel + 1, st, sc, head, body =>
    match evalEager fuel st sc head with
    | .ok (hv, st1, d1) =>
      match hv with
      | .syn sid =>
        match syntaxDispatch fuel sid st1 sc body with
        | .ok (v, st2, d2) => .ok (v, st2, 1 + max d1 (d2 + 1))
        | .error e => .error e
      | _ =>
        match evalFuncall fuel st1 sc hv body with
        | .ok (v, st2, d2) => .ok (v, st2, 1 + max d1 d2)
        | .error e => .error e
    | .error e => .error e
  termination_by structural fuel => fuel

/-- `eval_syntax` (`src/scheme.c:2979-2986`): dispatch to the
handler. -/
def syntaxDispatch : Nat → SynId → EState → Nat → SObj →
    Except EvErr (EObj × EState × Nat)
  | 0, _, _, _, _ => .error .fuel
  | fuel + 1, sid, st, sc, code =>
    match sid with
    | .sdefine => syntaxDefine fuel st sc code
    | .sif => syntaxIf fuel st sc code
    | .squote => syntaxQuote st code
    | .sletrec => syntaxLetrec fuel st sc code
    | .slet => syntaxLet fuel st sc code
    | .slambda => syntaxLambda st sc code
  termination_by structural fuel => fuel

/-- `eval_funcall` (`src/scheme.c:1090-1106`): evaluate at most 64
arguments eagerly, then wrap a thunk for a lambda or invoke a
native. -/
def evalFuncall : Nat → EState → Nat → EObj → SObj →
    Except EvErr (EObj × EState × Nat)
  | 0, _, _, _, _ => .error .fuel
  | fuel + 1, st, sc, func, exprs => funcallArgs fuel st sc func exprs [] 0
  termination_by structural fuel => fuel

/-- The argument loop of `eval_funcall`, with the evaluated prefix
and its depth so far. -/
def funcallArgs : Nat → EState → Nat → EObj → SObj → List EObj → Nat →
    Except EvErr (EObj × EState × Nat)
  | 0, _, _, _, _, _, _ => .error .fuel
  | fuel + 1, st, sc, func, exprs, acc, dacc =>
    match exprs with
    | .pair expr rest =>
      if acc.length ≥ 64 then .error .overflow
      else
        match evalEager fuel st sc expr with
        | .ok (v, st1, d) =>
          funcallArgs fuel st1 sc func rest (acc ++ [ v ]) (max dacc d)
        | .error e => .error e
    | .nil =>
      match func with
      | .lam addr => .ok (.thunk addr acc, st, 1 + max dacc 1)
      | .prim p =>
        match invokePrim p acc with
        | .ok v => .ok (v, st, 1 + max dacc 2)
        | .error e => .error e
      | _ => .error .typeErr
    | _ => .error .malformed
  termination_by structural fuel => fuel

/-- `invoke_lambda` (`src/scheme.c:3031-3047`): check the argument
count, derive a scope from the captured one, bind the parameters,
evaluate the body as a block. -/
def invokeLambda : Nat → EState → Nat → List EObj →
    Except EvErr (EObj × EState × Nat)
  | 0, _, _, _ => .error .fuel
  | fuel + 1, st, lamAddr, args =>
    match st.lams.get? lamAddr with
    | none => .error .badState
    | some l =>
      if args.length = l.params.length then
        match bindAll (deriveScope st (some l.scope)).1
            (deriveScope st (some l.scope)).2 l.params args with
        | .ok st1 =>
          match evalBlock fuel st1 (deriveScope st (some l.scope)).2
              l.body with
          | .ok (v, st2, d) => .ok (v, st2, 1 + d)
          | .error e => .error e
        | .error e => .error e
      else .error .argCount
  termination_by structural fuel => fuel

/-- `eval_block` (`src/scheme.c:3110-3121`): force and drop every
result but the last; the last expression stays lazy. -/
def evalBlock : Nat → EState → Nat → SObj →
    Except EvErr (EObj × EState × Nat)
  | 0, _, _, _ => .error .fuel
  | fuel + 1, st, sc, code => blockLoop fuel st sc .nil code 0
  termination_by structural fuel => fuel

/-- The loop of `eval_block`, carrying the pending lazy result and
the depth so far. -/
def blockLoop : Nat → EState → Nat → EObj → SObj → Nat →
    Except EvErr (EObj × EState × Nat)
  | 0, _, _, _, _, _ => .error .fuel
  | fuel + 1, st, sc, result, code, dacc =>
    match code with
    | .nil => .ok (result, st, dacc + 1)
    | .pair expr rest =>
      match force fuel st result with
      | .ok (_, st1, df) =>
        match evalLazy fuel st1 sc expr with
        | .ok (r2, st2, dl) => blockLoop fuel st2 sc r2 rest (max dacc (max df dl))
        | .error e => .error e
      | .error e => .error e
    | _ => .error .malformed
  termination_by structural fuel => fuel

/-- `syntax_if` (`src/scheme.c:1461-1478`): pop the test and the
consequent (dying if absent), optionally the alternate, insist the
rest is nil; evaluate the test eagerly (`eval_boolean`), then
lazily evaluate the chosen branch, or produce nil with no
alternate. -/
def syntaxIf : Nat → EState → Nat → SObj →
    Except EvErr (EObj × EState × Nat)
  | 0, _, _, _ => .error .fuel
  | fuel + 1, st, sc, code =>
    match code with
    | .pair test rest1 =>
      match rest1 with
      | .pair consequent rest2 =>
        match rest2 with
        | .nil =>
          match evalEager fuel st sc test with
          | .ok (tv, st1, d1) =>
            if isTrueO tv then
              match evalLazy fuel st1 sc consequent with
              | .ok (v, st2, d2) => .ok (v, st2, 1 + max (d1 + 1) d2)
              | .error e => .error e
            else .ok (.nil, st1, 1 + (d1 + 1))
          | .error e => .error e
        | .pair alternate rest3 =>
          match rest3 with
          | .nil =>
            match evalEager fuel st sc test with
            | .ok (tv, st1, d1) =>
              if isTrueO tv then
                match evalLazy fuel st1 sc consequent with
                | .ok (v, st2, d2) => .ok (v, st2, 1 + max (d1 + 1) d2)
                | .error e => .error e
              else
                match evalLazy fuel st1 sc alternate with
                | .ok (v, st2, d2) => .ok (v, st2, 1 + max (d1 + 1) d2)
                | .error e => .error e
            | .error e => .error e
          | _ => .error .malformed
        | _ => .error .malformed
      | _ => .error .malformed
    | _ => .error .malformed
  termination_by structural fuel => fuel

/-- `syntax_define` (`src/scheme.c:1494-1520`): a symbol head binds
the value of one expression; a pair head `(name . formals)` binds a
lambda over the remaining code. -/
def syntaxDefine : Nat → EState → Nat → SObj →
    Except EvErr (EObj × EState × Nat)
  | 0, _, _, _ => .error .fuel
  | fuel + 1, st, sc, code =>
    match code with
    | .pair (.sym key) rest =>
      match rest with
      | .pair expr tail =>
        match tail with
        | .nil =>
          match evalEager fuel st sc expr with
          | .ok (v, st1, d1) =>
            match bindToScope st1 sc key v with
            | .ok st2 => .ok (.nil, st2, 1 + (d1 + 1))
            | .error e => .error e
          | .error e => .error e
        | _ => .error .malformed
      | _ => .error .malformed
    | .pair (.pair (.sym key) formals) rest =>
      match wrapLambda st sc formals rest with
      | some (st1, addr) =>
        match bindToScope st1 sc key (.lam addr) with
        | .ok st2 => .ok (.nil, st2, 2)
        | .error e => .error e
      | none => .error .malformed
    | _ => .error .malformed
  termination_by structural fuel => fuel

/-- `syntax_letrec` (`src/scheme.c:3411-3432`): derive a child scope,
then process the bindings through the loop, then the body. -/
def syntaxLetrec : Nat → EState → Nat → SObj →
    Except EvErr (EObj × EState × Nat)
  | 0, _, _, _ => .error .fuel
  | fuel + 1, st, sc, code =>
    match code with
    | .pair bindings body =>
      match letrecLoop fuel (deriveScope st (some sc)).1
          (deriveScope st (some sc)).2 bindings body 0 with
      | .ok (v, st1, d) => .ok (v, st1, 1 + d)
      | .error e => .error e
    | _ => .error .malformed
  termination_by structural fuel => fuel

/-- The binding loop of `syntax_letrec`: pop a `(key expr)` binding,
evaluate `expr` eagerly in the CHILD scope, only then define `key`
there; after the last binding evaluate the body block in the child
scope. -/
def letrecLoop : Nat → EState → Nat → SObj → SObj → Nat →
    Except EvErr (EObj × EState × Nat)
  | 0, _, _, _, _, _ => .error .fuel
  | fuel + 1, st, child, bindings, body, dacc =>
    match bindings with
    | .nil =>
      match evalBlock fuel st child body with
      | .ok (v, st1, d) => .ok (v, st1, max dacc d)
      | .error e => .error e
    | .pair (.pair (.sym key) (.pair expr _)) rest =>
      match evalEager fuel st child expr with
      | .ok (v, st1, d1) =>
        match bindToScope st1 child key v with
        | .ok st2 => letrecLoop fuel st2 child rest body (max dacc d1)
        | .error e => .error e
      | .error e => .error e
    | _ => .error .malformed
  termination_by structural fuel => fuel

/-- `syntax_let` (`src/scheme.c:3434-3455`): like `letrec` but each
initializer is evaluated in the OUTER scope. -/
def syntaxLet : Nat → EState → Nat → SObj →
    Except EvErr (EObj × EState × Nat)
  | 0, _, _, _ => .error .fuel
  | fuel + 1, st, sc, code =>
    match code with
    | .pair bindings body =>
      match letLoop fuel (deriveScope st (some sc)).1 sc
          (deriveScope st (some sc)).2 bindings body 0 with
      | .ok (v, st1, d) => .ok (v, st1, 1 + d)
      | .error e => .error e
    | _ => .error .malformed
  termination_by structural fuel => fuel

/-- The binding loop of `syntax_let`. -/
def letLoop : Nat → EState → Nat → Nat → SObj → SObj → Nat →
    Except EvErr (EObj × EState × Nat)
  | 0, _, _, _, _, _, _ => .error .fuel
  | fuel + 1, st, outer, child, bindings, body, dacc =>
    match bindings with
    | .nil =>
      match evalBlock fuel st child body with
      | .ok (v, st1, d) => .ok (v, st1, max dacc d)
      | .error e => .error e
    | .pair (.pair (.sym key) (.pair expr _)) rest =>
      match evalEager fuel st outer expr with
      | .ok (v, st1, d1) =>
        match bindToScope st1 child key v with
        | .ok st2 => letLoop fuel st2 outer child rest body (max dacc d1)
        | .error e => .error e
      | .error e => .error e
    | _ => .error .malformed
  termination_by structural fuel => fuel

end

-- -------------------------------------------------------------------
-- The tail-call test program
-- `(define (f x) (if (= x 0) (quote done) (f (- x 1))))`.
-- -------------------------------------------------------------------

/-- The name `x`. -/
def xName : List Char := [ 'x' ]

/-- The name `f`. -/
def fName : List Char := [ 'f' ]

/-- The name `done`. -/
def doneName : List Char := [ 'd', 'o', 'n', 'e' ]

/-- The bindings `register_builtins` installs in the REPL scope,
restricted to the ones this development models. -/
def replBinds : List (List Char × EObj) :=
  [ ([ 'd', 'e', 'f', 'i', 'n', 'e' ], .syn .sdefine),
    ([ 'i', 'f' ], .syn .sif),
    ([ 'q', 'u', 'o', 't', 'e' ], .syn .squote),
    ([ 'l', 'e', 't', 'r', 'e', 'c' ], .syn .sletrec),
    ([ 'l', 'e', 't' ], .syn .slet),
    ([ 'l', 'a', 'm', 'b', 'd', 'a' ], .syn .slambda),
    ([ '=' ], .prim .neq),
    ([ '-' ], .prim .nminus) ]

/-- The initial state: the REPL scope only. -/
def replState : EState := ⟨[ ⟨replBinds, none⟩ ], []⟩

/-- `(if (= x 0) (quote done) (f (- x 1)))`. -/
def ifExpr : SObj := listOfSObj [ .sym [ 'i', 'f' ],
  listOfSObj [ .sym [ '=' ], .sym xName, .int 0 ],
  listOfSObj [ .sym [ 'q', 'u', 'o', 't', 'e' ], .sym doneName ],
  listOfSObj [ .sym fName, listOfSObj [ .sym [ '-' ], .sym xName, .int 1 ] ] ]

/-- `(define (f x) (if ...))`. -/
def defineExpr : SObj := listOfSObj [ .sym [ 'd', 'e', 'f', 'i', 'n', 'e' ],
  listOfSObj [ .sym fName, .sym xName ], ifExpr ]

/-- `(f n)`. -/
def callExpr (n : Int) : SObj := listOfSObj [ .sym fName, .int n ]

/-- The REPL scope after the define: `f` is bound to the lambda. -/
def replRec1 : ScopeRec := ⟨replBinds ++ [ (fName, .lam 0) ], none⟩

/-- The lambda record the define creates. -/
def lamRecF : LamRec := ⟨[ xName ], .pair ifExpr .nil, 0⟩

/-- The state after evaluating the define in `replState`. -/
def replState1 : EState := ⟨[ replRec1 ], [ lamRecF ]⟩

/-- The scope layout one `invoke_lambda` of the test program creates:
a fresh child scope binding `x` to the argument. -/
def iterState (st : EState) (v : Int) : EState :=
  ⟨st.scopes ++ [ ⟨[ (xName, EObj.int v) ], some 0⟩ ], st.lams⟩

-- -------------------------------------------------------------------
-- letrec test programs (claim C1).
-- -------------------------------------------------------------------

/-- `(letrec ((a b) (b 1)) a)`: the first initializer references the
second binding. -/
def letrecAB : SObj := listOfSObj [ .sym [ 'l', 'e', 't', 'r', 'e', 'c' ],
  listOfSObj [ listOfSObj [ .sym [ 'a' ], .sym [ 'b' ] ],
    listOfSObj [ .sym [ 'b' ], .int 1 ] ],
  .sym [ 'a' ] ]

/-- `(letrec ((b 1) (a b)) a)`: references go to earlier bindings
only. -/
def letrecBA : SObj := listOfSObj [ .sym [ 'l', 'e', 't', 'r', 'e', 'c' ],
  listOfSObj [ listOfSObj [ .sym [ 'b' ], .int 1 ],
    listOfSObj [ .sym [ 'a' ], .sym [ 'b' ] ] ],
  .sym [ 'a' ] ]

/-- The body of the mutually recursive `e` lambda. -/
def evenBody : SObj := listOfSObj [ .sym [ 'i', 'f' ],
  listOfSObj [ .sym [ '=' ], .sym [ 'n' ], .int 0 ],
  listOfSObj [ .sym [ 'q', 'u', 'o', 't', 'e' ], .sym [ 'y' ] ],
  listOfSObj [ .sym [ 'o' ], listOfSObj [ .sym [ '-' ], .sym [ 'n' ], .int 1 ] ] ]

/-- The body of the mutually recursive `o` lambda. -/
def oddBody : SObj := listOfSObj [ .sym [ 'i', 'f' ],
  listOfSObj [ .sym [ '=' ], .sym [ 'n' ], .int 0 ],
  listOfSObj [ .sym [ 'q', 'u', 'o', 't', 'e' ], .sym [ 'z' ] ],
  listOfSObj [ .sym [ 'e' ], listOfSObj [ .sym [ '-' ], .sym [ 'n' ], .int 1 ] ] ]

/-- `(letrec ((e (lambda (n) ...o...)) (o (lambda (n) ...e...))) (e 2))`:
mutual recursion through lambdas, which look their names up only when
invoked — after both bindings exist. -/
def letrecEO : SObj := listOfSObj [ .sym [ 'l', 'e', 't', 'r', 'e', 'c' ],
  listOfSObj [
    listOfSObj [ .sym [ 'e' ], listOfSObj [ .sym [ 'l', 'a', 'm', 'b', 'd', 'a' ],
      listOfSObj [ .sym [ 'n' ] ], evenBody ] ],
    listOfSObj [ .sym [ 'o' ], listOfSObj [ .sym [ 'l', 'a', 'm', 'b', 'd', 'a' ],
      listOfSObj [ .sym [ 'n' ] ], oddBody ] ] ],
  listOfSObj [ .sym [ 'e' ], .int 2 ] ]

-- -------------------------------------------------------------------
-- The open-addressed dictionary and the symbol pool (chapter 8 of
-- scheme.c).  Keys are symbols compared by `compare_symbols` (hash
-- first, then `strcmp`); the table probes linearly from the hash,
-- keeping displaced entries ordered (`put_in_dict`), and lookups stop
-- early at an empty slot or a larger entry.  Slots are a total
-- function on `Nat`; only indices below `size` are ever used, and
-- `index % size` is faithful to the C `unsigned` arithmetic because
-- every size is a power of two dividing `2^32`.  Values are object
-- addresses. -/
-- -------------------------------------------------------------------

/-- A symbol as `compare_symbols` sees it: cached hash plus name. -/
structure SymK : Type where
  hash : Nat
  name : List Char
  deriving DecidableEq, Repr

/-- `strcmp` on byte strings, as an `Ordering`. -/
def strcmpL : List Char → List Char → Ordering
  | [], [] => .eq
  | [], _ :: _ => .lt
  | _ :: _, [] => .gt
  | a :: as, b :: bs =>
    if a.toNat < b.toNat then .lt
    else if b.toNat < a.toNat then .gt
    else strcmpL as bs

/-- `compare_symbols` (`src/scheme.c:2804-2810`): hash first, then
the names. -/
def cmpSym (a b : SymK) : Ordering :=
  if a.hash < b.hash then .lt
  else if b.hash < a.hash then .gt
  else strcmpL a.name b.name

/-- `strhash` (`src/scheme.c:2729-2735`) with the C `unsigned`
wraparound. -/
def strhashAux : Nat → List Char → Nat
  | acc, [] => acc
  | acc, c :: r => strhashAux ((acc * 7 + c.toNat) % 2 ^ 32) r

/-- The hash of a name. -/
def strhashL (s : List Char) : Nat := strhashAux 0 s

/-- `struct dict`: slot array (as a function), its size, and the
occupied count. -/
structure HDict : Type where
  size : Nat
  used : Nat
  data : Nat → Option (SymK × Nat)

/-- The probing loop of `put_in_dict` (`src/scheme.c:2770-2802`): an
empty slot takes the carried entry; an equal key has its value
replaced (returning the old one); a larger entry is displaced and
carried onwards.  Returns the slot array, `put_in_dict`'s return
value, and the increment of `used`. -/
def putLoop (size : Nat) :
    Nat → (Nat → Option (SymK × Nat)) → Nat → SymK → Nat →
    Option ((Nat → Option (SymK × Nat)) × Option Nat × Nat)
  | 0, _, _, _, _ => none
  | fuel + 1, data, idx, k, v =>
    match data (idx % size) with
    | none => some (Function.update data (idx % size) (some (k, v)), none, 1)
    | some (k2, v2) =>
      match cmpSym k2 k with
      | .eq => some (Function.update data (idx % size) (some (k2, v)), some v2, 0)
      | .lt => putLoop size fuel data (idx + 1) k v
      | .gt =>
        putLoop size fuel (Function.update data (idx % size) (some (k, v)))
          (idx + 1) k2 v2

/-- `put_in_dict` after the enlargement check: probe from the key's
hash with enough fuel to reach an empty slot. -/
def putCore (d : HDict) (k : SymK) (v : Nat) : Option (HDict × Option Nat) :=
  match putLoop d.size d.size d.data k.hash k v with
  | some (data2, old, inc) => some (⟨d.size, d.used + inc, data2⟩, old)
  | none => none

/-- The reinsertion fold of `enlarge_dict` over the old slots. -/
def reinsertLoop : Nat → (Nat → Option (SymK × Nat)) → HDict → Option HDict
  | 0, _, acc => some acc
  | i + 1, old, acc =>
    match reinsertLoop i old acc with
    | some acc1 =>
      match old i with
      | none => some acc1
      | some (k, v) =>
        match putCore acc1 k v with
        | some (acc2, _) => some acc2
        | none => none
    | none => none

/-- `enlarge_dict` (`src/scheme.c:2836-2858`): the first call makes
an 8-slot table; later calls double the size and re-put every
entry. -/
def enlargeDict (d : HDict) : Option HDict :=
  if d.size = 0 then some ⟨8, 0, fun _ => none⟩
  else reinsertLoop d.size d.data ⟨d.size * 2, 0, fun _ => none⟩

/-- `put_in_dict` (`src/scheme.c:2770-2802`): enlarge when the table
is absent or more than half full, then insert. -/
def putInDict (d : HDict) (k : SymK) (v : Nat) : Option (HDict × Option Nat) :=
  if d.size = 0 ∨ d.size < d.used * 2 then
    match enlargeDict d with
    | some d1 => putCore d1 k v
    | none => none
  else putCore d k v

/-- The probing loop of `lookup_in_dict` (`src/scheme.c:2812-2828`):
stop at an empty slot or a larger entry. -/
def lookupLoop (size : Nat) :
    Nat → (Nat → Option (SymK × Nat)) → Nat → SymK → Option (Option Nat)
  | 0, _, _, _ => none
  | fuel + 1, data, idx, k =>
    match data (idx % size) with
    | none => some none
    | some (k2, v2) =>
      match cmpSym k2 k with
      | .eq => some (some v2)
      | .gt => some none
      | .lt => lookupLoop size fuel data (idx + 1) k

/-- `lookup_in_dict`: an empty table holds nothing; otherwise probe
from the hash.  `d.size` probes always suffice on well-formed
tables. -/
def lookupInDict (d : HDict) (k : SymK) : Option (Option Nat) :=
  if d.size = 0 then some none
  else lookupLoop d.size d.size d.data k.hash k

/-- The symbol pool (`get_symbol_pool`, `wrap_symbol`,
`src/scheme.c:2741-2763`): the interning dictionary plus the
allocated symbol objects (the address of a symbol is its index). -/
structure SymPool : Type where
  dict : HDict
  syms : List (List Char)

/-- The dictionary key `wrap_symbol` builds for a name: its hash and
the name itself (the stack-allocated `struct symbol tmp`). -/
def keyOf (t : List Char) : SymK := ⟨strhashL t, t⟩

/-- `wrap_symbol`: look the name up in the pool; on a hit return the
interned object, otherwise allocate a fresh symbol and bind it.
`none` models fuel exhaustion or the impossible
`already defined` death in `bind_to_scope`. -/
def wrapSymbol (p : SymPool) (text : List Char) : Option (SymPool × Nat) :=
  match lookupInDict p.dict (keyOf text) with
  | some (some addr) => some (p, addr)
  | some none =>
    match putInDict p.dict (keyOf text) p.syms.length with
    | some (d2, none) => some (⟨d2, p.syms ++ [ text ]⟩, p.syms.length)
    | some (_, some _) => none
    | none => none
  | none => none

/-- Cyclic probe distance in a `size`-slot table: how many steps the
probe sequence of home slot `a` takes to reach slot `i`. -/
def hdist (size a i : Nat) : Nat := (i + size - a % size) % size

/-- Key `k` is stored with value `v` somewhere in the table. -/
def storeD (size : Nat) (data : Nat → Option (SymK × Nat)) (k : SymK)
    (v : Nat) : Prop :=
  ∃ s, s < size ∧ data s = some (k, v)

def dictINV (size : Nat) (data : Nat → Option (SymK × Nat)) : Prop :=
  ∀ s, s < size → ∀ e v, data s = some (e, v) →
    ∀ j, j < hdist size e.hash s →
      ∃ e2 v2, data ((e.hash + j) % size) = some (e2, v2) ∧ cmpSym e2 e = .lt

def probePRE (size : Nat) (data : Nat → Option (SymK × Nat)) (k : SymK)
    (idx : Nat) : Prop :=
  ∀ j, j < hdist size k.hash idx →
    ∃ e2 v2, data ((k.hash + j) % size) = some (e2, v2) ∧ cmpSym e2 k = .lt

def countF (size : Nat) (data : Nat → Option (SymK × Nat)) : Nat :=
  ((List.range size).filter (fun s => (data s).isSome)).length

/-- The ordered-probing well-formedness of a dictionary: the invariant
plus an accurate `used` count. -/
def dictWF (d : HDict) : Prop :=
  dictINV d.size d.data ∧ d.used = countF d.size d.data

/-- The pool dictionary maps the name (with its hash) to address `a`. -/
def internedTo (p : SymPool) (t : List Char) (a : Nat) : Prop :=
  storeD p.dict.size p.dict.data (keyOf t) a

def poolWF (p : SymPool) : Prop := dictWF p.dict

-- ===================================================================
-- Theorems
-- ===================================================================

theorem char_ofNat_toNat (n : Nat) (h : n < 128) : (Char.ofNat n).toNat = n := by
  have hv : Nat.isValidChar n := Or.inl (by omega)
  rw [Char.ofNat, dif_pos hv]
  simp [Char.ofNatAux, Char.toNat, UInt32.toNat, BitVec.toNat_ofNatLt]

theorem iwrap_eq_self (m : Int) (h1 : -2 ^ 31 ≤ m) (h2 : m < 2 ^ 31) :
    iwrap m = m := by
  unfold iwrap
  rw [Int.emod_eq_of_lt (by omega) (by omega)]
  omega

theorem isDigitC_ofNat (d : Nat) (h : d < 10) :
    isDigitC (Char.ofNat (48 + d)) = true := by
  simp [isDigitC, char_ofNat_toNat (48 + d) (by omega)]
  omega

theorem char_eq_iff_toNat (c d : Char) : c = d ↔ c.toNat = d.toNat :=
  ⟨fun h => by rw [h], fun h => Char.ext (UInt32.toNat.inj h)⟩

theorem isSpaceC_toNat (c : Char) :
    isSpaceC c = true ↔
      c.toNat = 32 ∨ c.toNat = 9 ∨ c.toNat = 10 ∨ c.toNat = 11 ∨
        c.toNat = 12 ∨ c.toNat = 13 := by
  simp only [isSpaceC, Bool.or_eq_true, decide_eq_true_eq, char_eq_iff_toNat,
    show (' ').toNat = 32 from rfl, show ('\t').toNat = 9 from rfl,
    show ('\n').toNat = 10 from rfl, show ('\x0b').toNat = 11 from rfl,
    show ('\x0c').toNat = 12 from rfl, show ('\r').toNat = 13 from rfl]
  tauto

theorem isSpecial_toNat (c : Char) :
    isSpecial c = true ↔
      c.toNat = 40 ∨ c.toNat = 41 ∨ c.toNat = 59 ∨ c.toNat = 34 ∨
        c.toNat = 39 := by
  simp only [isSpecial, Bool.or_eq_true, decide_eq_true_eq, char_eq_iff_toNat,
    show ('(').toNat = 40 from rfl, show (')').toNat = 41 from rfl,
    show (';').toNat = 59 from rfl, show ('\"').toNat = 34 from rfl,
    show ('\'').toNat = 39 from rfl]
  tauto

theorem digit_atomChar (c : Char) (h : isDigitC c = true) : atomChar c := by
  simp only [isDigitC, Bool.and_eq_true, decide_eq_true_eq] at h
  constructor
  · rw [Bool.eq_false_iff]
    intro hs
    rw [isSpaceC_toNat] at hs
    omega
  · rw [Bool.eq_false_iff]
    intro hs
    rw [isSpecial_toNat] at hs
    omega

theorem digit_ne_minus (c : Char) (h : isDigitC c = true) : c ≠ '-' := by
  simp only [isDigitC, Bool.and_eq_true, decide_eq_true_eq] at h
  intro h2
  rw [char_eq_iff_toNat, show ('-').toNat = 45 from rfl] at h2
  omega

theorem writeNatAux_fuel (f1 : Nat) :
    ∀ f2 n, n < f1 → n < f2 → writeNatAux f1 n = writeNatAux f2 n := by
  induction f1 with
  | zero => intro f2 n h1 _; omega
  | succ g ih =>
    intro f2 n h1 h2
    match f2 with
    | 0 => omega
    | h + 1 =>
      rw [writeNatAux, writeNatAux]
      by_cases hn : n < 10
      · rw [if_pos hn, if_pos hn]
      · rw [if_neg hn, if_neg hn]
        have hd : n / 10 < n := Nat.div_lt_self (by omega) (by omega)
        rw [ih h (n / 10) (by omega) (by omega)]

theorem writeNat_eq (n : Nat) :
    writeNat n =
      if n < 10 then [ Char.ofNat (48 + n) ]
      else writeNat (n / 10) ++ [ Char.ofNat (48 + n % 10) ] := by
  show writeNatAux (n + 1) n = _
  rw [writeNatAux]
  by_cases hn : n < 10
  · rw [if_pos hn, if_pos hn]
  · rw [if_neg hn, if_neg hn]
    have hd : n / 10 < n := Nat.div_lt_self (by omega) (by omega)
    rw [writeNatAux_fuel n (n / 10 + 1) (n / 10) (by omega) (by omega)]
    rfl

theorem writeNat_spec (n : Nat) :
    writeNat n ≠ [] ∧ (∀ c ∈ writeNat n, isDigitC c = true) ∧
      digitsValN (writeNat n) = n := by
  induction n using Nat.strong_induction_on with
  | _ n ih =>
    rw [writeNat_eq]
    by_cases h : n < 10
    · rw [if_pos h]
      refine ⟨by simp, ?_, ?_⟩
      · intro c hc
        rw [List.mem_singleton] at hc
        subst hc
        exact isDigitC_ofNat n h
      · simp [digitsValN, List.foldl, char_ofNat_toNat (48 + n) (by omega)]
    · rw [if_neg h]
      obtain ⟨h1, h2, h3⟩ := ih (n / 10) (Nat.div_lt_self (by omega) (by omega))
      refine ⟨by simp [h1], ?_, ?_⟩
      · intro c hc
        rw [List.mem_append, List.mem_singleton] at hc
        rcases hc with hc | hc
        · exact h2 c hc
        · subst hc
          exact isDigitC_ofNat (n % 10) (Nat.mod_lt n (by omega))
      · have : digitsValN (writeNat (n / 10) ++ [ Char.ofNat (48 + n % 10) ]) =
            digitsValN (writeNat (n / 10)) * 10 +
              ((Char.ofNat (48 + n % 10)).toNat - 48) := by
          simp [digitsValN, List.foldl_append]
        rw [this, h3, char_ofNat_toNat (48 + n % 10) (by omega)]
        omega

theorem writeNat_length_le (k : Nat) :
    ∀ n, n < 10 ^ (k + 1) → (writeNat n).length ≤ k + 1 := by
  induction k with
  | zero =>
    intro n hn
    rw [writeNat_eq, if_pos (by omega : n < 10)]
    simp
  | succ k ih =>
    intro n hn
    rw [writeNat_eq]
    by_cases h : n < 10
    · rw [if_pos h]
      simp
    · rw [if_neg h]
      have h1 : n / 10 < 10 ^ (k + 1) := by
        rw [Nat.div_lt_iff_lt_mul (by omega)]
        calc n < 10 ^ (k + 2) := hn
        _ = 10 ^ (k + 1) * 10 := by ring
      have h2 := ih (n / 10) h1
      simp only [List.length_append, List.length_singleton]
      omega

theorem digitsAccI_bounds (l : List Char) :
    ∀ a : Int, (∀ c ∈ l, isDigitC c = true) → 0 ≤ a →
      a ≤ digitsAccI a l ∧ 0 ≤ digitsAccI a l := by
  induction l with
  | nil => intro a _ ha; exact ⟨le_refl a, ha⟩
  | cons c cs ih =>
    intro a hd ha
    have hc : isDigitC c = true := hd c (by simp)
    simp only [isDigitC, Bool.and_eq_true, decide_eq_true_eq] at hc
    have hstep : a ≤ a * 10 + ((c.toNat : Int) - 48) := by omega
    have ha2 : (0 : Int) ≤ a * 10 + ((c.toNat : Int) - 48) := by omega
    have := ih (a * 10 + ((c.toNat : Int) - 48)) (fun x hx => hd x (by simp [hx])) ha2
    unfold digitsAccI at this ⊢
    simp only [List.foldl] at this ⊢
    exact ⟨le_trans hstep this.1, this.2⟩

theorem parseIntLoop_spec (l : List Char) :
    ∀ (a : Int) (d : Nat), (∀ c ∈ l, isDigitC c = true) → 0 ≤ a →
      digitsAccI a l < 2 ^ 31 →
      parseIntLoop a d l = some (digitsAccI a l, d + l.length) := by
  induction l with
  | nil => intro a d _ _ _; simp [parseIntLoop, digitsAccI]
  | cons c cs ih =>
    intro a d hd ha hb
    have hc : isDigitC c = true := hd c (by simp)
    have hcn : 48 ≤ c.toNat := by
      simp only [isDigitC, Bool.and_eq_true, decide_eq_true_eq] at hc
      exact hc.1
    have hacc : digitsAccI a (c :: cs) = digitsAccI (a * 10 + ((c.toNat : Int) - 48)) cs := by
      simp [digitsAccI, List.foldl]
    have ha2 : (0 : Int) ≤ a * 10 + ((c.toNat : Int) - 48) := by omega
    have hbnd := digitsAccI_bounds cs (a * 10 + ((c.toNat : Int) - 48))
      (fun x hx => hd x (by simp [hx])) ha2
    have hw : iwrap (a * 10 + ((c.toNat : Int) - 48)) = a * 10 + ((c.toNat : Int) - 48) := by
      apply iwrap_eq_self
      · omega
      · rw [hacc] at hb
        omega
    rw [parseIntLoop, if_pos hc, hw, hacc,
      ih (a * 10 + ((c.toNat : Int) - 48)) (d + 1) (fun x hx => hd x (by simp [hx])) ha2
        (by rw [hacc] at hb; exact hb)]
    simp only [List.length_cons]
    congr 2
    omega

theorem digitsAccI_natCast (l : List Char) :
    ∀ m : Nat, (∀ c ∈ l, isDigitC c = true) →
      digitsAccI (m : Int) l =
        ((l.foldl (fun a c => a * 10 + (c.toNat - 48)) m : Nat) : Int) := by
  induction l with
  | nil => intro m _; simp [digitsAccI]
  | cons c cs ih =>
    intro m hd
    have hc : isDigitC c = true := hd c (by simp)
    have hcn : 48 ≤ c.toNat := by
      simp only [isDigitC, Bool.and_eq_true, decide_eq_true_eq] at hc
      exact hc.1
    have : (m : Int) * 10 + ((c.toNat : Int) - 48) = ((m * 10 + (c.toNat - 48) : Nat) : Int) := by
      push_cast [Nat.cast_sub hcn]
      ring
    unfold digitsAccI at ih ⊢
    simp only [List.foldl, this]
    exact ih (m * 10 + (c.toNat - 48)) (fun x hx => hd x (by simp [hx]))

theorem digitsAccI_writeNat (n : Nat) : digitsAccI 0 (writeNat n) = (n : Int) := by
  obtain ⟨_, hd, hv⟩ := writeNat_spec n
  have := digitsAccI_natCast (writeNat n) 0 hd
  simpa [digitsValN] using this.trans (by rw [show (List.foldl (fun a c => a * 10 + (c.toNat - 48)) 0 (writeNat n)) = digitsValN (writeNat n) from rfl, hv])

theorem parseIntSign_not_minus (c : Char) (cs : List Char) (h : c ≠ '-') :
    parseIntSign (c :: cs) = (1, c :: cs) := by
  unfold parseIntSign
  split
  · next rest heq =>
    injection heq with h1 h2
    exact absurd h1 h
  · rfl

theorem parseInt_writeInt (n : Int) (lo : -2 ^ 31 ≤ n) (hi : n < 2 ^ 31) :
    parseInt (writeInt n) = some (.int n) := by
  by_cases hneg : n < 0
  · by_cases hmin : n = -2 ^ 31
    · subst hmin
      decide
    · have hw : writeInt n = '-' :: writeNat n.natAbs := by
        rw [writeInt, if_pos hneg]
      obtain ⟨hne, hdig, _⟩ := writeNat_spec n.natAbs
      have hv : digitsAccI 0 (writeNat n.natAbs) = (n.natAbs : Int) :=
        digitsAccI_writeNat n.natAbs
      have hb : digitsAccI 0 (writeNat n.natAbs) < 2 ^ 31 := by
        rw [hv]; omega
      rw [hw]
      unfold parseInt
      rw [show parseIntSign ('-' :: writeNat n.natAbs) = (-1, writeNat n.natAbs)
        from rfl]
      rw [parseIntLoop_spec (writeNat n.natAbs) 0 0 hdig (le_refl 0) hb]
      have hlen : (writeNat n.natAbs).length ≠ 0 := by
        intro hz
        exact hne (List.eq_nil_of_length_eq_zero hz)
      show (if 0 + (writeNat n.natAbs).length = 0 then none
        else some (SObj.int (iwrap (-1 * digitsAccI 0 (writeNat n.natAbs))))) = _
      rw [if_neg (by omega), hv]
      have h1 : (-1 : Int) * n.natAbs = n := by omega
      rw [h1, iwrap_eq_self n lo hi]
  · have h0 : 0 ≤ n := by omega
    have hw : writeInt n = writeNat n.natAbs := by
      rw [writeInt, if_neg hneg]
    obtain ⟨hne, hdig, _⟩ := writeNat_spec n.natAbs
    have hv : digitsAccI 0 (writeNat n.natAbs) = (n.natAbs : Int) :=
      digitsAccI_writeNat n.natAbs
    have hb : digitsAccI 0 (writeNat n.natAbs) < 2 ^ 31 := by
      rw [hv]; omega
    cases hcs : writeNat n.natAbs with
    | nil => exact absurd hcs hne
    | cons c cs =>
      have hcdig : isDigitC c = true := hdig c (by rw [hcs]; simp)
      have hcm : c ≠ '-' := digit_ne_minus c hcdig
      rw [hw, hcs]
      unfold parseInt
      rw [parseIntSign_not_minus c cs hcm, ← hcs,
        parseIntLoop_spec (writeNat n.natAbs) 0 0 hdig (le_refl 0) hb]
      have hlen : (writeNat n.natAbs).length ≠ 0 := by
        intro hz
        exact hne (List.eq_nil_of_length_eq_zero hz)
      show (if 0 + (writeNat n.natAbs).length = 0 then none
        else some (SObj.int (iwrap (1 * digitsAccI 0 (writeNat n.natAbs))))) = _
      rw [if_neg (by omega), hv]
      have h1 : (1 : Int) * n.natAbs = n := by omega
      rw [h1, iwrap_eq_self n lo hi]

theorem fgetcSkip_cons (c : Char) (cs : List Char) (h1 : isSpaceC c = false)
    (h2 : c ≠ ';') : fgetcSkip (c :: cs) = (some c, cs) := by
  show fgetcSkipAux false (c :: cs) = (some c, cs)
  rw [fgetcSkipAux]
  simp only [if_neg h2, h1, Bool.or_false, if_neg (Bool.false_ne_true)]

theorem fgetcSkip_space (c : Char) (cs : List Char) (h1 : isSpaceC c = true)
    (h2 : c ≠ ';') : fgetcSkip (c :: cs) = fgetcSkip cs := by
  show fgetcSkipAux false (c :: cs) = fgetcSkipAux false cs
  rw [fgetcSkipAux]
  simp only [if_neg h2, h1, Bool.or_true, if_pos]
  by_cases hn : c = '\n'
  · rw [if_pos hn]
  · rw [if_neg hn]

theorem readAtomAux_spec (tok : List Char) :
    ∀ fill acc rest, (∀ c ∈ tok, atomChar c) → delimOk rest →
      fill + tok.length < 10240 →
      readAtomAux fill acc (tok ++ rest) = .ok (acc.reverse ++ tok, rest) := by
  induction tok with
  | nil =>
    intro fill acc rest _ hrest _
    match rest with
    | [] => simp [readAtomAux]
    | c :: cs =>
      have : isSpaceC c || isSpecial c := by
        rcases hrest with h | h
        · simp [h]
        · simp [h]
      simp [readAtomAux, this]
  | cons t ts ih =>
    intro fill acc rest hch hrest hlen
    obtain ⟨hsp, hspec⟩ := hch t (by simp)
    show readAtomAux fill acc (t :: (ts ++ rest)) = _
    rw [readAtomAux]
    simp only [hsp, hspec, Bool.or_self, if_neg (Bool.false_ne_true)]
    rw [if_neg (by simp at hlen ⊢; omega)]
    rw [ih (fill + 1) (t :: acc) rest (fun c hc => hch c (by simp [hc]))
      hrest (by simp at hlen ⊢; omega)]
    simp

theorem readAtomAux_overflow (tok : List Char) :
    ∀ fill acc rest, (∀ c ∈ tok, atomChar c) → fill < 10240 →
      10240 ≤ fill + tok.length →
      readAtomAux fill acc (tok ++ rest) = .error .bufferOverflow := by
  induction tok with
  | nil => intro fill acc rest _ h1 h2; simp at h2; omega
  | cons t ts ih =>
    intro fill acc rest hch h1 h2
    obtain ⟨hsp, hspec⟩ := hch t (by simp)
    show readAtomAux fill acc (t :: (ts ++ rest)) = _
    rw [readAtomAux]
    simp only [hsp, hspec, Bool.or_self, if_neg (Bool.false_ne_true)]
    by_cases hov : fill + 1 ≥ 10240
    · rw [if_pos hov]
    · rw [if_neg hov]
      exact ih (fill + 1) (t :: acc) rest (fun c hc => hch c (by simp [hc]))
        (by omega) (by simp at h2 ⊢; omega)

theorem readStringAux_spec (content : List Char) :
    ∀ fill acc rest, (∀ c ∈ content, c ≠ '\"' ∧ c ≠ '\\') →
      fill + content.length < 10240 →
      readStringAux fill acc (content ++ '\"' :: rest) =
        .ok (acc.reverse ++ content, rest) := by
  induction content with
  | nil =>
    intro fill acc rest _ _
    show readStringAux fill acc ('\"' :: rest) = _
    rw [readStringAux.eq_def]
    dsimp only
    rw [if_pos rfl]
    simp
  | cons t ts ih =>
    intro fill acc rest hch hlen
    obtain ⟨hq, hb⟩ := hch t (by simp)
    show readStringAux fill acc (t :: (ts ++ '\"' :: rest)) = _
    rw [readStringAux.eq_def]
    dsimp only
    rw [if_neg hq, if_neg hb, if_neg (by simp at hlen ⊢; omega)]
    rw [ih (fill + 1) (t :: acc) rest (fun c hc => hch c (by simp [hc]))
      (by simp at hlen ⊢; omega)]
    simp

theorem readStringAux_overflow (content : List Char) :
    ∀ fill acc rest, (∀ c ∈ content, c ≠ '\"' ∧ c ≠ '\\') → fill < 10240 →
      10240 ≤ fill + content.length →
      readStringAux fill acc (content ++ '\"' :: rest) =
        .error .bufferOverflow := by
  induction content with
  | nil => intro fill acc rest _ h1 h2; simp at h2; omega
  | cons t ts ih =>
    intro fill acc rest hch h1 h2
    obtain ⟨hq, hb⟩ := hch t (by simp)
    show readStringAux fill acc (t :: (ts ++ '\"' :: rest)) = _
    rw [readStringAux.eq_def]
    dsimp only
    rw [if_neg hq, if_neg hb]
    by_cases hov : fill + 1 ≥ 10240
    · rw [if_pos hov]
    · rw [if_neg hov]
      exact ih (fill + 1) (t :: acc) rest (fun c hc => hch c (by simp [hc]))
        (by omega) (by simp at h2 ⊢; omega)

theorem parseAtom_sym (s : List Char) (hb : parseBool s = none)
    (hi : parseInt s = none) (hc : parseChar s = none) :
    parseAtom s = .sym s := by
  unfold parseAtom
  rw [hb, hi, hc]

theorem writeInt_head (n : Int) :
    ∃ c cs, writeInt n = c :: cs ∧ (c = '-' ∨ isDigitC c = true) := by
  obtain ⟨hne, hdig, _⟩ := writeNat_spec n.natAbs
  unfold writeInt
  by_cases hneg : n < 0
  · rw [if_pos hneg]
    exact ⟨'-', writeNat n.natAbs, rfl, Or.inl rfl⟩
  · rw [if_neg hneg]
    cases hcs : writeNat n.natAbs with
    | nil => exact absurd hcs hne
    | cons c cs =>
      exact ⟨c, cs, rfl, Or.inr (hdig c (by rw [hcs]; simp))⟩

theorem parseBool_writeInt (n : Int) : parseBool (writeInt n) = none := by
  obtain ⟨c, cs, hw, hc⟩ := writeInt_head n
  have hne : c ≠ '#' := by
    rcases hc with rfl | hd
    · decide
    · simp only [isDigitC, Bool.and_eq_true, decide_eq_true_eq] at hd
      intro h
      rw [char_eq_iff_toNat, show ('#').toNat = 35 from rfl] at h
      omega
  rw [hw]
  unfold parseBool
  rw [if_neg (by intro h; injection h with h1 _; exact hne h1),
    if_neg (by intro h; injection h with h1 _; exact hne h1)]

theorem parseAtom_writeInt (n : Int) (lo : -2 ^ 31 ≤ n) (hi : n < 2 ^ 31) :
    parseAtom (writeInt n) = .int n := by
  unfold parseAtom
  rw [parseBool_writeInt n, parseInt_writeInt n lo hi]

theorem parseBool_single (c : Char) : parseBool [ '#', '\\', c ] = none := by
  unfold parseBool
  rw [if_neg (by simp), if_neg (by simp)]

theorem parseInt_single (c : Char) : parseInt [ '#', '\\', c ] = none := rfl

theorem parseChar_single (c : Char) :
    parseChar [ '#', '\\', c ] = some (.chr c) := by
  unfold parseChar
  rw [if_neg (by simp), if_neg (by simp), if_neg (by simp)]
  split
  · next c' heq =>
    injection heq with h1 rest1
    injection rest1 with h2 rest2
    injection rest2 with h3 _
    rw [h3]
  · next hne =>
    exact absurd rfl (hne c)

theorem parseAtom_single (c : Char) : parseAtom [ '#', '\\', c ] = .chr c := by
  unfold parseAtom
  rw [parseBool_single, parseInt_single, parseChar_single]

theorem Rereadable_ne_dot (v : SObj) (hv : Rereadable v) : v ≠ .sym [ '.' ] := by
  cases hv with
  | sym s hne hch hb hi hc hpre hdot hlen =>
    intro h
    injection h with h1
    exact hdot h1
  | _ => intro h; exact SObj.noConfusion h

theorem chainAppend_nil (d : SObj) : chainAppend d .nil = d := by
  induction d with
  | pair a d iha ihd => rw [chainAppend, ihd]
  | nil => rfl
  | _ => rfl

theorem reverseReadList_step (result a d : SObj) (h : a ≠ .sym [ '.' ]) :
    reverseReadList result (.pair a d) =
      reverseReadList (pushToList result a) d := by
  rw [reverseReadList.eq_def]
  dsimp only
  rw [if_neg h]

theorem reverseReadList_dot (result x d : SObj) :
    reverseReadList (.pair x result) (.pair (.sym [ '.' ]) d) =
      reverseReadList x d := by
  rw [reverseReadList.eq_2, if_pos rfl]

theorem reverseReadList_spine (d : SObj) :
    ∀ r acc, Rereadable d →
      reverseReadList r (spineAccum acc d) =
        reverseReadList (chainAppend d r) acc := by
  induction d with
  | pair a d iha ihd =>
    intro r acc hv
    cases hv with
    | pair a d ha hd =>
      rw [spineAccum, ihd r (.pair a acc) hd,
        reverseReadList_step (chainAppend d r) a acc (Rereadable_ne_dot a ha)]
      rfl
  | nil => intro r acc _; rfl
  | bool b =>
    intro r acc hv
    rw [show spineAccum acc (.bool b) =
        .pair (.bool b) (.pair (.sym [ '.' ]) acc) from rfl,
      reverseReadList_step r (.bool b) _ (Rereadable_ne_dot _ hv)]
    exact reverseReadList_dot r (.bool b) acc
  | int n =>
    intro r acc hv
    rw [show spineAccum acc (.int n) =
        .pair (.int n) (.pair (.sym [ '.' ]) acc) from rfl,
      reverseReadList_step r (.int n) _ (Rereadable_ne_dot _ hv)]
    exact reverseReadList_dot r (.int n) acc
  | chr c =>
    intro r acc hv
    rw [show spineAccum acc (.chr c) =
        .pair (.chr c) (.pair (.sym [ '.' ]) acc) from rfl,
      reverseReadList_step r (.chr c) _ (Rereadable_ne_dot _ hv)]
    exact reverseReadList_dot r (.chr c) acc
  | str s =>
    intro r acc hv
    rw [show spineAccum acc (.str s) =
        .pair (.str s) (.pair (.sym [ '.' ]) acc) from rfl,
      reverseReadList_step r (.str s) _ (Rereadable_ne_dot _ hv)]
    exact reverseReadList_dot r (.str s) acc
  | sym s =>
    intro r acc hv
    rw [show spineAccum acc (.sym s) =
        .pair (.sym s) (.pair (.sym [ '.' ]) acc) from rfl,
      reverseReadList_step r (.sym s) _ (Rereadable_ne_dot _ hv)]
    exact reverseReadList_dot r (.sym s) acc

theorem special_ne_semi (c : Char) (h : isSpecial c = false) : c ≠ ';' := by
  intro h2
  rw [h2] at h
  exact absurd h (by decide)

theorem writeChar_head (c : Char) :
    ∃ cs, writeChar c = '#' :: cs := by
  unfold writeChar
  by_cases h1 : c = '\n'
  · rw [if_pos h1]; exact ⟨_, rfl⟩
  · rw [if_neg h1]
    by_cases h2 : c = ' '
    · rw [if_pos h2]; exact ⟨_, rfl⟩
    · rw [if_neg h2]; exact ⟨_, rfl⟩

theorem notSpecial_split (c : Char) (h : isSpecial c = false) :
    c ≠ '(' ∧ c ≠ ')' ∧ c ≠ ';' ∧ c ≠ '\"' ∧ c ≠ '\'' := by
  refine ⟨?_, ?_, ?_, ?_, ?_⟩ <;>
    (intro h2; rw [h2] at h; exact absurd h (by decide))

theorem special_not_space (c : Char) (h : isSpecial c = true) :
    isSpaceC c = false := by
  rw [isSpecial_toNat] at h
  rw [Bool.eq_false_iff]
  intro h2
  rw [isSpaceC_toNat] at h2
  omega

theorem writeObj_head (v : SObj) (hv : Rereadable v) :
    ∃ c cs, writeObj v = c :: cs ∧ isSpaceC c = false ∧ c ≠ ';' ∧ c ≠ ')' := by
  cases hv with
  | nil => exact ⟨'(', [ ')' ], rfl, by decide, by decide, by decide⟩
  | bool b =>
    cases b
    · exact ⟨'#', [ 'f' ], rfl, by decide, by decide, by decide⟩
    · exact ⟨'#', [ 't' ], rfl, by decide, by decide, by decide⟩
  | int n lo hi =>
    obtain ⟨c, cs, hw, hc⟩ := writeInt_head n
    refine ⟨c, cs, hw, ?_, ?_, ?_⟩
    · rcases hc with rfl | hd
      · decide
      · exact (digit_atomChar c hd).1
    · rcases hc with rfl | hd
      · decide
      · exact (notSpecial_split c (digit_atomChar c hd).2).2.2.1
    · rcases hc with rfl | hd
      · decide
      · exact (notSpecial_split c (digit_atomChar c hd).2).2.1
  | chr c h =>
    obtain ⟨cs, hw⟩ := writeChar_head c
    exact ⟨'#', cs, hw, by decide, by decide, by decide⟩
  | str s h hlen =>
    exact ⟨'\"', s ++ [ '\"' ], rfl, by decide, by decide, by decide⟩
  | sym s hne hch hb hi hc hpre hdot hlen =>
    match s, hne with
    | c :: cs, _ =>
      obtain ⟨hsp, hspec⟩ := hch c (by simp)
      exact ⟨c, cs, rfl, hsp, (notSpecial_split c hspec).2.2.1,
        (notSpecial_split c hspec).2.1⟩
  | pair a d ha hd =>
    exact ⟨'(', writeObj a ++ writePairTail d, rfl, by decide, by decide,
      by decide⟩

theorem readObject_atom (c : Char) (cs rest : List Char) (g : Nat)
    (hch : ∀ x ∈ c :: cs, atomChar x) (hrest : delimOk rest)
    (hlen : (c :: cs).length ≤ 10239)
    (hpre : c :: cs ≠ [ '#', '\\' ]) :
    readObject (g + 1) ((c :: cs) ++ rest) =
      .ok (some (parseAtom (c :: cs)), rest) := by
  obtain ⟨hsp, hspec⟩ := hch c (by simp)
  obtain ⟨hp1, hp2, hp3, hp4, hp5⟩ := notSpecial_split c hspec
  rw [readObject]
  rw [show ((c :: cs) ++ rest : List Char) = c :: (cs ++ rest) from rfl]
  rw [fgetcSkip_cons c (cs ++ rest) hsp hp3]
  dsimp only
  rw [if_neg hp1, if_neg hp2, if_neg hp5, if_neg hp4]
  unfold readAtom
  rw [show (c :: (cs ++ rest) : List Char) = (c :: cs) ++ rest from rfl]
  rw [readAtomAux_spec (c :: cs) 0 [] rest hch hrest (by simp at hlen ⊢; omega)]
  dsimp only [List.reverse_nil, List.nil_append]
  rw [if_neg hpre]

theorem delimOk_writePairTail (d : SObj) (rest : List Char) :
    delimOk (writePairTail d ++ rest) := by
  cases d with
  | pair a d => show delimOk (' ' :: _); left; decide
  | nil => show delimOk (')' :: _); right; decide
  | bool b => show delimOk (' ' :: _); left; decide
  | int n => show delimOk (' ' :: _); left; decide
  | chr c => show delimOk (' ' :: _); left; decide
  | str s => show delimOk (' ' :: _); left; decide
  | sym s => show delimOk (' ' :: _); left; decide

theorem readListLoop_close (acc : SObj) (rest : List Char) (g : Nat) :
    readListLoop (g + 1) acc (')' :: rest) =
      (match reverseReadList .nil acc with
        | .error e => .error e
        | .ok v => .ok (v, rest)) := by
  rw [readListLoop]
  rw [fgetcSkip_cons ')' rest (by decide) (by decide)]
  dsimp only
  rw [if_pos rfl]

theorem readListLoop_step (N : Nat)
    (IH : ∀ w, rsize w ≤ N → Rereadable w → ∀ rest fuel, delimOk rest →
      5 * rsize w + 5 ≤ fuel →
      readObject fuel (writeObj w ++ rest) = .ok (some w, rest))
    (a : SObj) (ha : Rereadable a) (hsz : rsize a ≤ N)
    (acc : SObj) (z : List Char) (g : Nat) (hz : delimOk z)
    (hf : 5 * rsize a + 5 ≤ g) :
    readListLoop (g + 1) acc (' ' :: (writeObj a ++ z)) =
      readListLoop g (pushToList acc a) z := by
  rw [readListLoop]
  rw [fgetcSkip_space ' ' _ (by decide) (by decide)]
  obtain ⟨c, cs, hw, hsp, hsemi, hparen⟩ := writeObj_head a ha
  rw [show (writeObj a ++ z : List Char) = c :: (cs ++ z) from by
    rw [hw]; rfl]
  rw [fgetcSkip_cons c (cs ++ z) hsp hsemi]
  dsimp only
  rw [if_neg hparen]
  rw [show (c :: (cs ++ z) : List Char) = writeObj a ++ z from by
    rw [hw]; rfl]
  rw [IH a hsz ha z g hz hf]

theorem readListLoop_first (N : Nat)
    (IH : ∀ w, rsize w ≤ N → Rereadable w → ∀ rest fuel, delimOk rest →
      5 * rsize w + 5 ≤ fuel →
      readObject fuel (writeObj w ++ rest) = .ok (some w, rest))
    (a : SObj) (ha : Rereadable a) (hsz : rsize a ≤ N)
    (acc : SObj) (z : List Char) (g : Nat) (hz : delimOk z)
    (hf : 5 * rsize a + 5 ≤ g) :
    readListLoop (g + 1) acc (writeObj a ++ z) =
      readListLoop g (pushToList acc a) z := by
  rw [readListLoop]
  obtain ⟨c, cs, hw, hsp, hsemi, hparen⟩ := writeObj_head a ha
  rw [show (writeObj a ++ z : List Char) = c :: (cs ++ z) from by
    rw [hw]; rfl]
  rw [fgetcSkip_cons c (cs ++ z) hsp hsemi]
  dsimp only
  rw [if_neg hparen]
  rw [show (c :: (cs ++ z) : List Char) = writeObj a ++ z from by
    rw [hw]; rfl]
  rw [IH a hsz ha z g hz hf]

theorem readListLoop_dotted (N : Nat)
    (IH : ∀ w, rsize w ≤ N → Rereadable w → ∀ rest fuel, delimOk rest →
      5 * rsize w + 5 ≤ fuel →
      readObject fuel (writeObj w ++ rest) = .ok (some w, rest))
    (x : SObj) (hx : Rereadable x) (hsz : rsize x ≤ N)
    (acc : SObj) (rest : List Char) (g : Nat)
    (hwx : writePairTail x ++ rest =
      ' ' :: (([ '.' ] : List Char) ++
        (' ' :: (writeObj x ++ (')' :: rest)))))
    (hsa : spineAccum acc x = .pair x (.pair (.sym [ '.' ]) acc))
    (hf : 5 * rsize x + 5 ≤ g) :
    readListLoop (g + 3) acc (writePairTail x ++ rest) =
      (match reverseReadList .nil (spineAccum acc x) with
        | .error e => .error e
        | .ok v => .ok (v, rest)) := by
  rw [hwx]
  rw [show g + 3 = (g + 2) + 1 from rfl, readListLoop]
  rw [fgetcSkip_space ' ' _ (by decide) (by decide)]
  rw [show (([ '.' ] : List Char) ++ (' ' :: (writeObj x ++ (')' :: rest)))) =
    '.' :: (' ' :: (writeObj x ++ (')' :: rest))) from rfl]
  rw [fgetcSkip_cons '.' _ (by decide) (by decide)]
  dsimp only
  rw [if_neg (by decide : ¬('.' = ')'))]
  rw [show ('.' :: (' ' :: (writeObj x ++ (')' :: rest))) : List Char) =
    [ '.' ] ++ (' ' :: (writeObj x ++ (')' :: rest))) from rfl]
  rw [readObject_atom '.' [] (' ' :: (writeObj x ++ (')' :: rest))) (g + 1)
    (by intro y hy; rw [List.mem_singleton] at hy; subst hy; exact ⟨by decide, by decide⟩)
    (Or.inl (by decide)) (by simp) (by simp)]
  dsimp only
  rw [show parseAtom [ '.' ] = SObj.sym [ '.' ] from rfl]
  rw [readListLoop_step N IH x hx hsz (pushToList acc (.sym [ '.' ]))
    (')' :: rest) (g + 1) (Or.inr (by decide)) (by omega)]
  rw [readListLoop_close]
  rw [hsa]
  rfl

theorem readListLoop_tail (N : Nat)
    (IH : ∀ w, rsize w ≤ N → Rereadable w → ∀ rest fuel, delimOk rest →
      5 * rsize w + 5 ≤ fuel →
      readObject fuel (writeObj w ++ rest) = .ok (some w, rest)) :
    ∀ d, rsize d ≤ N → Rereadable d → ∀ acc rest fuel,
      5 * rsize d + 10 ≤ fuel →
      readListLoop fuel acc (writePairTail d ++ rest) =
        (match reverseReadList .nil (spineAccum acc d) with
          | .error e => .error e
          | .ok v => .ok (v, rest)) := by
  intro d
  induction d with
  | nil =>
    intro _ _ acc rest fuel hf
    obtain ⟨g, rfl⟩ : ∃ g, fuel = g + 1 := ⟨fuel - 1, by omega⟩
    exact readListLoop_close acc rest g
  | pair a d iha ihd =>
    intro hN hv acc rest fuel hf
    cases hv with
    | pair a d ha hd =>
      obtain ⟨g, rfl⟩ : ∃ g, fuel = g + 1 := ⟨fuel - 1, by omega⟩
      rw [show (writePairTail (SObj.pair a d) ++ rest : List Char) =
        ' ' :: (writeObj a ++ (writePairTail d ++ rest)) from by
          show ((' ' :: (writeObj a ++ writePairTail d)) ++ rest : List Char) = _
          simp]
      rw [readListLoop_step N IH a ha (by rw [rsize] at hN; omega) acc
        (writePairTail d ++ rest) g (delimOk_writePairTail d rest)
        (by rw [rsize] at hf; omega)]
      rw [ihd (by rw [rsize] at hN; omega) hd (pushToList acc a) rest g
        (by rw [rsize] at hf; omega)]
      rfl
  | bool b =>
    intro hN hv acc rest fuel hf
    obtain ⟨g, rfl⟩ : ∃ g, fuel = g + 3 := ⟨fuel - 3, by omega⟩
    exact readListLoop_dotted N IH (.bool b) hv hN acc rest g
      (by cases b <;> simp [writePairTail, writeAtom, writeObj]) rfl
      (by simp only [show rsize (SObj.bool b) = 1 from rfl] at hf ⊢; omega)
  | int n =>
    intro hN hv acc rest fuel hf
    obtain ⟨g, rfl⟩ : ∃ g, fuel = g + 3 := ⟨fuel - 3, by omega⟩
    exact readListLoop_dotted N IH (.int n) hv hN acc rest g
      (by simp [writePairTail, writeAtom, writeObj]) rfl
      (by simp only [show rsize (SObj.int n) = 1 from rfl] at hf ⊢; omega)
  | chr c =>
    intro hN hv acc rest fuel hf
    obtain ⟨g, rfl⟩ : ∃ g, fuel = g + 3 := ⟨fuel - 3, by omega⟩
    exact readListLoop_dotted N IH (.chr c) hv hN acc rest g
      (by simp [writePairTail, writeAtom, writeObj]) rfl
      (by simp only [show rsize (SObj.chr c) = 1 from rfl] at hf ⊢; omega)
  | str s =>
    intro hN hv acc rest fuel hf
    obtain ⟨g, rfl⟩ : ∃ g, fuel = g + 3 := ⟨fuel - 3, by omega⟩
    exact readListLoop_dotted N IH (.str s) hv hN acc rest g
      (by simp [writePairTail, writeAtom, writeObj]) rfl
      (by simp only [show rsize (SObj.str s) = 1 from rfl] at hf ⊢; omega)
  | sym s =>
    intro hN hv acc rest fuel hf
    obtain ⟨g, rfl⟩ : ∃ g, fuel = g + 3 := ⟨fuel - 3, by omega⟩
    exact readListLoop_dotted N IH (.sym s) hv hN acc rest g
      (by simp [writePairTail, writeAtom, writeObj]) rfl
      (by simp only [show rsize (SObj.sym s) = 1 from rfl] at hf ⊢; omega)

theorem rsize_pos (v : SObj) : 1 ≤ rsize v := by
  cases v with
  | pair a d =>
    rw [show rsize (SObj.pair a d) = 1 + rsize a + rsize d from rfl]
    omega
  | nil => exact Nat.le_refl 1
  | bool b => exact Nat.le_refl 1
  | int n => exact Nat.le_refl 1
  | chr c => exact Nat.le_refl 1
  | str s => exact Nat.le_refl 1
  | sym s => exact Nat.le_refl 1

theorem readObject_write_main (N : Nat) :
    ∀ v, rsize v ≤ N → Rereadable v → ∀ rest fuel, delimOk rest →
      5 * rsize v + 5 ≤ fuel →
      readObject fuel (writeObj v ++ rest) = .ok (some v, rest) := by
  induction N with
  | zero =>
    intro v hN _
    exfalso
    cases v <;> simp [rsize] at hN
  | succ N ihN =>
    intro v hN hv rest fuel hrest hfuel
    cases hv with
    | nil =>
      obtain ⟨g, rfl⟩ : ∃ g, fuel = g + 2 := ⟨fuel - 2, by omega⟩
      show readObject ((g + 1) + 1) ('(' :: ')' :: rest) = _
      rw [readObject]
      rw [fgetcSkip_cons '(' _ (by decide) (by decide)]
      dsimp only
      rw [if_pos rfl]
      rw [readListLoop_close SObj.nil rest g]
      rfl
    | bool b =>
      obtain ⟨g, rfl⟩ : ∃ g, fuel = g + 1 := ⟨fuel - 1, by omega⟩
      cases b
      · rw [show (writeObj (SObj.bool false) ++ rest : List Char) =
          ([ '#', 'f' ] : List Char) ++ rest from rfl]
        rw [readObject_atom '#' [ 'f' ] rest g (by decide) hrest (by decide)
          (by decide)]
        rfl
      · rw [show (writeObj (SObj.bool true) ++ rest : List Char) =
          ([ '#', 't' ] : List Char) ++ rest from rfl]
        rw [readObject_atom '#' [ 't' ] rest g (by decide) hrest (by decide)
          (by decide)]
        rfl
    | int n lo hi =>
      obtain ⟨g, rfl⟩ : ∃ g, fuel = g + 1 := ⟨fuel - 1, by omega⟩
      obtain ⟨c, cs, hw, hc⟩ := writeInt_head n
      obtain ⟨hne, hdig, _⟩ := writeNat_spec n.natAbs
      have hch : ∀ x ∈ c :: cs, atomChar x := by
        rw [← hw]
        intro x hx
        unfold writeInt at hx
        by_cases hneg : n < 0
        · rw [if_pos hneg] at hx
          rcases List.mem_cons.mp hx with rfl | hx2
          · exact ⟨by decide, by decide⟩
          · exact digit_atomChar x (hdig x hx2)
        · rw [if_neg hneg] at hx
          exact digit_atomChar x (hdig x hx)
      have hlen : (c :: cs).length ≤ 10239 := by
        rw [← hw]
        have hbound : n.natAbs < 10 ^ 10 := by
          have : n.natAbs ≤ 2 ^ 31 := by omega
          omega
        have := writeNat_length_le 9 n.natAbs (by omega)
        unfold writeInt
        by_cases hneg : n < 0
        · rw [if_pos hneg]
          simp only [List.length_cons]
          omega
        · rw [if_neg hneg]
          omega
      have hpre : c :: cs ≠ [ '#', '\\' ] := by
        intro h
        have : c = '#' := by injection h
        rcases hc with rfl | hd
        · exact absurd this (by decide)
        · subst this
          exact absurd hd (by decide)
      rw [show (writeObj (SObj.int n) ++ rest : List Char) =
        (c :: cs) ++ rest from by rw [show writeObj (SObj.int n) = writeInt n from rfl, hw]]
      rw [readObject_atom c cs rest g hch hrest hlen hpre]
      rw [← hw]
      rw [parseAtom_writeInt n lo hi]
    | chr c h =>
      obtain ⟨g, rfl⟩ : ∃ g, fuel = g + 1 := ⟨fuel - 1, by omega⟩
      by_cases hnl : c = '\n'
      · subst hnl
        rw [show (writeObj (SObj.chr '\n') ++ rest : List Char) =
          ([ '#', '\\', 'n', 'e', 'w', 'l', 'i', 'n', 'e' ] : List Char) ++ rest
          from rfl]
        rw [readObject_atom '#' [ '\\', 'n', 'e', 'w', 'l', 'i', 'n', 'e' ]
          rest g (by decide) hrest (by decide) (by decide)]
        rfl
      · by_cases hspc : c = ' '
        · subst hspc
          rw [show (writeObj (SObj.chr ' ') ++ rest : List Char) =
            ([ '#', '\\', 's', 'p', 'a', 'c', 'e' ] : List Char) ++ rest
            from rfl]
          rw [readObject_atom '#' [ '\\', 's', 'p', 'a', 'c', 'e' ]
            rest g (by decide) hrest (by decide) (by decide)]
          rfl
        · have hspf : isSpaceC c = false := by
            rcases h with h1 | h1 | h1
            · exact absurd h1 hnl
            · exact absurd h1 hspc
            · exact h1
          have hwc : writeChar c = [ '#', '\\', c ] := by
            unfold writeChar
            rw [if_neg hnl, if_neg hspc]
          by_cases hspec : isSpecial c = true
          · rw [show (writeObj (SObj.chr c) ++ rest : List Char) =
              writeChar c ++ rest from rfl, hwc]
            rw [show (([ '#', '\\', c ] : List Char) ++ rest) =
              ([ '#', '\\' ] : List Char) ++ (c :: rest) from rfl]
            rw [readObject]
            rw [show (([ '#', '\\' ] : List Char) ++ (c :: rest)) =
              '#' :: ('\\' :: c :: rest) from rfl]
            rw [fgetcSkip_cons '#' _ (by decide) (by decide)]
            dsimp only
            rw [if_neg (by decide), if_neg (by decide), if_neg (by decide),
              if_neg (by decide)]
            unfold readAtom
            rw [show ('#' :: ('\\' :: c :: rest) : List Char) =
              ([ '#', '\\' ] : List Char) ++ (c :: rest) from rfl]
            rw [readAtomAux_spec [ '#', '\\' ] 0 [] (c :: rest) (by decide)
              (Or.inr hspec) (by decide)]
            dsimp only [List.reverse_nil, List.nil_append]
            rw [if_pos rfl]
            rw [show readCharacter (c :: rest) =
              if isSpaceC c then (SObj.chr ' ', rest) else (SObj.chr c, rest)
              from rfl]
            rw [hspf]
            rfl
          · rw [show (writeObj (SObj.chr c) ++ rest : List Char) =
              writeChar c ++ rest from rfl, hwc]
            rw [show (([ '#', '\\', c ] : List Char) ++ rest) =
              ('#' :: [ '\\', c ]) ++ rest from rfl]
            rw [readObject_atom '#' [ '\\', c ] rest g
              (by
                intro x hx
                rcases List.mem_cons.mp hx with rfl | hx1
                · exact ⟨by decide, by decide⟩
                rcases List.mem_cons.mp hx1 with rfl | hx2
                · exact ⟨by decide, by decide⟩
                rcases List.mem_cons.mp hx2 with rfl | hx3
                · exact ⟨hspf, Bool.eq_false_iff.mpr hspec⟩
                · exact absurd hx3 (List.not_mem_nil x))
              hrest (by simp only [List.length_cons, List.length_nil]; omega)
              (by simp)]
            rw [parseAtom_single c]
    | str s hstr hslen =>
      obtain ⟨g, rfl⟩ : ∃ g, fuel = g + 1 := ⟨fuel - 1, by omega⟩
      rw [show (writeObj (SObj.str s) ++ rest : List Char) =
        '\"' :: (s ++ '\"' :: rest) from by
          show (('\"' :: (s ++ [ '\"' ])) ++ rest : List Char) = _
          simp]
      rw [readObject]
      rw [fgetcSkip_cons '\"' _ (by decide) (by decide)]
      dsimp only
      rw [if_neg (by decide), if_neg (by decide), if_neg (by decide),
        if_pos rfl]
      unfold readString
      rw [readStringAux_spec s 0 [] rest hstr (by omega)]
      dsimp only [List.reverse_nil, List.nil_append]
    | sym s hne hch hb hi hc hpre hdot hslen =>
      obtain ⟨g, rfl⟩ : ∃ g, fuel = g + 1 := ⟨fuel - 1, by omega⟩
      match s, hne, hch, hb, hi, hc, hpre, hslen with
      | c :: cs, _, hch, hb, hi, hc, hpre, hslen =>
        rw [show (writeObj (SObj.sym (c :: cs)) ++ rest : List Char) =
          (c :: cs) ++ rest from rfl]
        rw [readObject_atom c cs rest g hch hrest hslen hpre]
        rw [parseAtom_sym (c :: cs) hb hi hc]
    | pair a d ha hd =>
      obtain ⟨g, rfl⟩ : ∃ g, fuel = g + 2 := ⟨fuel - 2, by omega⟩
      have e1 : rsize (SObj.pair a d) = 1 + rsize a + rsize d := rfl
      have p1 := rsize_pos a
      have p2 := rsize_pos d
      rw [show (writeObj (SObj.pair a d) ++ rest : List Char) =
        '(' :: (writeObj a ++ (writePairTail d ++ rest)) from by
          show (('(' :: (writeObj a ++ writePairTail d)) ++ rest : List Char) = _
          simp]
      rw [show g + 2 = (g + 1) + 1 from rfl, readObject]
      rw [fgetcSkip_cons '(' _ (by decide) (by decide)]
      dsimp only
      rw [if_pos rfl]
      rw [readListLoop_first N ihN a ha (by omega) SObj.nil
        (writePairTail d ++ rest) g (delimOk_writePairTail d rest) (by omega)]
      rw [readListLoop_tail N ihN d (by omega) hd (pushToList SObj.nil a)
        rest g (by omega)]
      rw [show spineAccum (pushToList SObj.nil a) d =
        spineAccum (SObj.pair a SObj.nil) d from rfl]
      rw [reverseReadList_spine d SObj.nil (SObj.pair a SObj.nil) hd]
      rw [chainAppend_nil d]
      rw [reverseReadList_step d a SObj.nil (Rereadable_ne_dot a ha)]
      rfl

/-- C2, counterexample: the claim includes strings containing a quote
character, but `write_string` does not escape.  The source text
`"\""` is accepted by the parser and yields the one-character string
`"`; `write` prints it as `"""`, and re-parsing that output yields the
empty string, which is not structurally equal to the original value. -/
theorem claim_C2_counterexample :
    readObject 9 [ '\"', '\\', '\"', '\"' ] = .ok (some (.str [ '\"' ]), []) ∧
    writeObj (.str [ '\"' ]) = [ '\"', '\"', '\"' ] ∧
    readObject 9 [ '\"', '\"', '\"' ] = .ok (some (.str []), [ '\"' ]) ∧
    SObj.str [] ≠ SObj.str [ '\"' ] :=
  ⟨rfl, rfl, rfl, by decide⟩

/-- C2, amended: for every source text accepted by the parser, writing
the parsed value with `write` and re-parsing the output produces a
structurally equal value, provided the value satisfies `Rereadable`: its
strings contain no double quote and no backslash (`write_string` prints
contents verbatim without escaping), its characters are newline, space
or non-whitespace, and the symbol `.` does not occur; the remaining
`Rereadable` conditions (symbol tokens made of non-delimiter characters
that do not classify as other atoms, and 32-bit integer values) hold for
every value the parser can produce. -/
theorem claim_C2_amended (s : List Char) (fuel1 fuel2 : Nat) (v : SObj)
    (rest : List Char) (_hparse : readObject fuel1 s = .ok (some v, rest))
    (hside : Rereadable v) (hfuel : 5 * rsize v + 5 ≤ fuel2) :
    readObject fuel2 (writeObj v) = .ok (some v, []) := by
  have := readObject_write_main (rsize v) v (le_refl _) hside [] fuel2
    trivial hfuel
  simpa using this

/-- Witness for `claim_C2_amended` at the source text `#t`. -/
theorem claim_C2_amended_witness :
    readObject 7 [ '#', 't' ] = .ok (some (.bool true), []) ∧
    Rereadable (.bool true) ∧ 5 * rsize (.bool true) + 5 ≤ 10 ∧
    readObject 10 (writeObj (.bool true)) = .ok (some (.bool true), []) :=
  ⟨rfl, Rereadable.bool true, by decide,
    claim_C2_amended [ '#', 't' ] 7 10 (.bool true) [] rfl
      (Rereadable.bool true) (by decide)⟩

/-- C8: a single string or atom token is parsed through a bounded
buffer of 10240 bytes — at least ten kilobytes.  A string whose
contents fit in the buffer (at most 10239 bytes after escape
processing) is read successfully, and so is an atom token of at most
10239 bytes; a string or atom of 10240 bytes or more is the fatal
`Buffer overflow` error. -/
theorem claim_C8_token_buffer (content tok rest rest2 : List Char)
    (hstr : ∀ c ∈ content, c ≠ '\"' ∧ c ≠ '\\')
    (hatom : ∀ c ∈ tok, atomChar c) (hrest2 : delimOk rest2) :
    (content.length ≤ 10239 →
      readString (content ++ '\"' :: rest) = .ok (.str content, rest)) ∧
    (10240 ≤ content.length →
      readString (content ++ '\"' :: rest) = .error .bufferOverflow) ∧
    (tok.length ≤ 10239 →
      ∃ v r, readAtom (tok ++ rest2) = .ok (v, r)) ∧
    (10240 ≤ tok.length →
      readAtom (tok ++ rest2) = .error .bufferOverflow) ∧
    10 * 1024 ≤ 10240 := by
  refine ⟨?_, ?_, ?_, ?_, by omega⟩
  · intro hlen
    unfold readString
    rw [readStringAux_spec content 0 [] rest hstr (by omega)]
    dsimp only [List.reverse_nil, List.nil_append]
  · intro hlen
    unfold readString
    rw [readStringAux_overflow content 0 [] rest hstr (by omega) (by omega)]
  · intro hlen
    unfold readAtom
    rw [readAtomAux_spec tok 0 [] rest2 hatom hrest2 (by omega)]
    dsimp only [List.reverse_nil, List.nil_append]
    by_cases hpre : tok = [ '#', '\\' ]
    · rw [if_pos hpre]
      exact ⟨(readCharacter rest2).1, (readCharacter rest2).2, rfl⟩
    · rw [if_neg hpre]
      exact ⟨parseAtom tok, rest2, rfl⟩
  · intro hlen
    unfold readAtom
    rw [readAtomAux_overflow tok 0 [] rest2 hatom (by omega) (by omega)]

/-- Witness for `claim_C8_token_buffer` at the string `ab` and the
atom token `xy`. -/
theorem claim_C8_token_buffer_witness :
    (∀ c ∈ ([ 'a', 'b' ] : List Char), c ≠ '\"' ∧ c ≠ '\\') ∧
    (∀ c ∈ ([ 'x', 'y' ] : List Char), atomChar c) ∧ delimOk [] ∧
    readString ([ 'a', 'b' ] ++ '\"' :: []) = .ok (.str [ 'a', 'b' ], []) ∧
    (∃ v r, readAtom ([ 'x', 'y' ] ++ []) = .ok (v, r)) := by
  have h := claim_C8_token_buffer [ 'a', 'b' ] [ 'x', 'y' ] [] []
    (by decide) (by decide) trivial
  exact ⟨by decide, by decide, trivial, h.1 (by decide), h.2.2.1 (by decide)⟩

-- -------------------------------------------------------------------
-- Garbage collector: the registration threshold (claim C3)
-- -------------------------------------------------------------------

/-- `propagate_reachability` with an empty work stack returns the
states unchanged, for any fuel. -/
theorem propagate_nil (h : GCHeap) (fuel : Nat) (r : GCRun)
    (hq : r.queue = []) : propagate h fuel r = r.states := by
  obtain ⟨s, q⟩ := r
  dsimp only at hq
  subst hq
  cases fuel with
  | zero => rfl
  | succ n => rfl

/-- If no object in the walked segment has stack references, the mark
phase leaves the work stack alone, marks every walked object
`GARBAGE`, and changes no state to anything but `GARBAGE`. -/
theorem markStep_foldl_zero (h : GCHeap) (L : List Nat) (r0 : GCRun)
    (hz : ∀ id ∈ L, h.stackrefs id = 0) :
    (L.foldl (markStep h) r0).queue = r0.queue ∧
    (∀ x ∈ L, (L.foldl (markStep h) r0).states x = .garbage) ∧
    (∀ x, (L.foldl (markStep h) r0).states x = r0.states x ∨
      (L.foldl (markStep h) r0).states x = .garbage) := by
  induction L generalizing r0 with
  | nil =>
    refine ⟨rfl, ?_, fun x => Or.inl rfl⟩
    intro x hx
    cases hx
  | cons a L ih =>
    have hza : h.stackrefs a = 0 := hz a (List.mem_cons_self a L)
    have hzL : ∀ id ∈ L, h.stackrefs id = 0 :=
      fun id hid => hz id (List.mem_cons_of_mem a hid)
    have hstep : markStep h r0 a =
        { states := Function.update r0.states a .garbage,
          queue := r0.queue } := by
      unfold markStep
      rw [if_neg (by omega)]
    rw [List.foldl_cons, hstep]
    obtain ⟨hq, hg, hpres⟩ := ih _ hzL
    refine ⟨hq, ?_, ?_⟩
    · intro x hx
      rcases List.mem_cons.mp hx with hxa | hxL
      · subst hxa
        rcases hpres x with heq | heq
        · rw [heq]
          exact Function.update_same x .garbage r0.states
        · exact heq
      · exact hg x hxL
    · intro x
      rcases hpres x with heq | heq
      · by_cases hxa : x = a
        · subst hxa
          rw [heq]
          exact Or.inr (Function.update_same x .garbage r0.states)
        · rw [heq]
          exact Or.inl (Function.update_noteq hxa .garbage r0.states)
      · exact Or.inr heq

/-- When no registered object has stack references, collection keeps
nothing. -/
theorem collectGarbage_zero_refs (h : GCHeap) (all : List Nat)
    (init : Nat → GCState) (fuel : Nat)
    (hz : ∀ id ∈ all, h.stackrefs id = 0) :
    collectGarbage h all init fuel = [] := by
  obtain ⟨hq, hg, _⟩ := markStep_foldl_zero h all.reverse
    { states := init, queue := [] }
    (fun id hid => hz id (List.mem_reverse.mp hid))
  unfold collectGarbage markGlobally
  rw [propagate_nil h fuel _ hq]
  rw [List.filter_eq_nil_iff]
  intro id hid
  rw [hg id (List.mem_reverse.mpr hid)]
  decide

/-- The survivors of a collection form a sublist of the registry. -/
theorem collectGarbage_sublist (h : GCHeap) (all : List Nat)
    (init : Nat → GCState) (fuel : Nat) :
    List.Sublist (collectGarbage h all init fuel) all := by
  unfold collectGarbage
  exact List.filter_sublist all

/-- C3 (amended): when registering an object finds the registry larger
than the threshold, `register_object` collects and sets the next
threshold to exactly twice the surviving count — with no lower bound.
The registry becomes the survivors (a sublist of the old registry)
followed by the new object, and when nothing on the stack references
any registered object the new threshold is `0`, below the initial
`100`.  The claimed `max` with the initial threshold does not exist in
`register_object` (`src/scheme.c:2171-2181`). -/
theorem claim_C3_amended (h : GCHeap) (init : Nat → GCState) (fuel : Nat)
    (all : List Nat) (threshold obj : Nat)
    (htrig : all.length > threshold) :
    (registerObject h init fuel all threshold obj).1
      = collectGarbage h all init fuel ++ [ obj ] ∧
    (registerObject h init fuel all threshold obj).2
      = (collectGarbage h all init fuel).length * 2 ∧
    List.Sublist (collectGarbage h all init fuel) all ∧
    ((∀ id ∈ all, h.stackrefs id = 0) →
      (registerObject h init fuel all threshold obj).2 = 0) := by
  have hreg : registerObject h init fuel all threshold obj
      = (collectGarbage h all init fuel ++ [ obj ],
         (collectGarbage h all init fuel).length * 2) := by
    unfold registerObject
    rw [if_pos htrig]
  refine ⟨by rw [hreg], by rw [hreg],
    collectGarbage_sublist h all init fuel, ?_⟩
  intro hz
  rw [hreg]
  rw [collectGarbage_zero_refs h all init fuel hz]
  rfl

/-- Witness for `claim_C3_amended`: a registry of two unreferenced
objects over threshold `1`; the triggered collection keeps nothing and
the threshold becomes `0`. -/
theorem claim_C3_amended_witness :
    1 < [ 5, 6 ].length ∧
    (registerObject ⟨fun _ => 0, fun _ => []⟩ (fun _ => GCState.garbage) 9
      [ 5, 6 ] 1 7).1 = [ 7 ] ∧
    (registerObject ⟨fun _ => 0, fun _ => []⟩ (fun _ => GCState.garbage) 9
      [ 5, 6 ] 1 7).2 = 0 := by
  have h := claim_C3_amended ⟨fun _ => 0, fun _ => []⟩
    (fun _ => GCState.garbage) 9 [ 5, 6 ] 1 7 (by decide)
  refine ⟨by decide, ?_, h.2.2.2 (fun id _ => rfl)⟩
  rw [h.1]
  decide

/-- C3 is refuted as stated: with the initial threshold `100` and a
registry of `101` objects of which only two survive (object `0` is
referenced from the stack and its children include object `1`),
registering one more object triggers a collection after which the
threshold is `4 = 2 × 2`, not `max 100 (2 × 2) = 100`; the threshold
drops below its initial value. -/
theorem claim_C3_counterexample :
    collectGarbage
        ⟨fun i => if i = 0 then 1 else 0, fun i => if i = 0 then [ 1 ] else []⟩
        (List.range 101) (fun _ => GCState.garbage) 300 = [ 0, 1 ] ∧
    (registerObject
        ⟨fun i => if i = 0 then 1 else 0, fun i => if i = 0 then [ 1 ] else []⟩
        (fun _ => GCState.garbage) 300 (List.range 101) 100 101).2 = 4 ∧
    (4 : Nat) ≠ max 100 4 ∧ (4 : Nat) < 100 := by
  refine ⟨by decide, by decide, by decide, by decide⟩

-- -------------------------------------------------------------------
-- String primitives (claim C10)
-- -------------------------------------------------------------------

/-- Reading a just-written position of a list yields the written
element. -/
theorem get_set_self (l : List Char) (n : Nat) (a : Char)
    (h : n < l.length) : (l.set n a).get? n = some a := by
  induction l generalizing n with
  | nil => simp at h
  | cons b l ih =>
    cases n with
    | zero => rfl
    | succ n =>
      exact ih n (by simp only [List.length_cons] at h; omega)

/-- Writing one position of a list leaves every other position
unchanged. -/
theorem get_set_other (l : List Char) (n m : Nat) (a : Char)
    (h : n ≠ m) : (l.set n a).get? m = l.get? m := by
  induction l generalizing n m with
  | nil => rfl
  | cons b l ih =>
    cases n with
    | zero =>
      cases m with
      | zero => exact absurd rfl h
      | succ m => rfl
    | succ n =>
      cases m with
      | zero => rfl
      | succ m => exact ih n m (fun he => h (by rw [he]))

/-- C10: `(string-set! s k c)` writes byte `k - 1` of `s` while
`(string-ref s i)` reads byte `i` (`native_string_set`,
`src/scheme.c:3693-3702`; `native_string_ref`,
`src/scheme.c:3656-3663`).  Hence after the write, reading position
`k - 1` gives `c`, reading position `k` is unchanged (the written and
the read positions never coincide), and so is every position other
than `k - 1`; the length is unchanged. -/
theorem claim_C10_string_set_ref (s : List Char) (k : Int) (c : Char)
    (h1 : 1 ≤ k) (h2 : k - 1 < (s.length : Int)) :
    ∃ t, nativeStringSet s k c = some t ∧ t.length = s.length ∧
      nativeStringRef t (k - 1) = some c ∧
      nativeStringRef t k = nativeStringRef s k ∧
      ∀ i : Int, i ≠ k - 1 → nativeStringRef t i = nativeStringRef s i := by
  have hlen : (((s.set (k - 1).toNat c).length : Nat) : Int)
      = (s.length : Int) := by
    rw [List.length_set]
  have hall : ∀ i : Int, i ≠ k - 1 →
      nativeStringRef (s.set (k - 1).toNat c) i = nativeStringRef s i := by
    intro i hne
    unfold nativeStringRef
    rw [hlen]
    by_cases hin : 0 ≤ i ∧ i < (s.length : Int)
    · rw [if_pos hin, if_pos hin]
      exact get_set_other s ((k - 1).toNat) i.toNat c (by omega)
    · rw [if_neg hin, if_neg hin]
  refine ⟨s.set (k - 1).toNat c, ?_, by rw [List.length_set], ?_, ?_, hall⟩
  · unfold nativeStringSet
    rw [if_pos ⟨by omega, h2⟩]
  · unfold nativeStringRef
    rw [hlen]
    rw [if_pos ⟨by omega, h2⟩]
    exact get_set_self s ((k - 1).toNat) c (by omega)
  · exact hall k (by omega)

/-- Witness for `claim_C10_string_set_ref` on the string `abc`,
position `2` and character `z`. -/
theorem claim_C10_string_set_ref_witness :
    (1 : Int) ≤ 2 ∧ (2 : Int) - 1 < (([ 'a', 'b', 'c' ] : List Char).length : Int) ∧
    ∃ t, nativeStringSet [ 'a', 'b', 'c' ] 2 'z' = some t ∧ t.length = 3 ∧
      nativeStringRef t 1 = some 'z' ∧
      nativeStringRef t 2 = nativeStringRef [ 'a', 'b', 'c' ] 2 := by
  obtain ⟨t, hset, hlen, href, hsame, -⟩ :=
    claim_C10_string_set_ref [ 'a', 'b', 'c' ] 2 'z' (by decide) (by decide)
  refine ⟨by decide, by decide, t, hset, hlen.trans rfl, ?_, hsame⟩
  rw [show (1 : Int) = 2 - 1 from by decide]
  exact href

-- -------------------------------------------------------------------
-- `eq` and the freshness of `wrap_int` (claim C9)
-- -------------------------------------------------------------------

/-- Indexing into the left part of an appended list. -/
theorem get_append_left {α : Type} (l m : List α) (n : Nat)
    (h : n < l.length) : (l ++ m).get? n = l.get? n := by
  induction l generalizing n with
  | nil => simp at h
  | cons b l ih =>
    cases n with
    | zero => rfl
    | succ n =>
      exact ih n (by simp only [List.length_cons] at h; omega)

/-- Indexing an appended singleton at the old length. -/
theorem get_concat {α : Type} (l : List α) (a : α) :
    (l ++ [ a ]).get? l.length = some a := by
  induction l with
  | nil => rfl
  | cons b l ih => exact ih

/-- Distinct objects of which at most one is a pair, at most one a
symbol and at most one a character make `eq` die. -/
theorem eqObj_typeMismatch (h : CHeap) (fuel x y : Nat) (cx cy : Cell)
    (hx : lookupCell h x = some cx) (hy : lookupCell h y = some cy)
    (hxy : x ≠ y)
    (hnp : (cx.isPair && cy.isPair) = false)
    (hns : (cx.isSym && cy.isSym) = false)
    (hnc : (cx.isChr && cy.isChr) = false) :
    eqObj h (fuel + 1) x y = .error .typeMismatch := by
  rw [eqObj, if_neg hxy, hx, hy]
  cases cx <;> cases cy <;>
    first
      | rfl
      | exact Bool.noConfusion hnp
      | exact Bool.noConfusion hns
      | exact Bool.noConfusion hnc

/-- Two distinct symbol objects compare by name. -/
theorem eqObj_sym (h : CHeap) (fuel x y : Nat) (nx ny : List Char)
    (hx : lookupCell h x = some (Cell.sym nx))
    (hy : lookupCell h y = some (Cell.sym ny)) (hxy : x ≠ y) :
    eqObj h (fuel + 1) x y = .ok (decide (nx = ny)) := by
  rw [eqObj, if_neg hxy, hx, hy]

/-- Two distinct character objects compare by value. -/
theorem eqObj_chr (h : CHeap) (fuel x y : Nat) (a b : Char)
    (hx : lookupCell h x = some (Cell.chr a))
    (hy : lookupCell h y = some (Cell.chr b)) (hxy : x ≠ y) :
    eqObj h (fuel + 1) x y = .ok (decide (a = b)) := by
  rw [eqObj, if_neg hxy, hx, hy]

/-- Two distinct pair objects compare structurally: the cars first,
then, on success, the cdrs. -/
theorem eqObj_pair (h : CHeap) (fuel x y : Nat) (ax dx ay dy : Nat)
    (hx : lookupCell h x = some (Cell.pair ax dx))
    (hy : lookupCell h y = some (Cell.pair ay dy)) (hxy : x ≠ y) :
    eqObj h (fuel + 1) x y =
      match eqObj h fuel ax ay with
      | .ok true => eqObj h fuel dx dy
      | .ok false => .ok false
      | .error e => .error e := by
  rw [eqObj, if_neg hxy, hx, hy]

/-- If two booleans are not both `true`, their conjunction is
`false`. -/
theorem and_eq_false_of_not_both (p q : Bool)
    (hn : ¬ (p = true ∧ q = true)) : (p && q) = false := by
  cases p
  · rfl
  · cases q
    · rfl
    · exact absurd ⟨rfl, rfl⟩ hn

/-- C9: `eq` (`src/scheme.c:3358-3387`) on two distinct heap objects
that are not both pairs, not both symbols and not both characters
aborts with the fatal type error instead of returning a boolean;
otherwise it compares symbols by name, characters by value, and pairs
structurally (cars recursively, then cdrs).  `wrap_int`
(`src/scheme.c:2471-2476`) always allocates fresh, so two integer
literals evaluate to distinct integer objects and `eq` on them
aborts. -/
theorem claim_C9_eq (h : CHeap) (x y : Nat) (cx cy : Cell)
    (hx : lookupCell h x = some cx) (hy : lookupCell h y = some cy)
    (hxy : x ≠ y) (fuel : Nat) :
    (¬ (cx.isPair = true ∧ cy.isPair = true) →
     ¬ (cx.isSym = true ∧ cy.isSym = true) →
     ¬ (cx.isChr = true ∧ cy.isChr = true) →
      eqObj h (fuel + 1) x y = .error .typeMismatch) ∧
    (∀ nx ny, cx = Cell.sym nx → cy = Cell.sym ny →
      eqObj h (fuel + 1) x y = .ok (decide (nx = ny))) ∧
    (∀ a b, cx = Cell.chr a → cy = Cell.chr b →
      eqObj h (fuel + 1) x y = .ok (decide (a = b))) ∧
    (∀ ax dx ay dy, cx = Cell.pair ax dx → cy = Cell.pair ay dy →
      ((eqObj h fuel ax ay = .ok true →
          eqObj h (fuel + 1) x y = eqObj h fuel dx dy) ∧
       (eqObj h fuel ax ay = .ok false →
          eqObj h (fuel + 1) x y = .ok false) ∧
       (∀ e, eqObj h fuel ax ay = .error e →
          eqObj h (fuel + 1) x y = .error e))) ∧
    (∀ v w : Int,
      (wrapInt h v).2 ≠ (wrapInt (wrapInt h v).1 w).2 ∧
      lookupCell (wrapInt (wrapInt h v).1 w).1 (wrapInt h v).2
        = some (Cell.int v) ∧
      lookupCell (wrapInt (wrapInt h v).1 w).1 (wrapInt (wrapInt h v).1 w).2
        = some (Cell.int w) ∧
      eqObj (wrapInt (wrapInt h v).1 w).1 (fuel + 1) (wrapInt h v).2
        (wrapInt (wrapInt h v).1 w).2 = .error .typeMismatch) := by
  refine ⟨?_, ?_, ?_, ?_, ?_⟩
  · intro hnp hns hnc
    exact eqObj_typeMismatch h fuel x y cx cy hx hy hxy
      (and_eq_false_of_not_both _ _ hnp)
      (and_eq_false_of_not_both _ _ hns)
      (and_eq_false_of_not_both _ _ hnc)
  · intro nx ny h1 h2
    subst h1
    subst h2
    exact eqObj_sym h fuel x y nx ny hx hy hxy
  · intro a b h1 h2
    subst h1
    subst h2
    exact eqObj_chr h fuel x y a b hx hy hxy
  · intro ax dx ay dy h1 h2
    subst h1
    subst h2
    have hp := eqObj_pair h fuel x y ax dx ay dy hx hy hxy
    refine ⟨?_, ?_, ?_⟩
    · intro hcar
      rw [hp, hcar]
    · intro hcar
      rw [hp, hcar]
    · intro e hcar
      rw [hp, hcar]
  · intro v w
    have hne : (wrapInt h v).2 ≠ (wrapInt (wrapInt h v).1 w).2 := by
      simp only [wrapInt, List.length_append, List.length_cons,
        List.length_nil]
      omega
    have hv : lookupCell (wrapInt (wrapInt h v).1 w).1 (wrapInt h v).2
        = some (Cell.int v) := by
      show ((h.cells ++ [ Cell.int v ]) ++ [ Cell.int w ]).get?
        h.cells.length = some (Cell.int v)
      rw [get_append_left _ _ _ (by
        simp only [List.length_append, List.length_cons, List.length_nil]
        omega)]
      exact get_concat h.cells (Cell.int v)
    have hw : lookupCell (wrapInt (wrapInt h v).1 w).1
        (wrapInt (wrapInt h v).1 w).2 = some (Cell.int w) :=
      get_concat (h.cells ++ [ Cell.int v ]) (Cell.int w)
    exact ⟨hne, hv, hw,
      eqObj_typeMismatch _ fuel _ _ (Cell.int v) (Cell.int w) hv hw hne
        rfl rfl rfl⟩

/-- Witness for `claim_C9_eq`: two distinct symbol objects compare to
`false`, and two freshly wrapped integers `7` and `8` are distinct
objects on which `eq` dies. -/
theorem claim_C9_eq_witness :
    lookupCell ⟨[ Cell.sym [ 'f' ], Cell.sym [ 'g' ] ]⟩ 0
      = some (Cell.sym [ 'f' ]) ∧
    (0 : Nat) ≠ 1 ∧
    eqObj ⟨[ Cell.sym [ 'f' ], Cell.sym [ 'g' ] ]⟩ 2 0 1 = .ok false ∧
    (wrapInt ⟨[ Cell.sym [ 'f' ], Cell.sym [ 'g' ] ]⟩ 7).2
      ≠ (wrapInt (wrapInt ⟨[ Cell.sym [ 'f' ], Cell.sym [ 'g' ] ]⟩ 7).1 8).2 ∧
    eqObj (wrapInt (wrapInt ⟨[ Cell.sym [ 'f' ], Cell.sym [ 'g' ] ]⟩ 7).1 8).1
      2 (wrapInt ⟨[ Cell.sym [ 'f' ], Cell.sym [ 'g' ] ]⟩ 7).2
      (wrapInt (wrapInt ⟨[ Cell.sym [ 'f' ], Cell.sym [ 'g' ] ]⟩ 7).1 8).2
      = .error .typeMismatch := by
  obtain ⟨-, hsym, -, -, hwrap⟩ :=
    claim_C9_eq ⟨[ Cell.sym [ 'f' ], Cell.sym [ 'g' ] ]⟩ 0 1
      (Cell.sym [ 'f' ]) (Cell.sym [ 'g' ]) rfl rfl (by decide) 1
  refine ⟨rfl, by decide, ?_, (hwrap 7 8).1, (hwrap 7 8).2.2.2⟩
  rw [hsym [ 'f' ] [ 'g' ] rfl rfl]
  rfl

-- -------------------------------------------------------------------
-- Pattern-rule macros (claim C6)
-- -------------------------------------------------------------------

/-- `sobjToList` inverts `listOfSObj`. -/
theorem sobjToList_listOfSObj (l : List SObj) :
    sobjToList (listOfSObj l) = some l := by
  induction l with
  | nil => rfl
  | cons a r ih =>
    show sobjToList (.pair a (listOfSObj r)) = some (a :: r)
    rw [sobjToList, ih]
    rfl

/-- The expander applies the first rule whose arity matches. -/
theorem expandRules_first (body : List SObj) (pre : List SRRule)
    (r : SRRule) (post : List SRRule) (binds : List (SObj × SObj))
    (hpre : ∀ r2 ∈ pre, ruleMatch r2 body = none)
    (hr : ruleMatch r body = some binds) :
    expandRules (pre ++ r :: post) body
      = .ok (substTemplate binds r.template) := by
  induction pre with
  | nil =>
    rw [List.nil_append, expandRules, hr]
  | cons a pre ih =>
    rw [List.cons_append, expandRules, hpre a (List.mem_cons_self a pre)]
    exact ih (fun r2 h2 => hpre r2 (List.mem_cons_of_mem a h2))

/-- When no rule's arity matches, expansion is the fatal
`noRuleMatches`. -/
theorem expandRules_none (body : List SObj) (rules : List SRRule)
    (hall : ∀ r2 ∈ rules, ruleMatch r2 body = none) :
    expandRules rules body = .error .noRuleMatches := by
  induction rules with
  | nil => rfl
  | cons a rest ih =>
    rw [expandRules, hall a (List.mem_cons_self a rest)]
    exact ih (fun r2 h2 => hall r2 (List.mem_cons_of_mem a h2))

/-- C6 (modelled from the spec; the `syntax-rules` subsystem is part
of the intended surface but absent from `src/scheme.c`): evaluating a
`(syntax-rules (literals...) (pattern template)...)` form yields a
macro object carrying the literals and the ordered rules; at a call
site with operand list `body` the expander tries the rules in order
and applies the first whose arity matches (yielding the instantiated
template); if no rule matches, expansion is a fatal error. -/
theorem claim_C6_syntax_rules (lits : SObj) (ls : List SObj)
    (clauses : List SObj) (rs : List SRRule) (body : List SObj)
    (hl : sobjToList lits = some ls) (hc : parseRules clauses = some rs) :
    evalSyntaxRules (listOfSObj (lits :: clauses))
      = .ok { literals := ls, rules := rs } ∧
    (∀ m : SRMacro, ∀ pre r post binds, m.rules = pre ++ r :: post →
      (∀ r2 ∈ pre, ruleMatch r2 body = none) →
      ruleMatch r body = some binds →
      expandMacro m body = .ok (substTemplate binds r.template)) ∧
    (∀ m : SRMacro, (∀ r2 ∈ m.rules, ruleMatch r2 body = none) →
      expandMacro m body = .error .noRuleMatches) := by
  refine ⟨?_, ?_, ?_⟩
  · rw [evalSyntaxRules, sobjToList_listOfSObj]
    dsimp only
    rw [hl, hc]
  · intro m pre r post binds hm hpre hr
    unfold expandMacro
    rw [hm]
    exact expandRules_first body pre r post binds hpre hr
  · intro m hall
    unfold expandMacro
    exact expandRules_none body m.rules hall

/-- Witness for `claim_C6_syntax_rules`: the macro
`(syntax-rules () ((w t) t))`; the call `(w 1)` expands to `1` by the
first (only) rule, and the call `(w)` matches no rule and dies. -/
theorem claim_C6_syntax_rules_witness :
    sobjToList SObj.nil = some [] ∧
    evalSyntaxRules (listOfSObj [ SObj.nil,
        listOfSObj [ listOfSObj [ SObj.sym [ 'w' ], SObj.sym [ 't' ] ],
          SObj.sym [ 't' ] ] ])
      = .ok exMacro ∧
    expandMacro exMacro [ SObj.int 1 ] = .ok (SObj.int 1) ∧
    expandMacro exMacro [] = .error .noRuleMatches := by
  obtain ⟨hev, hfirst, -⟩ :=
    claim_C6_syntax_rules SObj.nil []
      [ listOfSObj [ listOfSObj [ SObj.sym [ 'w' ], SObj.sym [ 't' ] ],
          SObj.sym [ 't' ] ] ]
      [ exRule ] [ SObj.int 1 ] rfl rfl
  obtain ⟨-, -, hnone⟩ :=
    claim_C6_syntax_rules SObj.nil []
      [ listOfSObj [ listOfSObj [ SObj.sym [ 'w' ], SObj.sym [ 't' ] ],
          SObj.sym [ 't' ] ] ]
      [ exRule ] [] rfl rfl
  refine ⟨rfl, hev, ?_, ?_⟩
  · have h := hfirst exMacro [] exRule []
      [ (SObj.sym [ 't' ], SObj.int 1) ] rfl
      (fun r2 h2 => absurd h2 (List.not_mem_nil r2)) rfl
    exact h.trans rfl
  · exact hnone exMacro (fun r2 h2 => by rw [List.mem_singleton.mp h2]; rfl)

-- -------------------------------------------------------------------
-- The evaluator on the tail-call test program (claim C7).  Each
-- lemma symbolically executes one fragment over any state whose
-- scope 0 is the post-define REPL scope and whose lambda 0 is `f`;
-- `forceLoop` shows the trampoline bounds the stack depth by a
-- constant for every iteration count.
-- -------------------------------------------------------------------

/-- Writing just past the end of a list extends it. -/
theorem set_append_length {α : Type} (l : List α) (a b : α) :
    (l ++ [ a ]).set l.length b = l ++ [ b ] := by
  induction l with
  | nil => rfl
  | cons c l ih =>
    simp only [List.cons_append, List.length_cons, List.set_cons_succ, ih]

theorem evalVar_iter (g : Nat) (st : EState) (ln : Nat) (v : Int)
    (hlen : st.scopes.length = ln + 1)
    (h0 : st.scopes.get? 0 = some replRec1)
    (name : List Char) (val : EObj) (hne : xName ≠ name)
    (hval : lookupBinds replRec1.binds name = some val) :
    evalLazy (g + 1) (iterState st v) st.scopes.length (.sym name)
      = .ok (val, iterState st v, 1) := by
  rw [evalLazy]
  unfold iterState
  dsimp only
  rw [show (st.scopes ++ [ (⟨[ (xName, EObj.int v) ], some 0⟩ : ScopeRec) ]).length + 1
      = (st.scopes.length + 1) + 1 from by simp]
  rw [lookupScope, get_concat]
  dsimp only
  rw [lookupBinds, if_neg hne]
  rw [lookupScope, get_append_left _ _ 0 (by omega), h0]
  dsimp only
  rw [hval]
  dsimp only [lookupBinds]

theorem evalVarX_iter (g : Nat) (st : EState) (v : Int) :
    evalLazy (g + 1) (iterState st v) st.scopes.length (.sym xName)
      = .ok (.int v, iterState st v, 1) := by
  rw [evalLazy]
  unfold iterState
  dsimp only
  rw [show (st.scopes ++ [ (⟨[ (xName, EObj.int v) ], some 0⟩ : ScopeRec) ]).length + 1
      = (st.scopes.length + 1) + 1 from by simp]
  rw [lookupScope, get_concat]
  dsimp only
  rw [lookupBinds, if_pos rfl]

theorem force_base (g : Nat) (st : EState) (val : EObj)
    (ht : ∀ a args, val ≠ EObj.thunk a args) :
    force (g + 1) st val = .ok (val, st, 1) := by
  rw [force]
  exact fun a args h => ht a args h

theorem int_ne_thunk (v : Int) : ∀ a args, EObj.int v ≠ EObj.thunk a args :=
  fun _ _ h => EObj.noConfusion h

theorem evalVarEager_iter (g : Nat) (st : EState) (ln : Nat) (v : Int)
    (hlen : st.scopes.length = ln + 1)
    (h0 : st.scopes.get? 0 = some replRec1)
    (name : List Char) (val : EObj) (hne : xName ≠ name)
    (hval : lookupBinds replRec1.binds name = some val)
    (ht : ∀ a args, val ≠ EObj.thunk a args) :
    evalEager (g + 2) (iterState st v) st.scopes.length (.sym name)
      = .ok (val, iterState st v, 2) := by
  rw [evalEager, evalVar_iter g st ln v hlen h0 name val hne hval]
  dsimp only
  rw [force_base g _ val ht]
  rfl

theorem evalVarXEager_iter (g : Nat) (st : EState) (v : Int) :
    evalEager (g + 2) (iterState st v) st.scopes.length (.sym xName)
      = .ok (.int v, iterState st v, 2) := by
  rw [evalEager, evalVarX_iter g st v]
  dsimp only
  rw [force_base g _ _ (int_ne_thunk v)]
  rfl

theorem evalIntEager (g : Nat) (st : EState) (sc : Nat) (c : Int) :
    evalEager (g + 2) st sc (.int c) = .ok (.int c, st, 2) := by
  rw [evalEager, evalLazy]
  · dsimp only [toEObj]
    rw [force_base g _ _ (int_ne_thunk c)]
    rfl
  · exact fun name h => SObj.noConfusion h
  · exact fun a b h => SObj.noConfusion h

theorem evalEq_iter (g : Nat) (st : EState) (ln : Nat) (v : Int)
    (hlen : st.scopes.length = ln + 1)
    (h0 : st.scopes.get? 0 = some replRec1) :
    evalEager (g + 8) (iterState st v) st.scopes.length
      (listOfSObj [ .sym [ '=' ], .sym xName, .int 0 ])
      = .ok (.bool (decide (v = 0)), iterState st v, 6) := by
  dsimp only [listOfSObj]
  rw [evalEager, evalLazy, evalSexpr]
  have h1 := evalVarEager_iter (g + 3) st ln v hlen h0 [ '=' ] (.prim .neq)
    (by decide) rfl (fun a args h => EObj.noConfusion h)
  norm_num at h1
  rw [h1]
  dsimp only
  rw [evalFuncall, funcallArgs, if_neg (by decide)]
  have h2 := evalVarXEager_iter (g + 1) st v
  norm_num at h2
  rw [h2]
  dsimp only
  rw [funcallArgs, if_neg (by simp)]
  rw [evalIntEager g _ _ 0]
  dsimp only
  rw [funcallArgs]
  dsimp only [List.nil_append, List.cons_append, invokePrim]
  have h4 := force_base (g + 6) (iterState st v) (.bool (decide (v = 0)))
    (fun a args h => EObj.noConfusion h)
  norm_num at h4
  rw [h4]
  norm_num

theorem evalQuote_iter (g : Nat) (st : EState) (ln : Nat) (v : Int)
    (hlen : st.scopes.length = ln + 1)
    (h0 : st.scopes.get? 0 = some replRec1) :
    evalLazy (g + 4) (iterState st v) st.scopes.length
      (listOfSObj [ .sym [ 'q', 'u', 'o', 't', 'e' ], .sym doneName ])
      = .ok (.sym doneName, iterState st v, 4) := by
  dsimp only [listOfSObj]
  rw [evalLazy, evalSexpr]
  rw [evalVarEager_iter g st ln v hlen h0 [ 'q', 'u', 'o', 't', 'e' ]
    (.syn .squote) (by decide) rfl (fun a args h => EObj.noConfusion h)]
  dsimp only
  rw [syntaxDispatch]
  dsimp only [syntaxQuote, toEObj]
  norm_num

theorem evalMinus_iter (g : Nat) (st : EState) (ln : Nat) (v : Int)
    (hlen : st.scopes.length = ln + 1)
    (h0 : st.scopes.get? 0 = some replRec1) :
    evalEager (g + 8) (iterState st v) st.scopes.length
      (listOfSObj [ .sym [ '-' ], .sym xName, .int 1 ])
      = .ok (.int (iwrap (v - 1)), iterState st v, 6) := by
  dsimp only [listOfSObj]
  rw [evalEager, evalLazy, evalSexpr]
  have h1 := evalVarEager_iter (g + 3) st ln v hlen h0 [ '-' ] (.prim .nminus)
    (by decide) rfl (fun a args h => EObj.noConfusion h)
  norm_num at h1
  rw [h1]
  dsimp only
  rw [evalFuncall, funcallArgs, if_neg (by decide)]
  have h2 := evalVarXEager_iter (g + 1) st v
  norm_num at h2
  rw [h2]
  dsimp only
  rw [funcallArgs, if_neg (by simp)]
  rw [evalIntEager g _ _ 1]
  dsimp only
  rw [funcallArgs]
  dsimp only [List.nil_append, List.cons_append, invokePrim]
  have h4 := force_base (g + 6) (iterState st v) (.int (iwrap (v - 1)))
    (fun a args h => EObj.noConfusion h)
  norm_num at h4
  rw [h4]
  norm_num

theorem evalRecur_iter (g : Nat) (st : EState) (ln : Nat) (v : Int)
    (hlen : st.scopes.length = ln + 1)
    (h0 : st.scopes.get? 0 = some replRec1) :
    evalLazy (g + 12) (iterState st v) st.scopes.length
      (listOfSObj [ .sym fName, listOfSObj [ .sym [ '-' ], .sym xName, .int 1 ] ])
      = .ok (.thunk 0 [ .int (iwrap (v - 1)) ], iterState st v, 9) := by
  dsimp only [listOfSObj]
  rw [evalLazy, evalSexpr]
  have h1 := evalVarEager_iter (g + 8) st ln v hlen h0 fName (.lam 0)
    (by decide) rfl (fun a args h => EObj.noConfusion h)
  norm_num at h1
  rw [h1]
  dsimp only
  rw [evalFuncall, funcallArgs, if_neg (by decide)]
  have h2 := evalMinus_iter g st ln v hlen h0
  dsimp only [listOfSObj] at h2
  rw [h2]
  dsimp only
  rw [funcallArgs]
  dsimp only [List.nil_append]
  norm_num

theorem evalIf_zero (g : Nat) (st : EState) (ln : Nat)
    (hlen : st.scopes.length = ln + 1)
    (h0 : st.scopes.get? 0 = some replRec1) :
    evalLazy (g + 12) (iterState st 0) st.scopes.length ifExpr
      = .ok (.sym doneName, iterState st 0, 11) := by
  dsimp only [ifExpr, listOfSObj]
  rw [evalLazy, evalSexpr]
  have h1 := evalVarEager_iter (g + 8) st ln 0 hlen h0 [ 'i', 'f' ]
    (.syn .sif) (by decide) rfl (fun a args h => EObj.noConfusion h)
  norm_num at h1
  rw [h1]
  dsimp only
  rw [syntaxDispatch, syntaxIf]
  have h2 := evalEq_iter g st ln 0 hlen h0
  dsimp only [listOfSObj] at h2
  rw [h2]
  dsimp only
  rw [if_pos (show isTrueO (.bool (decide ((0 : Int) = 0))) = true from rfl)]
  have h3 := evalQuote_iter (g + 4) st ln 0 hlen h0
  dsimp only [listOfSObj] at h3
  rw [h3]
  norm_num

theorem evalIf_succ (g : Nat) (st : EState) (ln : Nat) (k : Nat)
    (hlen : st.scopes.length = ln + 1)
    (h0 : st.scopes.get? 0 = some replRec1)
    (hk : (k : Int) < 2 ^ 31) :
    evalLazy (g + 16) (iterState st ((k : Int) + 1)) st.scopes.length ifExpr
      = .ok (.thunk 0 [ .int (k : Int) ], iterState st ((k : Int) + 1), 13) := by
  dsimp only [ifExpr, listOfSObj]
  rw [evalLazy, evalSexpr]
  have h1 := evalVarEager_iter (g + 12) st ln ((k : Int) + 1) hlen h0
    [ 'i', 'f' ] (.syn .sif) (by decide) rfl (fun a args h => EObj.noConfusion h)
  norm_num at h1
  rw [h1]
  dsimp only
  rw [syntaxDispatch, syntaxIf]
  have h2 := evalEq_iter (g + 4) st ln ((k : Int) + 1) hlen h0
  dsimp only [listOfSObj] at h2
  rw [h2]
  dsimp only
  rw [if_neg (show ¬ isTrueO (.bool (decide ((k : Int) + 1 = 0))) = true from by
    rw [show decide ((k : Int) + 1 = 0) = false from by
      simp only [decide_eq_false_iff_not]
      omega]
    decide)]
  have h3 := evalRecur_iter g st ln ((k : Int) + 1) hlen h0
  dsimp only [listOfSObj] at h3
  rw [show (k : Int) + 1 - 1 = (k : Int) from by ring] at h3
  rw [iwrap_eq_self (k : Int) (by omega) hk] at h3
  rw [h3]
  norm_num

theorem evalBlock_zero (g : Nat) (st : EState) (ln : Nat)
    (hlen : st.scopes.length = ln + 1)
    (h0 : st.scopes.get? 0 = some replRec1) :
    evalBlock (g + 14) (iterState st 0) st.scopes.length (.pair ifExpr .nil)
      = .ok (.sym doneName, iterState st 0, 12) := by
  rw [evalBlock, blockLoop]
  rw [force_base (g + 11) _ _ (fun a args h => EObj.noConfusion h)]
  dsimp only
  rw [evalIf_zero g st ln hlen h0]
  dsimp only
  rw [blockLoop]
  norm_num

theorem evalBlock_succ (g : Nat) (st : EState) (ln : Nat) (k : Nat)
    (hlen : st.scopes.length = ln + 1)
    (h0 : st.scopes.get? 0 = some replRec1)
    (hk : (k : Int) < 2 ^ 31) :
    evalBlock (g + 18) (iterState st ((k : Int) + 1)) st.scopes.length
      (.pair ifExpr .nil)
      = .ok (.thunk 0 [ .int (k : Int) ], iterState st ((k : Int) + 1), 14) := by
  rw [evalBlock, blockLoop]
  rw [force_base (g + 15) _ _ (fun a args h => EObj.noConfusion h)]
  dsimp only
  rw [evalIf_succ g st ln k hlen h0 hk]
  dsimp only
  rw [blockLoop]
  norm_num

theorem invokeF_zero (g : Nat) (st : EState) (ln : Nat)
    (hlen : st.scopes.length = ln + 1)
    (h0 : st.scopes.get? 0 = some replRec1)
    (hL : st.lams.get? 0 = some lamRecF) :
    invokeLambda (g + 15) st 0 [ .int 0 ]
      = .ok (.sym doneName, iterState st 0, 13) := by
  rw [invokeLambda, hL]
  dsimp only [lamRecF, deriveScope]
  rw [if_pos (show [ EObj.int 0 ].length = [ xName ].length from rfl)]
  rw [bindAll]
  dsimp only [bindToScope]
  rw [get_concat]
  dsimp only [lookupBinds]
  rw [set_append_length]
  dsimp only [List.nil_append]
  rw [bindAll]
  rw [show (⟨st.scopes ++ [ ⟨[ (xName, EObj.int 0) ], some 0⟩ ], st.lams⟩ : EState)
      = iterState st 0 from rfl]
  dsimp only
  rw [evalBlock_zero g st ln hlen h0]

theorem invokeF_succ (g : Nat) (st : EState) (ln : Nat) (k : Nat)
    (hlen : st.scopes.length = ln + 1)
    (h0 : st.scopes.get? 0 = some replRec1)
    (hL : st.lams.get? 0 = some lamRecF)
    (hk : (k : Int) < 2 ^ 31) :
    invokeLambda (g + 19) st 0 [ .int ((k : Int) + 1) ]
      = .ok (.thunk 0 [ .int (k : Int) ], iterState st ((k : Int) + 1), 15) := by
  rw [invokeLambda, hL]
  dsimp only [lamRecF, deriveScope]
  rw [if_pos (show [ EObj.int ((k : Int) + 1) ].length = [ xName ].length from rfl)]
  rw [bindAll]
  dsimp only [bindToScope]
  rw [get_concat]
  dsimp only [lookupBinds]
  rw [set_append_length]
  dsimp only [List.nil_append]
  rw [bindAll]
  rw [show (⟨st.scopes ++ [ ⟨[ (xName, EObj.int ((k : Int) + 1)) ], some 0⟩ ],
        st.lams⟩ : EState) = iterState st ((k : Int) + 1) from rfl]
  dsimp only
  rw [evalBlock_succ g st ln k hlen h0 hk]

theorem forceLoop (k : Nat) : ∀ (w : Nat) (st : EState) (ln : Nat),
    st.scopes.length = ln + 1 →
    st.scopes.get? 0 = some replRec1 →
    st.lams.get? 0 = some lamRecF →
    ((k : Int) < 2 ^ 31) →
    ∃ stf d, force (k + w + 20) st (.thunk 0 [ .int (k : Int) ])
        = .ok (.sym doneName, stf, d) ∧ d ≤ 17 := by
  induction k with
  | zero =>
    intro w st ln hlen h0 hL hk
    refine ⟨iterState st 0, 15, ?_, by omega⟩
    rw [show (0 : Nat) + w + 20 = (w + 19) + 1 from by omega]
    rw [force]
    rw [show ((0 : Nat) : Int) = (0 : Int) from by norm_num]
    rw [invokeF_zero (w + 4) st ln hlen h0 hL]
    dsimp only
    rw [force_base (w + 18) (iterState st 0) (.sym doneName)
      (fun a args h => EObj.noConfusion h)]
    norm_num
  | succ k ih =>
    intro w st ln hlen h0 hL hk
    have hk' : (k : Int) < 2 ^ 31 := by push_cast at hk; omega
    obtain ⟨stf, d, hrec, hd⟩ := ih w (iterState st ((k : Int) + 1)) (ln + 1)
      (by simp [iterState, List.length_append, hlen])
      (by rw [show (iterState st ((k : Int) + 1)).scopes.get? 0
            = st.scopes.get? 0 from get_append_left _ _ 0 (by omega)]
          exact h0)
      hL hk'
    refine ⟨stf, max (15 + 2) d, ?_, by omega⟩
    rw [show (k + 1 : Nat) + w + 20 = (k + w + 20) + 1 from by omega]
    rw [force]
    rw [show ((k + 1 : Nat) : Int) = (k : Int) + 1 from by push_cast; ring]
    rw [invokeF_succ (k + w + 1) st ln k hlen h0 hL hk']
    dsimp only
    rw [hrec]

theorem evalF_repl (g : Nat) :
    evalEager (g + 2) replState1 0 (.sym fName) = .ok (.lam 0, replState1, 2) := by
  rw [evalEager, evalLazy]
  rw [show lookupScope replState1 (replState1.scopes.length + 1) (some 0) fName
      = some (EObj.lam 0) from rfl]
  dsimp only
  rw [force_base g _ _ (fun a args h => EObj.noConfusion h)]
  rfl

/-- C7: there is a constant `C` (here `C = 18` modelled evaluator
frames) such that for every non-negative `n`, evaluating
`(define (f x) (if (= x 0) (quote done) (f (- x 1))))` followed by
`(f n)` stays within `C` host-stack frames: `eval_funcall`
(`src/scheme.c:1090-1106`) wraps the tail call to the lambda into a
thunk, and `force` (`src/scheme.c:946-957`) evaluates thunks in a
loop — each of the `n` iterations nests the same constant number of
frames under the single `force` frame instead of stacking, as
`forceLoop` shows by induction on `n`. -/
theorem claim_C7_tail_call_bound :
    ∃ C : Nat, ∀ n : Nat, (n : Int) < 2 ^ 31 →
      evalEager 20 replState 0 defineExpr = .ok (.nil, replState1, 6) ∧
      ∃ stf d,
        evalEager (n + 26) replState1 0 (callExpr (n : Int))
          = .ok (.sym doneName, stf, d) ∧ d ≤ C := by
  refine ⟨18, fun n hn => ⟨rfl, ?_⟩⟩
  obtain ⟨stf, d, hforce, hd⟩ := forceLoop n 5 replState1 0 rfl rfl rfl hn
  refine ⟨stf, 1 + max 5 d, ?_, by omega⟩
  dsimp only [callExpr, listOfSObj]
  rw [evalEager, evalLazy, evalSexpr]
  rw [evalF_repl (n + 21)]
  dsimp only
  rw [evalFuncall, funcallArgs, if_neg (by decide)]
  rw [evalIntEager (n + 19) _ _ (n : Int)]
  dsimp only
  rw [funcallArgs]
  dsimp only [List.nil_append]
  rw [hforce]
  norm_num

-- -------------------------------------------------------------------
-- `syntax_if` and truthiness (claim C5)
-- -------------------------------------------------------------------

/-- C5: for `(if t c)` or `(if t c a)`, `syntax_if`
(`src/scheme.c:1461-1478`) evaluates the test `t` eagerly
(`eval_boolean`); when the result is anything but the false boolean
object the consequent is evaluated lazily and returned; otherwise the
alternate is evaluated lazily, or nil results when there is no
alternate.  `is_true` (`src/scheme.c:2622-2630`) holds for every
object except boolean false — in particular for `0`, the empty
string, and nil. -/
theorem claim_C5_if (fuel : Nat) (st st1 : EState) (sc : Nat)
    (t c a : SObj) (tv : EObj) (d1 : Nat)
    (heval : evalEager fuel st sc t = .ok (tv, st1, d1)) :
    (isTrueO tv = true →
      syntaxIf (fuel + 1) st sc (.pair t (.pair c .nil))
        = match evalLazy fuel st1 sc c with
          | .ok (v, st2, d2) => .ok (v, st2, 1 + max (d1 + 1) d2)
          | .error e => .error e) ∧
    (isTrueO tv = false →
      syntaxIf (fuel + 1) st sc (.pair t (.pair c .nil))
        = .ok (.nil, st1, 1 + (d1 + 1))) ∧
    (isTrueO tv = true →
      syntaxIf (fuel + 1) st sc (.pair t (.pair c (.pair a .nil)))
        = match evalLazy fuel st1 sc c with
          | .ok (v, st2, d2) => .ok (v, st2, 1 + max (d1 + 1) d2)
          | .error e => .error e) ∧
    (isTrueO tv = false →
      syntaxIf (fuel + 1) st sc (.pair t (.pair c (.pair a .nil)))
        = match evalLazy fuel st1 sc a with
          | .ok (v, st2, d2) => .ok (v, st2, 1 + max (d1 + 1) d2)
          | .error e => .error e) ∧
    (isTrueO tv = true ↔ tv ≠ .bool false) ∧
    isTrueO (.int 0) = true ∧ isTrueO (.str []) = true ∧
    isTrueO .nil = true ∧ isTrueO (.bool false) = false := by
  refine ⟨?_, ?_, ?_, ?_, ?_, rfl, rfl, rfl, rfl⟩
  · intro htv
    rw [syntaxIf, heval]
    dsimp only
    rw [if_pos htv]
  · intro htv
    rw [syntaxIf, heval]
    dsimp only
    rw [if_neg (by rw [htv]; exact Bool.false_ne_true)]
  · intro htv
    rw [syntaxIf, heval]
    dsimp only
    rw [if_pos htv]
  · intro htv
    rw [syntaxIf, heval]
    dsimp only
    rw [if_neg (by rw [htv]; exact Bool.false_ne_true)]
  · cases tv with
    | bool b =>
      cases b with
      | false => simp [isTrueO, isFalseO]
      | true => simp [isTrueO, isFalseO]
    | nil => simp [isTrueO, isFalseO]
    | int n => simp [isTrueO, isFalseO]
    | chr ch => simp [isTrueO, isFalseO]
    | str s => simp [isTrueO, isFalseO]
    | sym s => simp [isTrueO, isFalseO]
    | pair p q => simp [isTrueO, isFalseO]
    | lam l => simp [isTrueO, isFalseO]
    | syn s => simp [isTrueO, isFalseO]
    | prim p => simp [isTrueO, isFalseO]
    | thunk th args => simp [isTrueO, isFalseO]

/-- Witness for `claim_C5_if`: the test `0` is true-ish, so
`(if 0 7 9)` lazily yields `7`, and `(if #f 7)` yields nil. -/
theorem claim_C5_if_witness :
    evalEager 5 replState 0 (.int 0) = .ok (.int 0, replState, 2) ∧
    syntaxIf 6 replState 0 (.pair (.int 0) (.pair (.int 7) (.pair (.int 9) .nil)))
      = .ok (.int 7, replState, 4) ∧
    syntaxIf 6 replState 0 (.pair (.bool false) (.pair (.int 7) .nil))
      = .ok (.nil, replState, 4) := by
  obtain ⟨h2t, -, h3t, -, -, hint, -⟩ :=
    claim_C5_if 5 replState replState 0 (.int 0) (.int 7) (.int 9)
      (.int 0) 2 rfl
  obtain ⟨-, h2f, -, -, -, -⟩ :=
    claim_C5_if 5 replState replState 0 (.bool false) (.int 7) (.int 9)
      (.bool false) 2 rfl
  refine ⟨rfl, ?_, ?_⟩
  · rw [h3t hint]
    rfl
  · rw [h2f rfl]

-- -------------------------------------------------------------------
-- `syntax_letrec` (claim C1)
-- -------------------------------------------------------------------

/-- C1 is refuted as stated: `syntax_letrec`
(`src/scheme.c:3411-3432`) does not create the bindings before
evaluating the initializers.  In `(letrec ((a b) (b 1)) a)` the
initializer `b` is evaluated while the child scope holds nothing, and
evaluation dies with an undefined-variable error; reordering the
bindings (`(letrec ((b 1) (a b)) a)`) succeeds, so initializers see
exactly the earlier bindings.  Mutual recursion is still possible
through lambdas (`(letrec ((e (lambda ...))) (o ...))`), because a
lambda looks its free names up only when invoked. -/
theorem claim_C1_counterexample :
    evalEager 30 replState 0 letrecAB
      = .error (.undefinedVariable [ 'b' ]) ∧
    (∃ st d, evalEager 30 replState 0 letrecBA = .ok (.int 1, st, d)) ∧
    (∃ st d, evalEager 60 replState 0 letrecEO
      = .ok (.sym [ 'y' ], st, d)) :=
  ⟨rfl, ⟨_, _, rfl⟩, ⟨_, _, rfl⟩⟩

/-- C1 (amended): `syntax_letrec` derives one child scope and then
processes the bindings strictly sequentially: each initializer is
evaluated eagerly in the child scope — which at that moment holds
only the earlier bindings — and only then is its name defined there;
an initializer that fails (for instance by referencing a name not yet
bound) aborts the whole form; after the last binding the body runs as
a block in the child scope. -/
theorem claim_C1_letrec_amended (fuel : Nat) (st st1 st2 : EState)
    (sc child : Nat) (bindings body : SObj) (k : List Char)
    (e tail rest : SObj) (v : EObj) (d dacc : Nat) (err : EvErr) :
    (syntaxLetrec (fuel + 1) st sc (.pair bindings body)
      = match letrecLoop fuel (deriveScope st (some sc)).1
            (deriveScope st (some sc)).2 bindings body 0 with
        | .ok (r, stx, dx) => .ok (r, stx, 1 + dx)
        | .error ex => .error ex) ∧
    (evalEager fuel st child e = .ok (v, st1, d) →
      bindToScope st1 child k v = .ok st2 →
      letrecLoop (fuel + 1) st child
          (.pair (.pair (.sym k) (.pair e tail)) rest) body dacc
        = letrecLoop fuel st2 child rest body (max dacc d)) ∧
    (evalEager fuel st child e = .error err →
      letrecLoop (fuel + 1) st child
          (.pair (.pair (.sym k) (.pair e tail)) rest) body dacc
        = .error err) ∧
    (letrecLoop (fuel + 1) st child .nil body dacc
      = match evalBlock fuel st child body with
        | .ok (r, stx, dx) => .ok (r, stx, max dacc dx)
        | .error ex => .error ex) := by
  refine ⟨?_, ?_, ?_, ?_⟩
  · rw [syntaxLetrec]
  · intro heval hbind
    rw [letrecLoop, heval]
    dsimp only
    rw [hbind]
  · intro heval
    rw [letrecLoop, heval]
  · rw [letrecLoop]

/-- Witness for `claim_C1_letrec_amended`: one step of the loop on
the binding `(b 1)` over a fresh child scope. -/
theorem claim_C1_letrec_amended_witness :
    evalEager 5 (⟨[ ⟨replBinds, none⟩, ⟨[], some 0⟩ ], []⟩ : EState) 1 (.int 1)
      = .ok (.int 1, ⟨[ ⟨replBinds, none⟩, ⟨[], some 0⟩ ], []⟩, 2) ∧
    bindToScope (⟨[ ⟨replBinds, none⟩, ⟨[], some 0⟩ ], []⟩ : EState) 1
        [ 'b' ] (.int 1)
      = .ok ⟨[ ⟨replBinds, none⟩, ⟨[ ([ 'b' ], EObj.int 1) ], some 0⟩ ], []⟩ ∧
    letrecLoop 6 (⟨[ ⟨replBinds, none⟩, ⟨[], some 0⟩ ], []⟩ : EState) 1
        (.pair (.pair (.sym [ 'b' ]) (.pair (.int 1) .nil)) .nil)
        (.pair (.sym [ 'b' ]) .nil) 0
      = letrecLoop 5
          (⟨[ ⟨replBinds, none⟩, ⟨[ ([ 'b' ], EObj.int 1) ], some 0⟩ ], []⟩ : EState)
          1 .nil (.pair (.sym [ 'b' ]) .nil) (max 0 2) := by
  refine ⟨rfl, rfl, ?_⟩
  exact (claim_C1_letrec_amended 5 (⟨[ ⟨replBinds, none⟩, ⟨[], some 0⟩ ], []⟩ : EState)
    (⟨[ ⟨replBinds, none⟩, ⟨[], some 0⟩ ], []⟩ : EState)
    (⟨[ ⟨replBinds, none⟩, ⟨[ ([ 'b' ], EObj.int 1) ], some 0⟩ ], []⟩ : EState)
    0 1 .nil (.pair (.sym [ 'b' ]) .nil) [ 'b' ] (.int 1) .nil .nil
    (.int 1) 2 0 .fuel).2.1 rfl rfl

-- Robin-Hood dictionary and symbol interning (C4)

theorem strcmpL_eq_iff (a b : List Char) : strcmpL a b = .eq ↔ a = b := by
  induction a generalizing b with
  | nil =>
    cases b with
    | nil => simp [strcmpL]
    | cons y ys => simp [strcmpL]
  | cons x xs ih =>
    cases b with
    | nil => simp [strcmpL]
    | cons y ys =>
      rw [strcmpL]
      by_cases h1 : x.toNat < y.toNat
      · rw [if_pos h1]
        constructor
        · intro h
          exact absurd h (by decide)
        · intro h
          injection h with hx hxs
          rw [hx] at h1
          omega
      · rw [if_neg h1]
        by_cases h2 : y.toNat < x.toNat
        · rw [if_pos h2]
          constructor
          · intro h
            exact absurd h (by decide)
          · intro h
            injection h with hx hxs
            rw [hx] at h2
            omega
        · rw [if_neg h2]
          rw [ih ys]
          have hxy : x = y := by
            rw [char_eq_iff_toNat]
            omega
          subst hxy
          constructor
          · intro h
            rw [h]
          · intro h
            injection h

theorem strcmpL_lt_trans (a b c : List Char) (h1 : strcmpL a b = .lt)
    (h2 : strcmpL b c = .lt) : strcmpL a c = .lt := by
  induction a generalizing b c with
  | nil =>
    cases c with
    | nil =>
      cases b with
      | nil => exact absurd h2 (by rw [strcmpL]; decide)
      | cons y ys => exact absurd h2 (by rw [strcmpL]; decide)
    | cons z zs => rw [strcmpL]
  | cons x xs ih =>
    cases b with
    | nil => exact absurd h1 (by rw [strcmpL]; decide)
    | cons y ys =>
      cases c with
      | nil => exact absurd h2 (by rw [strcmpL]; decide)
      | cons z zs =>
        rw [strcmpL] at h1 h2 ⊢
        by_cases hxy : x.toNat < y.toNat
        · rw [if_pos hxy] at h1
          by_cases hyz : y.toNat < z.toNat
          · rw [if_pos (by omega)]
          · rw [if_neg hyz] at h2
            by_cases hzy : z.toNat < y.toNat
            · rw [if_pos hzy] at h2
              exact absurd h2 (by decide)
            · rw [if_pos (by omega)]
        · rw [if_neg hxy] at h1
          by_cases hyx : y.toNat < x.toNat
          · rw [if_pos hyx] at h1
            exact absurd h1 (by decide)
          · rw [if_neg hyx] at h1
            by_cases hyz : y.toNat < z.toNat
            · rw [if_pos (by omega)]
            · rw [if_neg hyz] at h2
              by_cases hzy : z.toNat < y.toNat
              · rw [if_pos hzy] at h2
                exact absurd h2 (by decide)
              · rw [if_neg hzy] at h2
                rw [if_neg (by omega), if_neg (by omega)]
                exact ih ys zs h1 h2

theorem strcmpL_gt_iff (a b : List Char) :
    strcmpL a b = .gt ↔ strcmpL b a = .lt := by
  induction a generalizing b with
  | nil =>
    cases b with
    | nil => simp [strcmpL]
    | cons y ys => simp [strcmpL]
  | cons x xs ih =>
    cases b with
    | nil => simp [strcmpL]
    | cons y ys =>
      simp only [strcmpL]
      by_cases h1 : x.toNat < y.toNat
      · simp only [if_pos h1, if_neg (show ¬ y.toNat < x.toNat by omega)]
        simp
      · by_cases h2 : y.toNat < x.toNat
        · simp only [if_neg h1, if_pos h2]
        · simp only [if_neg h1, if_neg h2]
          exact ih ys

theorem cmpSym_eq_iff (a b : SymK) : cmpSym a b = .eq ↔ a = b := by
  unfold cmpSym
  by_cases h1 : a.hash < b.hash
  · rw [if_pos h1]
    constructor
    · intro h
      exact absurd h (by decide)
    · intro h
      rw [h] at h1
      omega
  · rw [if_neg h1]
    by_cases h2 : b.hash < a.hash
    · rw [if_pos h2]
      constructor
      · intro h
        exact absurd h (by decide)
      · intro h
        rw [h] at h2
        omega
    · rw [if_neg h2]
      rw [strcmpL_eq_iff]
      constructor
      · intro h
        cases a with
        | mk ha na =>
          cases b with
          | mk hb nb =>
            dsimp only at h h1 h2
            rw [h]
            have : ha = hb := by omega
            rw [this]
      · intro h
        rw [h]

theorem cmpSym_lt_trans (a b c : SymK) (h1 : cmpSym a b = .lt)
    (h2 : cmpSym b c = .lt) : cmpSym a c = .lt := by
  unfold cmpSym at h1 h2 ⊢
  by_cases hab : a.hash < b.hash
  · by_cases hbc : b.hash < c.hash
    · rw [if_pos (by omega)]
    · rw [if_neg hbc] at h2
      by_cases hcb : c.hash < b.hash
      · rw [if_pos hcb] at h2
        exact absurd h2 (by decide)
      · rw [if_pos (by omega)]
  · rw [if_neg hab] at h1
    by_cases hba : b.hash < a.hash
    · rw [if_pos hba] at h1
      exact absurd h1 (by decide)
    · rw [if_neg hba] at h1
      by_cases hbc : b.hash < c.hash
      · rw [if_pos (by omega)]
      · rw [if_neg hbc] at h2
        by_cases hcb : c.hash < b.hash
        · rw [if_pos hcb] at h2
          exact absurd h2 (by decide)
        · rw [if_neg hcb] at h2
          rw [if_neg (by omega), if_neg (by omega)]
          exact strcmpL_lt_trans a.name b.name c.name h1 h2

theorem cmpSym_gt_iff (a b : SymK) : cmpSym a b = .gt ↔ cmpSym b a = .lt := by
  unfold cmpSym
  by_cases h1 : a.hash < b.hash
  · rw [if_pos h1, if_neg (show ¬ b.hash < a.hash by omega), if_pos h1]
    simp
  · by_cases h2 : b.hash < a.hash
    · rw [if_neg h1, if_pos h2, if_pos h2]
      simp
    · rw [if_neg h1, if_neg h2, if_neg h2, if_neg h1]
      exact strcmpL_gt_iff a.name b.name

theorem cmpSym_self (a : SymK) : cmpSym a a = .eq := (cmpSym_eq_iff a a).mpr rfl

theorem hdist_lt (size a i : Nat) (hsize : 0 < size) :
    hdist size a i < size := Nat.mod_lt _ hsize

theorem hdist_cycle (size a i : Nat) (hsize : 0 < size) :
    (a + hdist size a i) % size = i % size := by
  unfold hdist
  rw [Nat.add_mod_mod]
  have h1 := Nat.div_add_mod a size
  have h2 : a % size < size := Nat.mod_lt _ hsize
  rw [show a + (i + size - a % size) = size * (a / size) + (i + size) from by
    omega]
  rw [Nat.mul_add_mod, Nat.add_mod_right]

theorem hdist_succ (size a i : Nat) (hsize : 0 < size) :
    hdist size a (i + 1)
      = if hdist size a i + 1 = size then 0 else hdist size a i + 1 := by
  unfold hdist
  have h2 : a % size < size := Nat.mod_lt _ hsize
  rw [show i + 1 + size - a % size = (i + size - a % size) + 1 from by omega]
  have h3 := Nat.div_add_mod (i + size - a % size) size
  have h4 : (i + size - a % size) % size < size := Nat.mod_lt _ hsize
  by_cases h5 : (i + size - a % size) % size + 1 = size
  · rw [if_pos h5]
    rw [show i + size - a % size + 1
        = size * ((i + size - a % size) / size) + size from by omega]
    rw [Nat.mul_add_mod, Nat.mod_self]
  · rw [if_neg h5]
    rw [show i + size - a % size + 1
        = size * ((i + size - a % size) / size) + ((i + size - a % size) % size + 1)
      from by omega]
    rw [Nat.mul_add_mod]
    exact Nat.mod_eq_of_lt (by omega)

theorem hdist_self (size a : Nat) (hsize : 0 < size) : hdist size a a = 0 := by
  unfold hdist
  have h1 := Nat.div_add_mod a size
  have h2 : a % size < size := Nat.mod_lt _ hsize
  rw [show a + size - a % size = size * (a / size) + size from by omega]
  rw [Nat.mul_add_mod, Nat.mod_self]

theorem mod_dist_aux (size r j : Nat) (hr : r < size)
    (hj : j < size) : ((r + j) % size + size - r) % size = j := by
  by_cases h3 : r + j < size
  · rw [Nat.mod_eq_of_lt h3]
    rw [show r + j + size - r = j + size from by omega]
    rw [Nat.add_mod_right]
    exact Nat.mod_eq_of_lt hj
  · have hsub : (r + j) % size = r + j - size := by
      rw [Nat.mod_eq_sub_mod (show size ≤ r + j from by omega)]
      exact Nat.mod_eq_of_lt (by omega)
    rw [hsub]
    rw [show r + j - size + size - r = j from by omega]
    exact Nat.mod_eq_of_lt hj

theorem hdist_slot (size h j : Nat) (hsize : 0 < size) (hj : j < size) :
    hdist size h ((h + j) % size) = j := by
  unfold hdist
  rw [Nat.add_mod h j size, Nat.mod_eq_of_lt hj]
  exact mod_dist_aux size (h % size) j (Nat.mod_lt _ hsize) hj

theorem slot_eq_of_lt (size s : Nat) (hsize : 0 < size) (hs : s < size)
    (h : Nat) : (h + hdist size h s) % size = s := by
  rw [hdist_cycle size h s hsize]
  exact Nat.mod_eq_of_lt hs

theorem hdist_mod (size a i : Nat) (hsize : 0 < size) :
    hdist size a (i % size) = hdist size a i := by
  unfold hdist
  have h2 : a % size < size := Nat.mod_lt _ hsize
  have h3 := Nat.div_add_mod i size
  have h4 : i % size < size := Nat.mod_lt _ hsize
  rw [show i + size - a % size
      = size * (i / size) + (i % size + size - a % size) from by omega]
  rw [Nat.mul_add_mod]

theorem path_slot_ne (size h j idx : Nat) (hsize : 0 < size)
    (hj : j < hdist size h idx) : (h + j) % size ≠ idx % size := by
  intro heq
  have h1 : hdist size h ((h + j) % size) = j :=
    hdist_slot size h j hsize (lt_trans hj (hdist_lt size h idx hsize))
  rw [heq, hdist_mod size h idx hsize] at h1
  omega

theorem stored_unique (size : Nat) (data : Nat → Option (SymK × Nat))
    (hsize : 0 < size) (hinv : dictINV size data) (k : SymK)
    (s1 s2 : Nat) (v1 v2 : Nat) (hs1 : s1 < size) (hs2 : s2 < size)
    (h1 : data s1 = some (k, v1)) (h2 : data s2 = some (k, v2)) :
    s1 = s2 ∧ v1 = v2 := by
  have hkey : s1 = s2 := by
    by_contra hne
    have hd1 : (k.hash + hdist size k.hash s1) % size = s1 :=
      slot_eq_of_lt size s1 hsize hs1 k.hash
    have hd2 : (k.hash + hdist size k.hash s2) % size = s2 :=
      slot_eq_of_lt size s2 hsize hs2 k.hash
    have hdne : hdist size k.hash s1 ≠ hdist size k.hash s2 := by
      intro he
      rw [he, hd2] at hd1
      exact hne hd1.symm
    rcases Nat.lt_or_ge (hdist size k.hash s1) (hdist size k.hash s2) with hlt | hge
    · obtain ⟨e2, w2, he2, hcmp⟩ := hinv s2 hs2 k v2 h2 _ hlt
      rw [hd1, h1] at he2
      injection he2 with he3
      injection he3 with he4 he5
      rw [he4, cmpSym_self] at hcmp
      exact absurd hcmp (by decide)
    · have hlt2 : hdist size k.hash s2 < hdist size k.hash s1 := by omega
      obtain ⟨e2, w2, he2, hcmp⟩ := hinv s1 hs1 k v1 h1 _ hlt2
      rw [hd2, h2] at he2
      injection he2 with he3
      injection he3 with he4 he5
      rw [he4, cmpSym_self] at hcmp
      exact absurd hcmp (by decide)
  refine ⟨hkey, ?_⟩
  rw [hkey, h2] at h1
  injection h1 with h3
  injection h3 with h4 h5
  exact h5.symm

theorem countF_all_some (size : Nat) (data : Nat → Option (SymK × Nat))
    (h : countF size data < size) : ∃ s, s < size ∧ data s = none := by
  by_contra hc
  push_neg at hc
  have hall : ∀ s ∈ List.range size, (fun s => (data s).isSome) s = true := by
    intro s hs
    have hlt := List.mem_range.mp hs
    cases hd : data s with
    | none => exact absurd hd (hc s hlt)
    | some e => simp [hd]
  unfold countF at h
  rw [List.filter_eq_self.mpr hall, List.length_range] at h
  omega

theorem filter_length_update (l : List Nat)
    (data : Nat → Option (SymK × Nat)) (p : Nat) (e : SymK × Nat)
    (hnodup : l.Nodup) (hp : data p = none) :
    p ∈ l →
    (l.filter (fun s => ((Function.update data p (some e)) s).isSome)).length
      = (l.filter (fun s => (data s).isSome)).length + 1 := by
  induction l with
  | nil => intro h; cases h
  | cons a l ih =>
    intro hmem
    have hnd := List.nodup_cons.mp hnodup
    by_cases hap : a = p
    · subst hap
      rw [List.filter_cons, List.filter_cons]
      rw [show (Function.update data a (some e) a).isSome = true from by
        rw [Function.update_same]
        rfl]
      rw [show ((data a).isSome : Bool) = false from by rw [hp]; rfl]
      have hcong : l.filter (fun s => ((Function.update data a (some e)) s).isSome)
          = l.filter (fun s => (data s).isSome) := by
        apply List.filter_congr
        intro x hx
        rw [Function.update_noteq (fun hxa => hnd.1 (by rw [← hxa]; exact hx))]
      rw [hcong]
      simp
    · have hmem2 : p ∈ l := by
        rcases List.mem_cons.mp hmem with h | h
        · exact absurd h.symm hap
        · exact h
      rw [List.filter_cons, List.filter_cons]
      rw [show (Function.update data p (some e) a).isSome = (data a).isSome from by
        rw [Function.update_noteq hap]]
      cases hda : ((data a).isSome : Bool)
      · simp only [Bool.false_eq_true, if_false]
        exact ih hnd.2 hmem2
      · simp only [eq_self_iff_true, if_true, List.length_cons]
        rw [ih hnd.2 hmem2]

theorem countF_update_none (size p : Nat) (data : Nat → Option (SymK × Nat))
    (e : SymK × Nat) (hp : p < size) (hdp : data p = none) :
    countF size (Function.update data p (some e)) = countF size data + 1 :=
  filter_length_update (List.range size) data p e (List.nodup_range size) hdp
    (List.mem_range.mpr hp)

theorem countF_update_some (size p : Nat) (data : Nat → Option (SymK × Nat))
    (e e0 : SymK × Nat) (hdp : data p = some e0) :
    countF size (Function.update data p (some e)) = countF size data := by
  unfold countF
  congr 1
  apply List.filter_congr
  intro x hx
  by_cases hxp : x = p
  · subst hxp
    rw [Function.update_same, hdp]
    rfl
  · rw [Function.update_noteq hxp]

theorem INV_update (size idx : Nat) (data : Nat → Option (SymK × Nat))
    (k : SymK) (v : Nat) (hsize : 0 < size)
    (hinv : dictINV size data) (hpre : probePRE size data k idx)
    (hold : data (idx % size) = none ∨
      (∃ k2 v2, data (idx % size) = some (k2, v2) ∧ cmpSym k k2 = .lt)) :
    dictINV size (Function.update data (idx % size) (some (k, v))) := by
  intro s hs e w hdata j hj
  by_cases hsp : s = idx % size
  · subst hsp
    rw [Function.update_same] at hdata
    injection hdata with hkv
    injection hkv with hk hv
    subst hk
    rw [hdist_mod size k.hash idx hsize] at hj
    obtain ⟨e2, v2, he2, hcmp⟩ := hpre j hj
    refine ⟨e2, v2, ?_, hcmp⟩
    rw [Function.update_noteq (path_slot_ne size k.hash j idx hsize hj)]
    exact he2
  · rw [Function.update_noteq hsp] at hdata
    obtain ⟨e2, v2, he2, hcmp⟩ := hinv s hs e w hdata j hj
    by_cases hslot : (e.hash + j) % size = idx % size
    · rcases hold with hnone | ⟨k2, v2x, hk2, hklt⟩
      · rw [hslot, hnone] at he2
        cases he2
      · rw [hslot, hk2] at he2
        injection he2 with he3
        injection he3 with he4 he5
        refine ⟨k, v, ?_, ?_⟩
        · rw [hslot, Function.update_same]
        · rw [← he4] at hcmp
          exact cmpSym_lt_trans k k2 e hklt hcmp
    · refine ⟨e2, v2, ?_, hcmp⟩
      rw [Function.update_noteq hslot]
      exact he2


theorem storeD_update_iff (size p : Nat) (data : Nat → Option (SymK × Nat))
    (eK : SymK) (eV : Nat) (k3 : SymK) (w : Nat)
    (hk3 : k3 ≠ eK) (hnold : ∀ w2, data p ≠ some (k3, w2)) :
    storeD size (Function.update data p (some (eK, eV))) k3 w
      ↔ storeD size data k3 w := by
  constructor
  · rintro ⟨s, hs, hdat⟩
    by_cases hsp : s = p
    · subst hsp
      rw [Function.update_same] at hdat
      injection hdat with h1
      injection h1 with h2 h3
      exact absurd h2.symm hk3
    · rw [Function.update_noteq hsp] at hdat
      exact ⟨s, hs, hdat⟩
  · rintro ⟨s, hs, hdat⟩
    by_cases hsp : s = p
    · subst hsp
      exact absurd hdat (hnold w)
    · refine ⟨s, hs, ?_⟩
      rw [Function.update_noteq hsp]
      exact hdat

theorem putLoop_insert (size f idx : Nat) (data : Nat → Option (SymK × Nat))
    (k : SymK) (v : Nat) (hsize : 0 < size)
    (hinv : dictINV size data) (hpre : probePRE size data k idx)
    (hempty : data (idx % size) = none) :
    putLoop size (f + 1) data idx k v
      = some (Function.update data (idx % size) (some (k, v)), none, 1) ∧
    dictINV size (Function.update data (idx % size) (some (k, v))) ∧
    storeD size (Function.update data (idx % size) (some (k, v))) k v ∧
    (∀ k3 w, k3 ≠ k →
      (storeD size (Function.update data (idx % size) (some (k, v))) k3 w
        ↔ storeD size data k3 w)) ∧
    countF size (Function.update data (idx % size) (some (k, v)))
      = countF size data + 1 := by
  refine ⟨?_, ?_, ?_, ?_, ?_⟩
  · rw [putLoop, hempty]
  · exact INV_update size idx data k v hsize hinv hpre (Or.inl hempty)
  · exact ⟨idx % size, Nat.mod_lt _ hsize, Function.update_same _ _ _⟩
  · intro k3 w hk3
    exact storeD_update_iff size (idx % size) data k v k3 w hk3
      (fun w2 h => by rw [hempty] at h; cases h)
  · exact countF_update_none size (idx % size) data (k, v)
      (Nat.mod_lt _ hsize) hempty

theorem putLoop_spec (size : Nat) (hsize : 0 < size) (m : Nat) :
    ∀ (fuel : Nat) (data : Nat → Option (SymK × Nat)) (idx : Nat)
      (k : SymK) (v : Nat),
    m + 1 ≤ fuel →
    data ((idx + m) % size) = none →
    dictINV size data →
    probePRE size data k idx →
    (∀ s, s < size → ∀ w, data s ≠ some (k, w)) →
    ∃ data2,
      putLoop size fuel data idx k v = some (data2, none, 1) ∧
      dictINV size data2 ∧
      storeD size data2 k v ∧
      (∀ k3 w, k3 ≠ k → (storeD size data2 k3 w ↔ storeD size data k3 w)) ∧
      countF size data2 = countF size data + 1 := by
  induction m with
  | zero =>
    intro fuel data idx k v hfuel hemp hinv hpre habsent
    obtain ⟨f, rfl⟩ : ∃ f, fuel = f + 1 := ⟨fuel - 1, by omega⟩
    rw [Nat.add_zero] at hemp
    obtain ⟨hrun, hinv2, hst, hiff, hcnt⟩ :=
      putLoop_insert size f idx data k v hsize hinv hpre hemp
    exact ⟨_, hrun, hinv2, hst, hiff, hcnt⟩
  | succ m ih =>
    intro fuel data idx k v hfuel hemp hinv hpre habsent
    obtain ⟨f, rfl⟩ : ∃ f, fuel = f + 1 := ⟨fuel - 1, by omega⟩
    cases hentry : data (idx % size) with
    | none =>
      obtain ⟨hrun, hinv2, hst, hiff, hcnt⟩ :=
        putLoop_insert size f idx data k v hsize hinv hpre hentry
      exact ⟨_, hrun, hinv2, hst, hiff, hcnt⟩
    | some kv =>
      obtain ⟨k2, v2⟩ := kv
      cases hcmp : cmpSym k2 k with
      | eq =>
        exact absurd hentry
          (by rw [(cmpSym_eq_iff k2 k).mp hcmp]
              exact habsent _ (Nat.mod_lt _ hsize) v2)
      | lt =>
        have hemp2 : data ((idx + 1 + m) % size) = none := by
          rw [show idx + 1 + m = idx + (m + 1) from by omega]
          exact hemp
        have hpre2 : probePRE size data k (idx + 1) := by
          intro j hj
          rw [hdist_succ size k.hash idx hsize] at hj
          by_cases hz : hdist size k.hash idx + 1 = size
          · rw [if_pos hz] at hj
            omega
          · rw [if_neg hz] at hj
            by_cases hjlt : j < hdist size k.hash idx
            · exact hpre j hjlt
            · have hje : j = hdist size k.hash idx := by omega
              refine ⟨k2, v2, ?_, hcmp⟩
              rw [hje, hdist_cycle size k.hash idx hsize]
              exact hentry
        obtain ⟨data2, hrun, hinv2, hst, hiff, hcnt⟩ :=
          ih f data (idx + 1) k v (by omega) hemp2 hinv hpre2 habsent
        refine ⟨data2, ?_, hinv2, hst, hiff, hcnt⟩
        rw [putLoop, hentry]
        dsimp only
        rw [hcmp]
        exact hrun
      | gt =>
        have hk2kne : k ≠ k2 := by
          intro he
          rw [he, cmpSym_self] at hcmp
          cases hcmp
        have hklt : cmpSym k k2 = .lt := (cmpSym_gt_iff k2 k).mp hcmp
        have hp : idx % size < size := Nat.mod_lt _ hsize
        have hsne : (idx + (m + 1)) % size ≠ idx % size := by
          intro he
          rw [he, hentry] at hemp
          cases hemp
        have hemp2 : (Function.update data (idx % size) (some (k, v)))
            ((idx + 1 + m) % size) = none := by
          rw [show idx + 1 + m = idx + (m + 1) from by omega]
          rw [Function.update_noteq hsne]
          exact hemp
        have hinv2' : dictINV size
            (Function.update data (idx % size) (some (k, v))) :=
          INV_update size idx data k v hsize hinv hpre
            (Or.inr ⟨k2, v2, hentry, hklt⟩)
        have hpre2 : probePRE size
            (Function.update data (idx % size) (some (k, v))) k2 (idx + 1) := by
          intro j hj
          rw [hdist_succ size k2.hash idx hsize] at hj
          by_cases hz : hdist size k2.hash idx + 1 = size
          · rw [if_pos hz] at hj
            omega
          · rw [if_neg hz] at hj
            by_cases hjlt : j < hdist size k2.hash idx
            · have hjlt2 : j < hdist size k2.hash (idx % size) := by
                rw [hdist_mod size k2.hash idx hsize]
                exact hjlt
              obtain ⟨e2, w2, he2, hcmp2⟩ :=
                hinv (idx % size) hp k2 v2 hentry j hjlt2
              refine ⟨e2, w2, ?_, hcmp2⟩
              rw [Function.update_noteq
                (path_slot_ne size k2.hash j idx hsize hjlt)]
              exact he2
            · have hje : j = hdist size k2.hash idx := by omega
              refine ⟨k, v, ?_, hklt⟩
              rw [hje, hdist_cycle size k2.hash idx hsize]
              rw [Function.update_same]
        have habsent2 : ∀ s, s < size → ∀ w,
            (Function.update data (idx % size) (some (k, v))) s
              ≠ some (k2, w) := by
          intro s hs w hcontra
          by_cases hsp : s = idx % size
          · subst hsp
            rw [Function.update_same] at hcontra
            injection hcontra with h1
            injection h1 with h2 h3
            exact hk2kne h2
          · rw [Function.update_noteq hsp] at hcontra
            obtain ⟨hseq, -⟩ := stored_unique size data hsize hinv k2
              s (idx % size) w v2 hs hp hcontra hentry
            exact hsp hseq
        obtain ⟨data2, hrun, hinv2, hst2, hiff2, hcnt2⟩ :=
          ih f (Function.update data (idx % size) (some (k, v))) (idx + 1)
            k2 v2 (by omega) hemp2 hinv2' hpre2 habsent2
        refine ⟨data2, ?_, hinv2, ?_, ?_, ?_⟩
        · rw [putLoop, hentry]
          dsimp only
          rw [hcmp]
          exact hrun
        · rw [hiff2 k v hk2kne]
          exact ⟨idx % size, hp, Function.update_same _ _ _⟩
        · intro k3 w hk3
          by_cases hk32 : k3 = k2
          · subst hk32
            constructor
            · intro hw
              obtain ⟨s, hs, hd⟩ := hw
              obtain ⟨s0, hs0, hd0⟩ := hst2
              obtain ⟨-, hv⟩ := stored_unique size data2 hsize hinv2 k3
                s s0 w v2 hs hs0 hd hd0
              rw [hv]
              exact ⟨idx % size, hp, hentry⟩
            · intro hw
              obtain ⟨s, hs, hd⟩ := hw
              obtain ⟨hseq, hv⟩ := stored_unique size data hsize hinv k3
                s (idx % size) w v2 hs hp hd hentry
              rw [hv]
              exact hst2
          · rw [hiff2 k3 w hk32]
            exact storeD_update_iff size (idx % size) data k v k3 w hk3
              (fun w2 hcontra => by
                rw [hentry] at hcontra
                injection hcontra with h1
                injection h1 with h2 h3
                exact hk32 h2.symm)
        · rw [hcnt2]
          rw [countF_update_some size (idx % size) data (k, v) (k2, v2) hentry]

theorem lookupLoop_finds (size : Nat) (hsize : 0 < size) (n : Nat) :
    ∀ (fuel : Nat) (data : Nat → Option (SymK × Nat)) (idx : Nat)
      (k : SymK) (v s : Nat),
    s < size → data s = some (k, v) → dictINV size data →
    hdist size k.hash s = hdist size k.hash idx + n →
    n + 1 ≤ fuel →
    lookupLoop size fuel data idx k = some (some v) := by
  induction n with
  | zero =>
    intro fuel data idx k v s hs hdata hinv hd hfuel
    obtain ⟨f, rfl⟩ : ∃ f, fuel = f + 1 := ⟨fuel - 1, by omega⟩
    have hseq : idx % size = s := by
      rw [Nat.add_zero] at hd
      have h1 := slot_eq_of_lt size s hsize hs k.hash
      rw [hd, hdist_cycle size k.hash idx hsize] at h1
      exact h1
    rw [lookupLoop, hseq, hdata]
    dsimp only
    rw [cmpSym_self]
  | succ n ih =>
    intro fuel data idx k v s hs hdata hinv hd hfuel
    obtain ⟨f, rfl⟩ : ∃ f, fuel = f + 1 := ⟨fuel - 1, by omega⟩
    have hj : hdist size k.hash idx < hdist size k.hash s := by omega
    obtain ⟨e2, v2, he2, hcmp⟩ :=
      hinv s hs k v hdata (hdist size k.hash idx) hj
    rw [hdist_cycle size k.hash idx hsize] at he2
    rw [lookupLoop]
    rw [show data (idx % size) = some (e2, v2) from he2]
    dsimp only
    rw [hcmp]
    have hnext : hdist size k.hash (idx + 1) = hdist size k.hash idx + 1 := by
      rw [hdist_succ size k.hash idx hsize]
      rw [if_neg (show ¬ hdist size k.hash idx + 1 = size from by
        have := hdist_lt size k.hash s hsize
        omega)]
    exact ih f data (idx + 1) k v s hs hdata hinv (by omega) (by omega)

theorem lookupInDict_finds (d : HDict) (k : SymK) (v : Nat)
    (hinv : dictINV d.size d.data) (hst : storeD d.size d.data k v) :
    lookupInDict d k = some (some v) := by
  obtain ⟨s, hs, hdata⟩ := hst
  have hsize : 0 < d.size := by omega
  unfold lookupInDict
  rw [if_neg (by omega)]
  exact lookupLoop_finds d.size hsize (hdist d.size k.hash s) d.size d.data
    k.hash k v s hs hdata hinv
    (by rw [hdist_self d.size k.hash hsize]; omega)
    (by have := hdist_lt d.size k.hash s hsize; omega)

theorem lookupLoop_sound (size : Nat) (hsize : 0 < size) (fuel : Nat) :
    ∀ (data : Nat → Option (SymK × Nat)) (idx : Nat) (k : SymK) (r : Nat),
    lookupLoop size fuel data idx k = some (some r) →
    storeD size data k r := by
  induction fuel with
  | zero =>
    intro data idx k r h
    cases h
  | succ f ih =>
    intro data idx k r h
    rw [lookupLoop] at h
    cases hentry : data (idx % size) with
    | none =>
      rw [hentry] at h
      cases h
    | some kv =>
      obtain ⟨k2, v2⟩ := kv
      rw [hentry] at h
      dsimp only at h
      cases hcmp : cmpSym k2 k with
      | eq =>
        rw [hcmp] at h
        injection h with h1
        injection h1 with h2
        refine ⟨idx % size, Nat.mod_lt _ hsize, ?_⟩
        rw [hentry, (cmpSym_eq_iff k2 k).mp hcmp, h2]
      | lt =>
        rw [hcmp] at h
        exact ih data (idx + 1) k r h
      | gt =>
        rw [hcmp] at h
        cases h

theorem lookupInDict_sound (d : HDict) (k : SymK) (r : Nat)
    (h : lookupInDict d k = some (some r)) : storeD d.size d.data k r := by
  unfold lookupInDict at h
  by_cases hz : d.size = 0
  · rw [if_pos hz] at h
    cases h
  · rw [if_neg hz] at h
    exact lookupLoop_sound d.size (by omega) d.size d.data k.hash k r h

theorem putCore_spec (d : HDict) (k : SymK) (v : Nat)
    (hwf : dictWF d) (hsize : 0 < d.size) (hroom : d.used * 2 ≤ d.size)
    (habsent : ∀ w, ¬ storeD d.size d.data k w) :
    ∃ d2, putCore d k v = some (d2, none) ∧ dictWF d2 ∧
      d2.size = d.size ∧ d2.used = d.used + 1 ∧
      storeD d2.size d2.data k v ∧
      (∀ k3 w, k3 ≠ k →
        (storeD d2.size d2.data k3 w ↔ storeD d.size d.data k3 w)) := by
  obtain ⟨hinv, hused⟩ := hwf
  have hcount : countF d.size d.data < d.size := by omega
  obtain ⟨s0, hs0, hnone⟩ := countF_all_some d.size d.data hcount
  have habs2 : ∀ s, s < d.size → ∀ w, d.data s ≠ some (k, w) := by
    intro s hs w hcontra
    exact habsent w ⟨s, hs, hcontra⟩
  have hempty : d.data ((k.hash + hdist d.size k.hash s0) % d.size) = none := by
    rw [slot_eq_of_lt d.size s0 hsize hs0 k.hash]
    exact hnone
  obtain ⟨data2, hrun, hinv2, hst, hiff, hcnt⟩ :=
    putLoop_spec d.size hsize (hdist d.size k.hash s0) d.size d.data k.hash
      k v (by have := hdist_lt d.size k.hash s0 hsize; omega) hempty hinv
      (fun j hj => absurd hj (by rw [hdist_self d.size k.hash hsize]; omega))
      habs2
  refine ⟨⟨d.size, d.used + 1, data2⟩, ?_, ⟨hinv2, ?_⟩, rfl, rfl, hst, hiff⟩
  · unfold putCore
    rw [hrun]
  · dsimp only
    rw [hcnt]
    omega

theorem countF_succ (i : Nat) (data : Nat → Option (SymK × Nat)) :
    countF (i + 1) data
      = countF i data + (if (data i).isSome then 1 else 0) := by
  unfold countF
  rw [List.range_succ, List.filter_append, List.length_append]
  congr 1
  rw [List.filter_cons, List.filter_nil]
  cases hd : ((data i).isSome : Bool)
  · simp
  · simp

theorem reinsert_spec (oldSize : Nat) (old : Nat → Option (SymK × Nat))
    (hsize : 0 < oldSize) (hinvOld : dictINV oldSize old) :
    ∀ i, i ≤ oldSize →
    ∃ acc2, reinsertLoop i old ⟨oldSize * 2, 0, fun _ => none⟩ = some acc2 ∧
      dictWF acc2 ∧ acc2.size = oldSize * 2 ∧
      acc2.used = countF i old ∧
      (∀ k w, storeD acc2.size acc2.data k w
        ↔ ∃ s, s < i ∧ old s = some (k, w)) := by
  intro i
  induction i with
  | zero =>
    intro hi
    refine ⟨⟨oldSize * 2, 0, fun _ => none⟩, rfl, ⟨?_, ?_⟩, rfl, ?_, ?_⟩
    · intro s hs e v hdat
      cases hdat
    · show 0 = countF (oldSize * 2) (fun _ => none)
      unfold countF
      rw [List.filter_eq_nil_iff.mpr (fun x hx => by simp)]
      rfl
    · show 0 = countF 0 old
      rfl
    · intro k w
      constructor
      · rintro ⟨s, hs, hdat⟩
        cases hdat
      · rintro ⟨s, hs, hdat⟩
        omega
  | succ i ih =>
    intro hi
    obtain ⟨acc1, hrun1, hwf1, hsz1, hused1, hiff1⟩ := ih (by omega)
    cases hold : old i with
    | none =>
      refine ⟨acc1, ?_, hwf1, hsz1, ?_, ?_⟩
      · rw [reinsertLoop, hrun1]
        dsimp only
        rw [hold]
      · rw [hused1, countF_succ, hold]
        rfl
      · intro k w
        rw [hiff1 k w]
        constructor
        · rintro ⟨s, hs, hdat⟩
          exact ⟨s, by omega, hdat⟩
        · rintro ⟨s, hs, hdat⟩
          refine ⟨s, ?_, hdat⟩
          by_contra hsi
          have hsieq : s = i := by omega
          rw [hsieq, hold] at hdat
          cases hdat
    | some kv =>
      obtain ⟨k0, v0⟩ := kv
      have habsent : ∀ w, ¬ storeD acc1.size acc1.data k0 w := by
        intro w hcontra
        rw [hiff1 k0 w] at hcontra
        obtain ⟨s, hs, hdat⟩ := hcontra
        obtain ⟨hseq, -⟩ := stored_unique oldSize old hsize hinvOld k0
          s i w v0 (by omega) (by omega) hdat hold
        omega
      have hcle : countF i old ≤ i := by
        unfold countF
        calc ((List.range i).filter _).length
            ≤ (List.range i).length := List.length_filter_le _ _
          _ = i := List.length_range i
      obtain ⟨acc2, hrun2, hwf2, hsz2, hused2, hst2, hiff2⟩ :=
        putCore_spec acc1 k0 v0 hwf1 (by omega) (by omega) habsent
      refine ⟨acc2, ?_, hwf2, by omega, ?_, ?_⟩
      · rw [reinsertLoop, hrun1]
        dsimp only
        rw [hold]
        dsimp only
        rw [hrun2]
      · rw [hused2, hused1, countF_succ, hold]
        rfl
      · intro k w
        by_cases hkk0 : k = k0
        · subst hkk0
          constructor
          · intro hst
            obtain ⟨s, hs, hd⟩ := hst
            obtain ⟨s1, hs1, hd1⟩ := hst2
            obtain ⟨-, hv⟩ := stored_unique acc2.size acc2.data (by omega)
              hwf2.1 k s s1 w v0 hs hs1 hd hd1
            exact ⟨i, by omega, by rw [hold, hv]⟩
          · rintro ⟨s, hs, hd⟩
            obtain ⟨hseq, hveq⟩ := stored_unique oldSize old hsize hinvOld k
              s i w v0 (by omega) (by omega) hd hold
            rw [hveq]
            exact hst2
        · rw [hiff2 k w hkk0, hiff1 k w]
          constructor
          · rintro ⟨s, hs, hd⟩
            exact ⟨s, by omega, hd⟩
          · rintro ⟨s, hs, hd⟩
            refine ⟨s, ?_, hd⟩
            by_contra hsi
            have hsieq : s = i := by omega
            rw [hsieq, hold] at hd
            injection hd with h1
            injection h1 with h2 h3
            exact hkk0 h2.symm

theorem enlargeDict_spec (d : HDict) (hwf : dictWF d) :
    ∃ d1, enlargeDict d = some d1 ∧ dictWF d1 ∧ 0 < d1.size ∧
      d1.used * 2 ≤ d1.size ∧
      (∀ k w, storeD d1.size d1.data k w ↔ storeD d.size d.data k w) := by
  unfold enlargeDict
  by_cases hz : d.size = 0
  · rw [if_pos hz]
    refine ⟨⟨8, 0, fun _ => none⟩, rfl, ⟨?_, ?_⟩, by decide, by decide, ?_⟩
    · intro s hs e v hdat
      cases hdat
    · show 0 = countF 8 (fun _ => none)
      unfold countF
      rw [List.filter_eq_nil_iff.mpr (fun x hx => by simp)]
      rfl
    · intro k w
      constructor
      · rintro ⟨s, hs, hdat⟩
        cases hdat
      · rintro ⟨s, hs, hdat⟩
        omega
  · rw [if_neg hz]
    obtain ⟨acc2, hrun, hwf2, hsz, hused, hiff⟩ :=
      reinsert_spec d.size d.data (by omega) hwf.1 d.size (le_refl _)
    refine ⟨acc2, hrun, hwf2, by omega, ?_, ?_⟩
    · have hle : countF d.size d.data ≤ d.size := by
        unfold countF
        calc ((List.range d.size).filter _).length
            ≤ (List.range d.size).length := List.length_filter_le _ _
          _ = d.size := List.length_range d.size
      omega
    · intro k w
      rw [hiff k w]
      rfl

theorem putInDict_spec (d : HDict) (k : SymK) (v : Nat)
    (hwf : dictWF d) (habsent : ∀ w, ¬ storeD d.size d.data k w) :
    ∃ d2, putInDict d k v = some (d2, none) ∧ dictWF d2 ∧ 0 < d2.size ∧
      storeD d2.size d2.data k v ∧
      (∀ k3 w, k3 ≠ k →
        (storeD d2.size d2.data k3 w ↔ storeD d.size d.data k3 w)) := by
  unfold putInDict
  by_cases hcond : d.size = 0 ∨ d.size < d.used * 2
  · rw [if_pos hcond]
    obtain ⟨d1, hrun1, hwf1, hpos1, hroom1, hiff1⟩ := enlargeDict_spec d hwf
    have habsent1 : ∀ w, ¬ storeD d1.size d1.data k w := by
      intro w hcontra
      exact habsent w ((hiff1 k w).mp hcontra)
    obtain ⟨d2, hrun2, hwf2, hsz2, hused2, hst2, hiff2⟩ :=
      putCore_spec d1 k v hwf1 hpos1 hroom1 habsent1
    refine ⟨d2, ?_, hwf2, by omega, hst2, ?_⟩
    · rw [hrun1]
      dsimp only
      rw [hrun2]
    · intro k3 w hk3
      rw [hiff2 k3 w hk3, hiff1 k3 w]
  · rw [if_neg hcond]
    push_neg at hcond
    obtain ⟨d2, hrun2, hwf2, hsz2, hused2, hst2, hiff2⟩ :=
      putCore_spec d k v hwf (by omega) (by omega) habsent
    exact ⟨d2, hrun2, hwf2, by omega, hst2, hiff2⟩

theorem wrapSymbol_step (p : SymPool) (hwf : poolWF p) (t : List Char)
    (p1 : SymPool) (a1 : Nat) (h : wrapSymbol p t = some (p1, a1)) :
    poolWF p1 ∧ internedTo p1 t a1 ∧
    (∀ t2 a, internedTo p t2 a → internedTo p1 t2 a) := by
  unfold wrapSymbol at h
  cases hl : lookupInDict p.dict (keyOf t) with
  | none =>
    rw [hl] at h
    cases h
  | some r =>
    cases r with
    | some a =>
      rw [hl] at h
      injection h with h1
      injection h1 with h2 h3
      subst h2
      subst h3
      exact ⟨hwf, lookupInDict_sound p.dict (keyOf t) _ hl,
        fun t2 b hb => hb⟩
    | none =>
      rw [hl] at h
      have habsent : ∀ w, ¬ storeD p.dict.size p.dict.data (keyOf t) w := by
        intro w hcontra
        rw [lookupInDict_finds p.dict (keyOf t) w hwf.1 hcontra] at hl
        cases hl
      obtain ⟨d2, hrun, hwf2, hpos, hst, hiff⟩ :=
        putInDict_spec p.dict (keyOf t) p.syms.length hwf habsent
      rw [hrun] at h
      dsimp only at h
      injection h with h1
      injection h1 with h2 h3
      subst h3
      rw [← h2]
      refine ⟨hwf2, hst, ?_⟩
      intro t2 a ha
      have ha2 : storeD p.dict.size p.dict.data (keyOf t2) a := ha
      show storeD d2.size d2.data (keyOf t2) a
      by_cases hk : keyOf t2 = keyOf t
      · rw [hk] at ha2
        exact absurd ha2 (habsent a)
      · exact (hiff (keyOf t2) a hk).mpr ha2

theorem wrapSymbol_hit (p : SymPool) (t : List Char) (a : Nat)
    (hwf : poolWF p) (hint : internedTo p t a) :
    wrapSymbol p t = some (p, a) := by
  unfold wrapSymbol
  rw [lookupInDict_finds p.dict (keyOf t) a hwf.1 hint]

/-- C4: symbols are globally interned.  `wrap_symbol`
(`src/scheme.c:2741-2763`) looks the name up in the pool first and
returns the existing symbol object; only an unknown name allocates.
Over any well-formed pool: after `wrap_symbol(t)` returns object
`a1`, calling it again with the byte-equal name returns the same
`a1` and leaves the pool unchanged; this persists across an
intervening `wrap_symbol` of any other name, and an intervening call
with the byte-equal name returns exactly `a1`.  Well-formedness — the
ordered-probing invariant of the pool dictionary — is preserved by
every call. -/
theorem claim_C4_symbol_interning (p : SymPool) (hwf : poolWF p)
    (t t2 : List Char) (p1 p2 : SymPool) (a1 a2 : Nat)
    (h1 : wrapSymbol p t = some (p1, a1))
    (h2 : wrapSymbol p1 t2 = some (p2, a2)) :
    wrapSymbol p1 t = some (p1, a1) ∧
    wrapSymbol p2 t = some (p2, a1) ∧
    poolWF p1 ∧ poolWF p2 ∧
    (t2 = t → a2 = a1 ∧ p2 = p1) := by
  obtain ⟨hwf1, hint1, hpres1⟩ := wrapSymbol_step p hwf t p1 a1 h1
  obtain ⟨hwf2, hint2, hpres2⟩ := wrapSymbol_step p1 hwf1 t2 p2 a2 h2
  refine ⟨wrapSymbol_hit p1 t a1 hwf1 hint1,
    wrapSymbol_hit p2 t a1 hwf2 (hpres2 t a1 hint1), hwf1, hwf2, ?_⟩
  intro ht
  subst ht
  have hsame := wrapSymbol_hit p1 t2 a1 hwf1 hint1
  rw [hsame] at h2
  injection h2 with h3
  injection h3 with h4 h5
  exact ⟨h5.symm, h4.symm⟩

/-- Witness for `claim_C4_symbol_interning`: interning `fo`, then
`ba`, then `fo` again on the empty pool returns the first object
for `fo` both times. -/
theorem claim_C4_symbol_interning_witness :
    poolWF ⟨⟨0, 0, fun _ => none⟩, []⟩ ∧
    ∃ p1 p2 a1 a2,
      wrapSymbol ⟨⟨0, 0, fun _ => none⟩, []⟩ [ 'f', 'o' ] = some (p1, a1) ∧
      wrapSymbol p1 [ 'b', 'a' ] = some (p2, a2) ∧
      wrapSymbol p1 [ 'f', 'o' ] = some (p1, a1) ∧
      wrapSymbol p2 [ 'f', 'o' ] = some (p2, a1) := by
  have hwf : poolWF ⟨⟨0, 0, fun _ => none⟩, []⟩ :=
    ⟨fun s hs e v hd => absurd hs (Nat.not_lt_zero s), rfl⟩
  refine ⟨hwf, _, _, _, _, rfl, rfl, ?_, ?_⟩
  · obtain ⟨hh1, -, -, -, -⟩ := claim_C4_symbol_interning
      ⟨⟨0, 0, fun _ => none⟩, []⟩ hwf [ 'f', 'o' ] [ 'b', 'a' ]
      _ _ _ _ rfl rfl
    exact hh1
  · obtain ⟨-, hh2, -, -, -⟩ := claim_C4_symbol_interning
      ⟨⟨0, 0, fun _ => none⟩, []⟩ hwf [ 'f', 'o' ] [ 'b', 'a' ]
      _ _ _ _ rfl rfl
    exact hh2
